import Mathlib

/-!
Hybrid n-Sudoku solver (`Resolver.cpp`): shallow embedding and verified properties.

The class `ResolvedorSudokuHibrido` is embedded as pure functions over an explicit
state record `Estado`; every method takes the state and returns the new one.

Modelling decisions:

* `std::bitset<26>` is a natural number read through `Nat.testBit`; only the bit
  positions `0..25` exist. `set(pos)` and `reset(pos)` throw `std::out_of_range` for
  `pos >= 26` (a negative `int` converts to a huge `size_t`): in `cargarSudoku`, where
  the position is an unvalidated input value, that is the result `none`.
* The fixed arrays `T x[25]` are functions `Fin 25 → T`, read and written through
  `leer` / `escribir` with natural-number indices. An index outside the array is
  undefined behaviour in C++; every statement below keeps indices inside the board.
* A `return` from the middle of a loop is an explicit result constructor (`Pasada`,
  `Seleccion`), and the loops are recursions over the list of the loop values.
* The recursion of `resolverBacktracking` is driven by a fuel argument; `none` means
  that the fuel ran out, never a result of the program. The search is shown to return
  as soon as the fuel exceeds the number of empty cells.

Contents:

Definitions come first: the solver, then the specification-level predicates
(`EnRango`, `SinRepetidos`, `Consistente`, `Completo`, `Invariante`, …), the concrete
boards used as instances, the text layer of `ProcesadorMultipleSudoku` (parsing and
writing) and the standalone validator of `Validar.cpp`. The theorems follow: basic
facts, the loader, the validator, the invariant of the search, partial correctness,
termination and completeness of the search, the statements about `resolverSudoku`, the
propagation and the cell-selection scan, the text layer, and the agreement of the two
validators.
-/

namespace Sudoku

/-! ## Bit vectors (`std::bitset<26>`) -/

/-- A `std::bitset<26>`: bit `k` is `Nat.testBit b k`. -/
abbrev Bitset := Nat

namespace Bitset

/-- The value after `bitset::reset()`: every bit cleared. -/
def vacio : Bitset := 0

/-- Reading one bit, `b[pos]`. -/
def test (b : Bitset) (pos : Nat) : Bool := Nat.testBit b pos

/-- The call `b.set(pos)` for a position below 26. The library throws for a position
from 26 on: `cargarSudoku`, which takes positions from its input, tests for that case
before it calls (`llenarBits`, `cargarCeldas`); `colocarValor` and `quitarValor` are
only called with a `v` of `1..tamano`, and there a position from 26 on leaves the
vector as it is. -/
def set (b : Bitset) (pos : Nat) : Bitset :=
  if pos < 26 then b ||| 2 ^ pos else b

/-- The call `b.reset(pos)` for a position below 26 (see `set`). -/
def reset (b : Bitset) (pos : Nat) : Bitset :=
  if pos < 26 then b ^^^ (b &&& 2 ^ pos) else b

/-- Bitwise and, `a & b`. -/
def inter (a b : Bitset) : Bitset := a &&& b

/-- The number of set bits among the 26 positions, `b.count()`. -/
def count (b : Bitset) : Nat := (List.range 26).countP (fun k => test b k)

end Bitset

/-! ## Fixed-size arrays -/

/-- A C array of 25 elements. -/
abbrev Arreglo (α : Type) := Fin 25 → α

/-- Reading `a[i]`; an index outside the array (undefined in C++) reads `d`. -/
def leer {α : Type} (d : α) (a : Arreglo α) (i : Nat) : α :=
  if h : i < 25 then a ⟨i, h⟩ else d

/-- Writing `a[i] = x`; an index outside the array leaves it unchanged. -/
def escribir {α : Type} (a : Arreglo α) (i : Nat) (x : α) : Arreglo α :=
  fun k => if k.val = i then x else a k

/-- The grid `int sudoku[25][25]`. -/
abbrev Tablero := Arreglo (Arreglo Int)

/-- Reading `sudoku[i][j]`. -/
def leerCelda (g : Tablero) (i j : Nat) : Int :=
  leer 0 (leer (fun _ => 0) g i) j

/-- Writing `sudoku[i][j] = x`. -/
def escribirCelda (g : Tablero) (i j : Nat) (x : Int) : Tablero :=
  escribir g i (escribir (leer (fun _ => 0) g i) j x)

/-! ## Solver state -/

/-- The data members of `ResolvedorSudokuHibrido`. The `int` members `n` and `tamano`
and the loop indices are natural numbers (the solver is used with `1 ≤ n ≤ 5`), the
`long long` counter `nodosExplorados` is a natural number (it cannot overflow within
the life of a run), and cell values and `celdasVacias` are integers. -/
structure Estado where
  sudoku : Tablero
  filaCandidatos : Arreglo Bitset
  colCandidatos : Arreglo Bitset
  bloqueCandidatos : Arreglo Bitset
  n : Nat
  tamano : Nat
  nodosExplorados : Nat
  celdasVacias : Int

/-- The state built by the constructor: zeroed grid and counters, empty bit vectors. -/
def Estado.inicial : Estado :=
  { sudoku := fun _ _ => 0
    filaCandidatos := fun _ => Bitset.vacio
    colCandidatos := fun _ => Bitset.vacio
    bloqueCandidatos := fun _ => Bitset.vacio
    n := 0
    tamano := 0
    nodosExplorados := 0
    celdasVacias := 0 }

/-- Block index of a cell: `(fila / n) * n + (col / n)`. -/
def obtenerBloque (st : Estado) (fila col : Nat) : Nat :=
  (fila / st.n) * st.n + col / st.n

/-- Candidates of a cell: `filaCandidatos[fila] & colCandidatos[col] & bloqueCandidatos[bloque]`. -/
def obtenerCandidatos (st : Estado) (fila col : Nat) : Bitset :=
  Bitset.inter
    (Bitset.inter (leer 0 st.filaCandidatos fila) (leer 0 st.colCandidatos col))
    (leer 0 st.bloqueCandidatos (obtenerBloque st fila col))

/-- Placing a value: writes the cell and clears the bit in the three vectors. -/
def colocarValor (st : Estado) (fila col valor : Nat) : Estado :=
  let bloque := obtenerBloque st fila col
  { st with
    sudoku := escribirCelda st.sudoku fila col (valor : Int)
    filaCandidatos :=
      escribir st.filaCandidatos fila (Bitset.reset (leer 0 st.filaCandidatos fila) valor)
    colCandidatos :=
      escribir st.colCandidatos col (Bitset.reset (leer 0 st.colCandidatos col) valor)
    bloqueCandidatos :=
      escribir st.bloqueCandidatos bloque
        (Bitset.reset (leer 0 st.bloqueCandidatos bloque) valor) }

/-- Removing a value: clears the cell and sets the bit in the three vectors. -/
def quitarValor (st : Estado) (fila col valor : Nat) : Estado :=
  let bloque := obtenerBloque st fila col
  { st with
    sudoku := escribirCelda st.sudoku fila col 0
    filaCandidatos :=
      escribir st.filaCandidatos fila (Bitset.set (leer 0 st.filaCandidatos fila) valor)
    colCandidatos :=
      escribir st.colCandidatos col (Bitset.set (leer 0 st.colCandidatos col) valor)
    bloqueCandidatos :=
      escribir st.bloqueCandidatos bloque
        (Bitset.set (leer 0 st.bloqueCandidatos bloque) valor) }

/-- The cells `(i, j)` with `i, j < tamano` in the order of the nested loops
`for i … for j …` (row-major). -/
def celdas (tamano : Nat) : List (Nat × Nat) :=
  (List.range tamano).flatMap (fun i => (List.range tamano).map (fun j => (i, j)))

/-! ## Constraint propagation -/

/-- The first `v` in `1..tamano` (ascending) whose bit is set: the inner
`for (v = 1; v <= tamano; v++) if (candidatos[v]) { …; break; }`. -/
def primerCandidato (candidatos : Bitset) (tamano : Nat) : Option Nat :=
  (List.range' 1 tamano).find? (fun v => Bitset.test candidatos v)

/-- Outcome of one full scan of the board inside `propagarRestricciones`. -/
inductive Pasada where
  /-- The scan hit `return false` (an empty cell without candidates). -/
  | fallo (st : Estado)
  /-- The scan visited every cell; `cambios` is the flag at its end. -/
  | fin (st : Estado) (cambios : Bool)

/-- The body of the two nested loops of `propagarRestricciones` over the given cells. -/
def propagarPasada : List (Nat × Nat) → Estado → Bool → Pasada
  | [], st, cambios => Pasada.fin st cambios
  | (i, j) :: resto, st, cambios =>
    if leerCelda st.sudoku i j = 0 then
      let candidatos := obtenerCandidatos st i j
      let numCandidatos := Bitset.count candidatos
      if numCandidatos = 0 then Pasada.fallo st
      else if numCandidatos = 1 then
        match primerCandidato candidatos st.tamano with
        | some v =>
          propagarPasada resto
            { colocarValor st i j v with celdasVacias := st.celdasVacias - 1 } true
        | none => propagarPasada resto st cambios
      else propagarPasada resto st cambios
    else propagarPasada resto st cambios

/-- The loop `while (cambios && iteraciones < 10)`; the first argument is the number
of iterations still allowed. -/
def propagarBucle : Nat → Estado → Bool × Estado
  | 0, st => (true, st)
  | k + 1, st =>
    match propagarPasada (celdas st.tamano) st false with
    | Pasada.fallo st1 => (false, st1)
    | Pasada.fin st1 cambios => if cambios then propagarBucle k st1 else (true, st1)

/-- Naked-singles propagation: result flag and state after the call. -/
def propagarRestricciones (st : Estado) : Bool × Estado :=
  if st.tamano ≤ 9 then (true, st) else propagarBucle 10 st

/-! ## Backtracking search -/

/-- Outcome of the cell-selection scan of `resolverBacktracking`. -/
inductive Seleccion where
  /-- The scan hit `return false` (an empty cell without candidates). -/
  | muerto
  /-- The scan ended at label `encontrado`; `none` stands for `mejorFila == -1`. -/
  | elegida (mejor : Option (Nat × Nat))
  deriving DecidableEq

/-- The MRV scan over the given cells, with the current best cell and `minCandidatos`. -/
def buscarMRV (st : Estado) : List (Nat × Nat) → Option (Nat × Nat) → Nat → Seleccion
  | [], mejor, _ => Seleccion.elegida mejor
  | (i, j) :: resto, mejor, minCandidatos =>
    if leerCelda st.sudoku i j = 0 then
      let numCandidatos := Bitset.count (obtenerCandidatos st i j)
      if numCandidatos = 0 then Seleccion.muerto
      else if numCandidatos < minCandidatos then
        if numCandidatos = 1 then Seleccion.elegida (some (i, j))
        else buscarMRV st resto (some (i, j)) numCandidatos
      else buscarMRV st resto mejor minCandidatos
    else buscarMRV st resto mejor minCandidatos

/-- Undoing a failed trial: `quitarValor`, then the three saved vectors are written
back (the block one at the index `bloque` computed before the trial) and
`celdasVacias` is incremented. -/
def restaurar (st : Estado) (fila col v bloque : Nat)
    (filaBackup colBackup bloqueBackup : Bitset) : Estado :=
  let st1 := quitarValor st fila col v
  { st1 with
    filaCandidatos := escribir st1.filaCandidatos fila filaBackup
    colCandidatos := escribir st1.colCandidatos col colBackup
    bloqueCandidatos := escribir st1.bloqueCandidatos bloque bloqueBackup
    celdasVacias := st1.celdasVacias + 1 }

/-- The trial loop `for (v = 1; v <= tamano; v++)` over the values still to try;
`recursion` is the recursive call of `resolverBacktracking`. -/
def probar (recursion : Estado → Option (Bool × Estado)) (fila col : Nat)
    (candidatos : Bitset) : List Nat → Estado → Option (Bool × Estado)
  | [], st => some (false, st)
  | v :: vs, st =>
    if Bitset.test candidatos v then
      let filaBackup := leer 0 st.filaCandidatos fila
      let colBackup := leer 0 st.colCandidatos col
      let bloque := obtenerBloque st fila col
      let bloqueBackup := leer 0 st.bloqueCandidatos bloque
      match recursion { colocarValor st fila col v with celdasVacias := st.celdasVacias - 1 } with
      | none => none
      | some (true, st1) => some (true, st1)
      | some (false, st1) =>
        probar recursion fila col candidatos vs
          (restaurar st1 fila col v bloque filaBackup colBackup bloqueBackup)
    else probar recursion fila col candidatos vs st

/-- The periodic propagation at the head of `resolverBacktracking`. -/
def propagacionPeriodica (st : Estado) : Bool × Estado :=
  if st.tamano > 16 ∧ st.nodosExplorados % 100 = 0 then propagarRestricciones st
  else (true, st)

/-- The recursive search `resolverBacktracking`; `none` only when the fuel is used up. -/
def resolverBacktracking : Nat → Estado → Option (Bool × Estado)
  | 0, _ => none
  | fuel + 1, st0 =>
    let st1 := { st0 with nodosExplorados := st0.nodosExplorados + 1 }
    match propagacionPeriodica st1 with
    | (false, st2) => some (false, st2)
    | (true, st2) =>
      if st2.celdasVacias = 0 then some (true, st2)
      else
        match buscarMRV st2 (celdas st2.tamano) none (st2.tamano + 1) with
        | Seleccion.muerto => some (false, st2)
        | Seleccion.elegida none => some (decide (st2.celdasVacias = 0), st2)
        | Seleccion.elegida (some (mejorFila, mejorCol)) =>
          probar (resolverBacktracking fuel) mejorFila mejorCol
            (obtenerCandidatos st2 mejorFila mejorCol) (List.range' 1 st2.tamano) st2

/-! ## Loading and validating -/

/-- The element `tablero[i][j]` of the input `vector<vector<int>>`. -/
def entrada (tablero : List (List Int)) (i j : Nat) : Int :=
  (tablero.getD i []).getD j 0

/-- The loop `for (i = 0; i < 25; i++) x[i].reset()` over the given indices. -/
def limpiarCandidatos : List Nat → Arreglo Bitset → Arreglo Bitset
  | [], a => a
  | i :: resto, a => limpiarCandidatos resto (escribir a i Bitset.vacio)

/-- The loop `for v in 1..tamano: x[i].set(v)` on one vector; `none` when `set`
throws `std::out_of_range` (a position from 26 on). -/
def llenarBits : List Nat → Bitset → Option Bitset
  | [], b => some b
  | v :: vs, b => if v < 26 then llenarBits vs (Bitset.set b v) else none

/-- The loop `for i < tamano: for v in 1..tamano: x[i].set(v)` for one of the three
arrays (the three are filled alike and independently). -/
def llenarCandidatos (tamano : Nat) : List Nat → Arreglo Bitset → Option (Arreglo Bitset)
  | [], a => some a
  | i :: resto, a =>
    match llenarBits (List.range' 1 tamano) (leer 0 a i) with
    | none => none
    | some b => llenarCandidatos tamano resto (escribir a i b)

/-- The loop "Cargar tablero" of `cargarSudoku` over the given cells; `none` when
`bitset::reset(valor)` throws `std::out_of_range` (`valor` negative or above 25). -/
def cargarCeldas (tablero : List (List Int)) : List (Nat × Nat) → Estado → Option Estado
  | [], st => some st
  | (i, j) :: resto, st =>
    let valor := entrada tablero i j
    let st1 := { st with sudoku := escribirCelda st.sudoku i j valor }
    if valor = 0 then
      cargarCeldas tablero resto { st1 with celdasVacias := st1.celdasVacias + 1 }
    else if 0 ≤ valor ∧ valor < 26 then
      let bloque := obtenerBloque st1 i j
      cargarCeldas tablero resto
        { st1 with
          filaCandidatos :=
            escribir st1.filaCandidatos i
              (Bitset.reset (leer 0 st1.filaCandidatos i) valor.toNat)
          colCandidatos :=
            escribir st1.colCandidatos j
              (Bitset.reset (leer 0 st1.colCandidatos j) valor.toNat)
          bloqueCandidatos :=
            escribir st1.bloqueCandidatos bloque
              (Bitset.reset (leer 0 st1.bloqueCandidatos bloque) valor.toNat) }
    else none

/-- The method `cargarSudoku(tablero, nParam)` run on the solver state `previo`;
`none` when an exception leaves the method. -/
def cargarSudoku (previo : Estado) (tablero : List (List Int)) (nParam : Nat) : Option Estado :=
  let tamano := nParam * nParam
  let fila0 := limpiarCandidatos (List.range 25) previo.filaCandidatos
  let col0 := limpiarCandidatos (List.range 25) previo.colCandidatos
  let bloque0 := limpiarCandidatos (List.range 25) previo.bloqueCandidatos
  match llenarCandidatos tamano (List.range tamano) fila0,
        llenarCandidatos tamano (List.range tamano) col0,
        llenarCandidatos tamano (List.range tamano) bloque0 with
  | some fila1, some col1, some bloque1 =>
    cargarCeldas tablero (celdas tamano)
      { previo with
        n := nParam
        tamano := tamano
        nodosExplorados := 0
        celdasVacias := 0
        filaCandidatos := fila1
        colCandidatos := col1
        bloqueCandidatos := bloque1
        sudoku := fun _ _ => 0 }
  | _, _, _ => none

/-- One `vistos` scan of `validarEstadoInicial` over the cells of a row, a column or a
block; `conRango` is true for the row pass, the only one with the range test. -/
def validarUnidad (st : Estado) (conRango : Bool) : List (Nat × Nat) → Bitset → Bool
  | [], _ => true
  | (i, j) :: resto, vistos =>
    let valor := leerCelda st.sudoku i j
    if valor ≠ 0 then
      if conRango && (decide (valor < 1) || decide (valor > (st.tamano : Int))) then false
      else if Bitset.test vistos valor.toNat then false
      else validarUnidad st conRango resto (vistos ||| 2 ^ valor.toNat)
    else validarUnidad st conRango resto vistos

/-- The cells of row `i`, in scan order. -/
def celdasFila (tamano i : Nat) : List (Nat × Nat) :=
  (List.range tamano).map (fun j => (i, j))

/-- The cells of column `j`, in scan order. -/
def celdasColumna (tamano j : Nat) : List (Nat × Nat) :=
  (List.range tamano).map (fun i => (i, j))

/-- The cells scanned for block `b`: rows `(b / n) * n + i`, columns `(b % n) * n + j`. -/
def celdasBloque (n b : Nat) : List (Nat × Nat) :=
  (List.range n).flatMap (fun i => (List.range n).map (fun j => ((b / n) * n + i, (b % n) * n + j)))

/-- The method `validarEstadoInicial`. -/
def validarEstadoInicial (st : Estado) : Bool :=
  (List.range st.tamano).all (fun i => validarUnidad st true (celdasFila st.tamano i) Bitset.vacio)
  && (List.range st.tamano).all
      (fun j => validarUnidad st false (celdasColumna st.tamano j) Bitset.vacio)
  && (List.range st.tamano).all
      (fun b => validarUnidad st false (celdasBloque st.n b) Bitset.vacio)

/-- The method `resolverSudoku`, with the fuel handed to the search. -/
def resolverSudoku (fuel : Nat) (st : Estado) : Option (Bool × Estado) :=
  if !validarEstadoInicial st then some (false, st)
  else
    match (if st.tamano > 16 then propagarRestricciones st else (true, st)) with
    | (false, st1) => some (false, st1)
    | (true, st1) => resolverBacktracking fuel st1

/-- The method `obtenerSolucion`: a `tamano × tamano` copy of the grid. -/
def obtenerSolucion (st : Estado) : List (List Int) :=
  (List.range st.tamano).map (fun i => (List.range st.tamano).map (fun j => leerCelda st.sudoku i j))

/-! ## Specification-level notions -/

/-- The board as loaded from the empty solver, or the empty solver itself when the
load throws. Used to build concrete states. -/
def estadoDe (tablero : List (List Int)) (nParam : Nat) : Estado :=
  (cargarSudoku Estado.inicial tablero nParam).getD Estado.inicial

/-- The input is a `tamano × tamano` matrix. -/
def EsCuadrado (tablero : List (List Int)) (tamano : Nat) : Prop :=
  tablero.length = tamano ∧ ∀ fila ∈ tablero, fila.length = tamano

instance (tablero : List (List Int)) (tamano : Nat) : Decidable (EsCuadrado tablero tamano) := by
  unfold EsCuadrado; infer_instance

/-- Every entry of the `tamano × tamano` input lies in `[0, cota]`. -/
def EntradasEn (tablero : List (List Int)) (tamano : Nat) (cota : Int) : Prop :=
  ∀ i, i < tamano → ∀ j, j < tamano → 0 ≤ entrada tablero i j ∧ entrada tablero i j ≤ cota

instance (tablero : List (List Int)) (tamano : Nat) (cota : Int) :
    Decidable (EntradasEn tablero tamano cota) := by
  unfold EntradasEn; infer_instance

/-- The solver as the specification words it: validation, then the propagation pass for
every size above 9, then the search. -/
def resolverSudokuSegunSpec (fuel : Nat) (st : Estado) : Option (Bool × Estado) :=
  if !validarEstadoInicial st then some (false, st)
  else
    match (if st.tamano > 9 then propagarRestricciones st else (true, st)) with
    | (false, st1) => some (false, st1)
    | (true, st1) => resolverBacktracking fuel st1

/-- A row of 16 entries: `a`, `b`, then 14 empty cells. -/
def fila16 (a b : Int) : List Int := a :: b :: List.replicate 14 0

/-- A 16 × 16 board whose cell (0, 0) is empty and has no legal value: row 0 holds
1..15 and column 0 holds 16 (in row 4, outside the first block). -/
def tablero16 : List (List Int) :=
  [[0, 1, 2, 3, 4, 5, 6, 7, 8, 9, 10, 11, 12, 13, 14, 15],
   fila16 0 0, fila16 0 0, fila16 0 0, fila16 16 0,
   fila16 0 0, fila16 0 0, fila16 0 0, fila16 0 0,
   fila16 0 0, fila16 0 0, fila16 0 0, fila16 0 0,
   fila16 0 0, fila16 0 0, fila16 0 0]

/-- A 4 × 4 puzzle with four empty cells. -/
def tablero4 : List (List Int) :=
  [[1, 0, 3, 4], [3, 4, 0, 2], [0, 1, 4, 3], [4, 3, 2, 0]]

/-- A 4 × 4 board with the symbol 3 twice in row 0. -/
def tablero4Repetido : List (List Int) :=
  [[3, 3, 0, 0], [0, 0, 0, 0], [0, 0, 0, 0], [0, 0, 0, 0]]

/-- A 4 × 4 board with the entry 26, which is no bit position of a `bitset<26>`. -/
def tablero4Fuera : List (List Int) :=
  [[26, 0, 0, 0], [0, 0, 0, 0], [0, 0, 0, 0], [0, 0, 0, 0]]

/-- A solver state on an empty 25 × 25 grid (`n = 5`) in which every candidate vector
is empty, so that no cell has a legal value. -/
def estado25SinCandidatos : Estado :=
  { Estado.inicial with n := 5, tamano := 25, celdasVacias := 625 }

/-- A 4 × 4 board with a negative entry. -/
def tablero4Negativo : List (List Int) :=
  [[-1, 0, 0, 0], [0, 0, 0, 0], [0, 0, 0, 0], [0, 0, 0, 0]]

/-! ## Specification-level predicates on grids

A grid is read as a function `f : Nat → Nat → Int` of row and column (`0` = empty): the
input through `entrada tablero`, the solver's array through `leerCelda st.sudoku`. -/

/-- The value `v` occurs in row `r` of the `N × N` grid `f`. -/
def EnFila (f : Nat → Nat → Int) (N r : Nat) (v : Int) : Prop :=
  ∃ c, c < N ∧ f r c = v

/-- The value `v` occurs in column `c` of the `N × N` grid `f`. -/
def EnColumna (f : Nat → Nat → Int) (N c : Nat) (v : Int) : Prop :=
  ∃ r, r < N ∧ f r c = v

/-- The value `v` occurs in block `b` of the grid `f`, the block of a cell being
`(row / n) * n + col / n`. -/
def EnBloque (f : Nat → Nat → Int) (n b : Nat) (v : Int) : Prop :=
  ∃ r, r < n * n ∧ ∃ c, c < n * n ∧ (r / n) * n + c / n = b ∧ f r c = v

instance (f : Nat → Nat → Int) (N r : Nat) (v : Int) : Decidable (EnFila f N r v) := by
  unfold EnFila; infer_instance

instance (f : Nat → Nat → Int) (N c : Nat) (v : Int) : Decidable (EnColumna f N c v) := by
  unfold EnColumna; infer_instance

instance (f : Nat → Nat → Int) (n b : Nat) (v : Int) : Decidable (EnBloque f n b v) := by
  unfold EnBloque; infer_instance

/-- Every non-empty cell of the grid holds a symbol of `1..N`. -/
def EnRango (f : Nat → Nat → Int) (N : Nat) : Prop :=
  ∀ i, i < N → ∀ j, j < N → f i j ≠ 0 → 1 ≤ f i j ∧ f i j ≤ (N : Int)

/-- Two cells that may hold the same symbol: the same cell, or cells that differ in
row, in column and in `n × n` block. -/
def Compatibles (n i j i2 j2 : Nat) : Prop :=
  (i = i2 ∧ j = j2) ∨ (i ≠ i2 ∧ j ≠ j2 ∧ ¬ (i / n = i2 / n ∧ j / n = j2 / n))

instance (n i j i2 j2 : Nat) : Decidable (Compatibles n i j i2 j2) := by
  unfold Compatibles; infer_instance

/-- The cell `(i, j)` shares its non-zero value with no other cell of its row, of its
column or of its `n × n` block. -/
def SinRepetidosEn (f : Nat → Nat → Int) (n i j : Nat) : Prop :=
  ∀ i2, i2 < n * n → ∀ j2, j2 < n * n → f i j ≠ 0 → f i j = f i2 j2 →
    Compatibles n i j i2 j2

instance (f : Nat → Nat → Int) (n i j : Nat) : Decidable (SinRepetidosEn f n i j) := by
  unfold SinRepetidosEn; infer_instance

/-- No non-zero value appears twice in a row, a column or an `n × n` block. -/
def SinRepetidos (f : Nat → Nat → Int) (n : Nat) : Prop :=
  ∀ i, i < n * n → ∀ j, j < n * n → SinRepetidosEn f n i j

instance (f : Nat → Nat → Int) (N : Nat) : Decidable (EnRango f N) := by
  unfold EnRango; infer_instance

instance (f : Nat → Nat → Int) (n : Nat) : Decidable (SinRepetidos f n) := by
  unfold SinRepetidos; infer_instance

/-- The number of empty cells of the `N × N` grid. -/
def cerosDe (f : Nat → Nat → Int) (N : Nat) : Nat :=
  (celdas N).countP (fun p => decide (f p.1 p.2 = 0))

/-- The sizes of a loaded puzzle: `1 ≤ n ≤ 5` and `tamano = n * n`. -/
def Dimensionado (st : Estado) : Prop :=
  1 ≤ st.n ∧ st.n ≤ 5 ∧ st.tamano = st.n * st.n

instance (st : Estado) : Decidable (Dimensionado st) := by
  unfold Dimensionado; infer_instance

/-- The candidate vectors agree with the grid: bit `v` of the vector of a row, column or
block is set exactly when `v` is a symbol of `1..tamano` not used in that unit. -/
def Consistente (st : Estado) : Prop :=
  ∀ u, u < st.tamano → ∀ v, v < 26 →
    (Bitset.test (leer 0 st.filaCandidatos u) v = true ↔
      (1 ≤ v ∧ v ≤ st.tamano ∧ ¬ EnFila (leerCelda st.sudoku) st.tamano u v)) ∧
    (Bitset.test (leer 0 st.colCandidatos u) v = true ↔
      (1 ≤ v ∧ v ≤ st.tamano ∧ ¬ EnColumna (leerCelda st.sudoku) st.tamano u v)) ∧
    (Bitset.test (leer 0 st.bloqueCandidatos u) v = true ↔
      (1 ≤ v ∧ v ≤ st.tamano ∧ ¬ EnBloque (leerCelda st.sudoku) st.n u v))

instance (st : Estado) : Decidable (Consistente st) := by
  unfold Consistente; infer_instance

/-- Row `i` of an `N × N` matrix, as a list. -/
def filaDe (g : List (List Int)) (N i : Nat) : List Int :=
  (celdasFila N i).map (fun p => entrada g p.1 p.2)

/-- Column `j` of an `N × N` matrix, as a list. -/
def columnaDe (g : List (List Int)) (N j : Nat) : List Int :=
  (celdasColumna N j).map (fun p => entrada g p.1 p.2)

/-- The `n × n` block number `b` of a matrix, as a list. -/
def bloqueDe (g : List (List Int)) (n b : Nat) : List Int :=
  (celdasBloque n b).map (fun p => entrada g p.1 p.2)

/-- A completed board: an `n² × n²` matrix without empty cell in which every row, every
column and every `n × n` block contains each symbol of `1..n²` exactly once. -/
def Completo (n : Nat) (g : List (List Int)) : Prop :=
  EsCuadrado g (n * n) ∧
  (∀ i, i < n * n → ∀ j, j < n * n → entrada g i j ≠ 0) ∧
  ∀ u, u < n * n → ∀ v, v < n * n →
    (filaDe g (n * n) u).count ((v : Int) + 1) = 1 ∧
    (columnaDe g (n * n) u).count ((v : Int) + 1) = 1 ∧
    (bloqueDe g n u).count ((v : Int) + 1) = 1

instance (n : Nat) (g : List (List Int)) : Decidable (Completo n g) := by
  unfold Completo; infer_instance

/-- The matrix `s` agrees with `tablero` on every pre-filled cell. -/
def Extiende (N : Nat) (tablero s : List (List Int)) : Prop :=
  ∀ i, i < N → ∀ j, j < N → entrada tablero i j ≠ 0 → entrada s i j = entrada tablero i j

instance (N : Nat) (tablero s : List (List Int)) : Decidable (Extiende N tablero s) := by
  unfold Extiende; infer_instance

/-! ## Closed forms of the loading loops (used to reason about `cargarSudoku`) -/

/-- What the loading loop does to one of the three arrays of vectors: for every listed
cell with a non-zero entry, the bit of that entry is cleared in the vector `indice cell`. -/
def borrarUsados (g : Nat → Nat → Int) (indice : Nat × Nat → Nat) :
    List (Nat × Nat) → Arreglo Bitset → Arreglo Bitset
  | [], a => a
  | p :: resto, a =>
    if g p.1 p.2 = 0 then borrarUsados g indice resto a
    else
      borrarUsados g indice resto
        (escribir a (indice p) (Bitset.reset (leer 0 a (indice p)) (g p.1 p.2).toNat))

/-- What the loading loop does to the grid: every listed cell receives its entry. -/
def escribirEntradas (g : Nat → Nat → Int) : List (Nat × Nat) → Tablero → Tablero
  | [], t => t
  | p :: resto, t => escribirEntradas g resto (escribirCelda t p.1 p.2 (g p.1 p.2))

/-! ## Invariant of the search -/

/-- The state invariant of the solver: known sizes, candidate vectors that agree with
the grid, symbols in range and not repeated in any unit, and `celdasVacias` equal to
the number of empty cells of the board. -/
def Invariante (st : Estado) : Prop :=
  Dimensionado st ∧ Consistente st ∧
  EnRango (leerCelda st.sudoku) st.tamano ∧ SinRepetidos (leerCelda st.sudoku) st.n ∧
  st.celdasVacias = (cerosDe (leerCelda st.sudoku) st.tamano : Nat)

instance (st : Estado) : Decidable (Invariante st) := by
  unfold Invariante; infer_instance

/-- The grid `s` is a completed board of block size `n`: every cell holds a symbol of
`1..n²` and no symbol is repeated in a row, a column or a block. -/
def Completa (s : Nat → Nat → Int) (n : Nat) : Prop :=
  (∀ i, i < n * n → ∀ j, j < n * n → 1 ≤ s i j ∧ s i j ≤ ((n * n : Nat) : Int)) ∧
  SinRepetidos s n

/-- The grid `s` agrees with the grid `f` on every filled cell of the `N × N` board. -/
def Prolonga (N : Nat) (f s : Nat → Nat → Int) : Prop :=
  ∀ i, i < N → ∀ j, j < N → f i j ≠ 0 → s i j = f i j

/-- The state `st2` is a later state of the same puzzle as `st`: same sizes, and every
filled cell of `st` keeps its value. -/
def Sucede (st st2 : Estado) : Prop :=
  st2.n = st.n ∧ st2.tamano = st.tamano ∧
  Prolonga st.tamano (leerCelda st.sudoku) (leerCelda st2.sudoku)

/-- The grid `f` with the value `v` written in cell `(r, c)`. -/
def conValor (f : Nat → Nat → Int) (r c : Nat) (v : Int) : Nat → Nat → Int :=
  fun i j => if i = r ∧ j = c then v else f i j

/-- What a call of the search that returns `(b, st2)` from the state `st` guarantees:
on failure the state is `st` again up to the node counter; on success `st2` is a later
state of the same puzzle that keeps the invariant and has no empty cell left to count. -/
def Correcto (st : Estado) (b : Bool) (st2 : Estado) : Prop :=
  (b = false → ∃ k, st2 = { st with nodosExplorados := k }) ∧
  (b = true → Invariante st2 ∧ st2.celdasVacias = 0 ∧ Sucede st st2)

/-- The final state of a run that returned, or the empty solver when it did not. -/
def estadoFinal (resultado : Option (Bool × Estado)) : Estado :=
  (resultado.getD (false, Estado.inicial)).2

/-- The completed 4 × 4 board that solves `tablero4`. -/
def solucion4 : List (List Int) :=
  [[1, 2, 3, 4], [3, 4, 1, 2], [2, 1, 4, 3], [4, 3, 2, 1]]

/-- A 4 × 4 board without repeated symbols whose cell (0, 0) has no legal value: row 0
holds 1, 2, 3 and column 0 holds 4. -/
def tablero4Muerto : List (List Int) :=
  [[0, 1, 2, 3], [0, 0, 0, 0], [4, 0, 0, 0], [0, 0, 0, 0]]

/-! ## The solver with propagation disabled -/

/-- The search of a solver in which propagation is disabled entirely:
`resolverBacktracking` without its periodic call of `propagarRestricciones`. -/
def resolverBacktrackingSinPropagacion : Nat → Estado → Option (Bool × Estado)
  | 0, _ => none
  | fuel + 1, st0 =>
    let st1 := { st0 with nodosExplorados := st0.nodosExplorados + 1 }
    if st1.celdasVacias = 0 then some (true, st1)
    else
      match buscarMRV st1 (celdas st1.tamano) none (st1.tamano + 1) with
      | Seleccion.muerto => some (false, st1)
      | Seleccion.elegida none => some (decide (st1.celdasVacias = 0), st1)
      | Seleccion.elegida (some (mejorFila, mejorCol)) =>
        probar (resolverBacktrackingSinPropagacion fuel) mejorFila mejorCol
          (obtenerCandidatos st1 mejorFila mejorCol) (List.range' 1 st1.tamano) st1

/-- The method `resolverSudoku` of a solver in which propagation is disabled entirely:
validation, then the search without propagation. -/
def resolverSudokuSinPropagacion (fuel : Nat) (st : Estado) : Option (Bool × Estado) :=
  if !validarEstadoInicial st then some (false, st)
  else resolverBacktrackingSinPropagacion fuel st

/-! ## Empty boards -/

/-- The all-empty `N × N` board. -/
def tableroVacio (N : Nat) : List (List Int) :=
  List.replicate N (List.replicate N 0)

/-- A completed 9 × 9 board. -/
def solucion9 : List (List Int) :=
  [[1, 2, 3, 4, 5, 6, 7, 8, 9],
   [4, 5, 6, 7, 8, 9, 1, 2, 3],
   [7, 8, 9, 1, 2, 3, 4, 5, 6],
   [2, 3, 1, 6, 7, 4, 8, 9, 5],
   [8, 7, 5, 9, 1, 2, 3, 6, 4],
   [6, 9, 4, 5, 3, 8, 2, 1, 7],
   [3, 1, 7, 2, 6, 5, 9, 4, 8],
   [5, 4, 2, 8, 9, 7, 6, 3, 1],
   [9, 6, 8, 3, 4, 1, 5, 7, 2]]

/-! ## Notions used to state the behaviour of the scans -/

/-- The representation invariant of the candidate vectors: only bits of `1..tamano` are
ever set (`cargarSudoku` sets exactly those, `colocarValor` clears bits and
`quitarValor` sets a bit of that range again). -/
def VectoresEnRango (st : Estado) : Prop :=
  ∀ u, u < 25 → ∀ k, k < 26 →
    (Bitset.test (leer 0 st.filaCandidatos u) k = true ∨
      Bitset.test (leer 0 st.colCandidatos u) k = true ∨
      Bitset.test (leer 0 st.bloqueCandidatos u) k = true) →
    1 ≤ k ∧ k ≤ st.tamano

instance (st : Estado) : Decidable (VectoresEnRango st) := by
  unfold VectoresEnRango; infer_instance

/-- The cell `p` is empty. -/
def EsVacia (st : Estado) (p : Nat × Nat) : Prop :=
  leerCelda st.sudoku p.1 p.2 = 0

instance (st : Estado) (p : Nat × Nat) : Decidable (EsVacia st p) := by
  unfold EsVacia; infer_instance

/-- The number of candidates of the cell `p`, `obtenerCandidatos(p).count()`. -/
def cuentaDe (st : Estado) (p : Nat × Nat) : Nat :=
  Bitset.count (obtenerCandidatos st p.1 p.2)

/-- The state reached from `st` by `k` full scans of the board in a row, each started
with `cambios = false` as the loop of `propagarRestricciones` does and each ended with
`cambios` set; `none` when one of them hits `return false` or ends without a change. -/
def trasPasadas : Nat → Estado → Option Estado
  | 0, st => some st
  | k + 1, st =>
    match propagarPasada (celdas st.tamano) st false with
    | Pasada.fallo _ => none
    | Pasada.fin st1 cambios => if cambios then trasPasadas k st1 else none

/-! ## A 25 × 25 state on which a nested propagation is not undone -/

/-- A 25 × 25 board without repeated symbols. Row 0 holds 4..25 in columns 3..24 and is
empty in columns 0, 1, 2; column 0 holds 2 and 3 (rows 5 and 10), column 1 holds 3
(row 5), column 2 holds 3 (row 15). Cell (0, 0) has the single candidate 1; once 1 is
placed there, cell (0, 1) has the single candidate 2, and once 2 is placed there, cell
(0, 2) has no candidate. -/
def tablero25Trampa : List (List Int) :=
  [[0, 0, 0, 4, 5, 6, 7, 8, 9, 10, 11, 12, 13, 14, 15, 16, 17, 18, 19, 20, 21, 22, 23,
    24, 25]]
  ++ List.replicate 4 (List.replicate 25 0)
  ++ [2 :: 3 :: List.replicate 23 0]
  ++ List.replicate 4 (List.replicate 25 0)
  ++ [3 :: List.replicate 24 0]
  ++ List.replicate 4 (List.replicate 25 0)
  ++ [0 :: 0 :: 3 :: List.replicate 22 0]
  ++ List.replicate 9 (List.replicate 25 0)

/-- The state of the solver on `tablero25Trampa` when 98 nodes have been explored and the
grid is as loaded: the next call of `resolverBacktracking` is node 99 and the call nested
in it is node 100, which propagates. -/
def estadoTrampa : Estado :=
  { estadoDe tablero25Trampa 5 with nodosExplorados := 98 }

/-- The invariant of the data model, in the specification's words: the value of every
filled cell is absent from the vectors of its row, column and block, and the candidates
of every empty cell are exactly the symbols of `1..tamano` present neither in its row,
nor in its column, nor in its block. -/
def InvarianteSpec (st : Estado) : Prop :=
  ∀ r, r < st.tamano → ∀ c, c < st.tamano →
    (leerCelda st.sudoku r c ≠ 0 → ∀ v : Nat, v < 26 → (v : Int) = leerCelda st.sudoku r c →
      Bitset.test (leer 0 st.filaCandidatos r) v = false ∧
      Bitset.test (leer 0 st.colCandidatos c) v = false ∧
      Bitset.test (leer 0 st.bloqueCandidatos (obtenerBloque st r c)) v = false) ∧
    (leerCelda st.sudoku r c = 0 → ∀ v : Nat, v < 26 →
      (Bitset.test (obtenerCandidatos st r c) v = true ↔
        (1 ≤ v ∧ v ≤ st.tamano ∧ ¬ EnFila (leerCelda st.sudoku) st.tamano r v ∧
          ¬ EnColumna (leerCelda st.sudoku) st.tamano c v ∧
          ¬ EnBloque (leerCelda st.sudoku) st.n (obtenerBloque st r c) v)))

/-! ## Text of the boards: parsing and writing -/

/-- The test `isspace` of the C locale: the characters that `strtol`, which `std::stoi`
calls, skips before the number. -/
def esEspacio (c : Char) : Bool :=
  c.toNat = 32 || (9 ≤ c.toNat && c.toNat ≤ 13)

/-- Value in base 10 of a run of decimal digits. -/
def valorDigitos (ds : List Char) : Nat :=
  ds.foldl (fun acc c => acc * 10 + (c.toNat - 48)) 0

/-- The library call `std::stoi(s)` in base 10: leading white space is skipped, an
optional sign is read, then the longest run of decimal digits; what follows the run is
ignored. `none` where it throws: `std::invalid_argument` when no digit is found,
`std::out_of_range` when the value does not fit an `int`. -/
def stoi (s : List Char) : Option Int :=
  let s1 := s.dropWhile esEspacio
  let negativo := s1.head? = some '-'
  let s2 := if s1.head? = some '-' ∨ s1.head? = some '+' then s1.tail else s1
  let ds := s2.takeWhile Char.isDigit
  if ds.isEmpty then none
  else
    let v : Int := if negativo then - (valorDigitos ds : Int) else (valorDigitos ds : Int)
    if -2147483648 ≤ v ∧ v ≤ 2147483647 then some v else none

/-- The body of the loop of `parsearLinea` for one token: 0 when the token holds a
`'-'`, otherwise `stoi(simbolo)`, and 0 when `stoi` throws. -/
def parsearSimbolo (simbolo : List Char) : Int :=
  if simbolo.any (fun c => c = '-') then 0
  else
    match stoi simbolo with
    | some valor => valor
    | none => 0

/-- The loop `for (i = 0; i < linea.length(); i += anchoSimbolo)` of `parsearLinea` on
the part of the line from index `i` on; the token is `linea.substr(i, anchoSimbolo)`.
The fuel bounds the number of iterations. -/
def parsearDesde : Nat → Nat → List Char → Option (List Int)
  | _, _, [] => some []
  | 0, _, _ :: _ => none
  | fuel + 1, anchoSimbolo, c :: l =>
      (parsearDesde fuel anchoSimbolo ((c :: l).drop anchoSimbolo)).map
        (fun fila => parsearSimbolo ((c :: l).take anchoSimbolo) :: fila)

/-- `ProcesadorMultipleSudoku::parsearLinea`. A line of `k` characters takes at most `k`
iterations when `anchoSimbolo ≥ 1`; with `anchoSimbolo = 0` the loop of the source never
ends, and the result is `none`. -/
def parsearLinea (linea : List Char) (anchoSimbolo : Nat) : Option (List Int) :=
  parsearDesde linea.length anchoSimbolo linea

/-- Number of decimal digits of `t`, by repeated division. -/
def cifras : Nat → Nat → Nat
  | 0, _ => 1
  | fuel + 1, t => if t < 10 then 1 else cifras fuel (t / 10) + 1

/-- The expression `floor(log10(tamano) + 1)`: the number of decimal digits of
`tamano` (for `tamano ≥ 1`). -/
def anchoSimbolo (tamano : Nat) : Nat :=
  cifras tamano tamano

/-- The text that `file << valor` produces for an `int`. -/
def textoDe (v : Int) : List Char :=
  if v < 0 then '-' :: Nat.toDigits 10 v.natAbs else Nat.toDigits 10 v.toNat

/-- One cell as `escribirSudoku` writes it: `string(anchoSimbolo, '-')` for 0, otherwise
`setfill('0') << setw(anchoSimbolo) << valor`. -/
def escribirValor (ancho : Nat) (v : Int) : List Char :=
  if v = 0 then List.replicate ancho '-'
  else List.replicate (ancho - (textoDe v).length) '0' ++ textoDe v

/-- The inner loop of `escribirSudoku`: the cells of one row, one after the other. -/
def escribirFila : Nat → List Int → List Char
  | _, [] => []
  | ancho, v :: resto => escribirValor ancho v ++ escribirFila ancho resto

/-- `ProcesadorMultipleSudoku::escribirSudoku`: the lines written to the file. -/
def escribirSudoku (tablero : List (List Int)) (n : Nat) : List (List Char) :=
  (List.range (n * n)).map (fun i =>
    escribirFila (anchoSimbolo (n * n)) ((List.range (n * n)).map (fun j => entrada tablero i j)))

/-- The record `SudokuConEtiqueta`. -/
structure SudokuConEtiqueta where
  etiqueta : List Char
  tablero : List (List Int)
  n : Nat
  tamano : Nat
  deriving DecidableEq

/-- The loop `for (i = 0; i < tamano; i++) tablero[i] = parsearLinea(lineas[i], ancho)`
of `procesarSudoku`, where `tamano` is the number of lines. -/
def parsearLineas (ancho : Nat) : List (List Char) → Option (List (List Int))
  | [] => some []
  | linea :: resto =>
      match parsearLinea linea ancho with
      | none => none
      | some fila => (parsearLineas ancho resto).map (fun filas => fila :: filas)

/-- `ProcesadorMultipleSudoku::procesarSudoku`: the list `sudokus` after the call
(unchanged when the puzzle is skipped). -/
def procesarSudoku (sudokus : List SudokuConEtiqueta) (etiqueta : List Char)
    (lineas : List (List Char)) : Option (List SudokuConEtiqueta) :=
  if lineas.isEmpty then some sudokus
  else
    let tamano := lineas.length
    let n := Nat.sqrt tamano
    if n * n ≠ tamano then some sudokus
    else if tamano > 25 then some sudokus
    else
      (parsearLineas (anchoSimbolo tamano) lineas).map
        (fun tablero => sudokus ++ [⟨etiqueta, tablero, n, tamano⟩])

/-- The decimal digits a token starts with, after white space and an optional `'+'`. -/
def cifrasIniciales (simbolo : List Char) : List Char :=
  (if (simbolo.dropWhile esEspacio).head? = some '+' then (simbolo.dropWhile esEspacio).tail
    else simbolo.dropWhile esEspacio).takeWhile Char.isDigit

/-! ## Notions used to state what the propagation and the search write -/

/-- The state in which a scan of the propagation ends, whichever way it ends. -/
def Pasada.estado : Pasada → Estado
  | Pasada.fallo st => st
  | Pasada.fin st _ => st

/-- One write of the propagation: the state `st2` is `st` after `colocarValor(i, j, v)`
and `celdasVacias--`, where `(i, j)` is an empty cell of the board and `v`, a symbol of
`1..tamano`, is the only candidate of that cell in `st`. -/
def ColocaUnico (st st2 : Estado) : Prop :=
  ∃ i j v, i < st.tamano ∧ j < st.tamano ∧ leerCelda st.sudoku i j = 0 ∧
    1 ≤ v ∧ v ≤ st.tamano ∧
    (∀ u, u < 26 → (Bitset.test (obtenerCandidatos st i j) u = true ↔ u = v)) ∧
    st2 = { colocarValor st i j v with celdasVacias := st.celdasVacias - 1 }

/-- The number of cells of the `N × N` board that are empty in `f` and filled in `g`. -/
def celdasLlenadas (f g : Nat → Nat → Int) (N : Nat) : Nat :=
  (celdas N).countP (fun p => decide (f p.1 p.2 = 0 ∧ g p.1 p.2 ≠ 0))

/-- The counter invariant of the solver: the board fits the arrays and `celdasVacias` is
the number of empty cells of the board. -/
def Contado (st : Estado) : Prop :=
  st.tamano ≤ 25 ∧ st.celdasVacias = (cerosDe (leerCelda st.sudoku) st.tamano : Nat)

/-- Among the cells `cs`, in their order, an empty cell without candidates comes with no
empty cell of exactly one candidate before it. -/
def MuertaEn (st : Estado) (cs : List (Nat × Nat)) : Prop :=
  ∃ antes x despues, cs = antes ++ x :: despues ∧
    EsVacia st x ∧ cuentaDe st x = 0 ∧ ∀ p ∈ antes, EsVacia st p → cuentaDe st p ≠ 1

/-- The row-major scan of the board meets an empty cell without candidates before any
empty cell with exactly one candidate. -/
def RamaMuerta (st : Estado) : Prop :=
  MuertaEn st (celdas st.tamano)

/-- A 16 × 16 board whose cell (0, 0) is empty with the single candidate 1: row 0 holds
2..16 in columns 1..15, every other cell is empty. -/
def tablero16Unico : List (List Int) :=
  [0, 2, 3, 4, 5, 6, 7, 8, 9, 10, 11, 12, 13, 14, 15, 16] :: List.replicate 15 (fila16 0 0)

/-- A 16 × 16 board without repeated symbols on which the naked singles come one scan
at a time: in row 0 the cells of columns 0..11 are empty, cell (0, 11) has the single
candidate 12 and cell (0, j), for j below 11, has the two candidates j + 1 and j + 2, so
that each scan fills one cell of row 0, from right to left. -/
def tablero16Cadena : List (List Int) :=
  [[0, 0, 0, 0, 0, 0, 0, 0, 0, 0, 0, 0, 13, 14, 15, 16],
   [6, 7, 8, 9, 1, 2, 3, 4, 5, 0, 0, 0, 0, 0, 0, 0],
   [10, 11, 12, 0, 0, 0, 0, 0, 1, 2, 3, 4, 0, 0, 0, 0],
   [0, 0, 0, 0, 10, 11, 12, 0, 6, 7, 8, 0, 0, 0, 0, 0],
   [3, 1, 2, 0, 7, 5, 6, 0, 11, 9, 10, 0, 0, 0, 0, 0],
   [4, 0, 0, 0, 8, 0, 0, 0, 12, 0, 0, 0, 0, 0, 0, 0],
   [5, 0, 0, 0, 9, 0, 0, 0, 0, 0, 0, 0, 0, 0, 0, 0],
   [0, 0, 0, 0, 0, 0, 0, 0, 0, 0, 0, 0, 0, 0, 0, 0],
   [0, 4, 1, 2, 0, 8, 5, 6, 0, 12, 9, 10, 0, 0, 0, 0],
   [0, 5, 0, 3, 0, 9, 0, 7, 0, 0, 0, 11, 0, 0, 0, 0],
   [0, 0, 0, 0, 0, 0, 0, 0, 0, 0, 0, 0, 0, 0, 0, 0],
   [0, 0, 0, 0, 0, 0, 0, 0, 0, 0, 0, 0, 0, 0, 0, 0],
   [0, 0, 5, 1, 0, 0, 9, 0, 0, 0, 0, 0, 0, 0, 0, 0],
   [0, 0, 0, 0, 0, 0, 0, 5, 0, 0, 0, 9, 0, 0, 0, 0],
   [0, 0, 0, 0, 0, 0, 0, 0, 0, 0, 0, 0, 0, 0, 0, 0],
   [0, 0, 0, 0, 0, 0, 0, 0, 0, 0, 0, 0, 0, 0, 0, 0]]

/-- A 4 × 4 state with an empty cell without candidates, (0, 0), that the scan meets
first: row 0 holds 0, 1, 2, 3 and column 0 holds 4 in row 2. -/
def tablero4SinSalida : List (List Int) :=
  [[0, 1, 2, 3], [0, 0, 0, 0], [4, 0, 0, 0], [0, 0, 0, 0]]

/-! ## The standalone validator (`Validar.cpp`) -/

/-- The record `ResultadoValidacion`. -/
structure ResultadoValidacion where
  esValido : Bool
  mensaje : String

/-- The data members of `ValidadorSudoku`: the matrix read from the file, `n` and
`tamano`. -/
structure ValidadorSudoku where
  sudoku : List (List Int)
  n : Nat
  tamano : Nat

namespace ValidadorSudoku

/-- The method `validarDimensiones`: `tamano` rows of `tamano` entries. -/
def validarDimensiones (val : ValidadorSudoku) : Bool :=
  if val.sudoku.length ≠ val.tamano then false
  else val.sudoku.all (fun fila => decide (fila.length = val.tamano))

/-- The body shared by the three passes, over the cells of one row, column or block:
empty cells are skipped, a value outside `[1, tamano]` or already in the set `simbolos`
gives `return false`, otherwise the value is inserted. -/
def revisarCeldas (val : ValidadorSudoku) : List (Nat × Nat) → List Int → Bool
  | [], _ => true
  | (i, j) :: resto, simbolos =>
    let valor := entrada val.sudoku i j
    if valor = 0 then revisarCeldas val resto simbolos
    else if valor < 1 ∨ valor > (val.tamano : Int) then false
    else if valor ∈ simbolos then false
    else revisarCeldas val resto (valor :: simbolos)

/-- The method `validarFilas`. -/
def validarFilas (val : ValidadorSudoku) : Bool :=
  (List.range val.tamano).all (fun i =>
    revisarCeldas val ((List.range val.tamano).map (fun j => (i, j))) [])

/-- The method `validarColumnas`. -/
def validarColumnas (val : ValidadorSudoku) : Bool :=
  (List.range val.tamano).all (fun j =>
    revisarCeldas val ((List.range val.tamano).map (fun i => (i, j))) [])

/-- The method `validarSubcuadrados`: for every `filaBloque`, `colBloque` below `n`, the
cells `(filaBloque * n + i, colBloque * n + j)` with `i`, `j` below `n`. -/
def validarSubcuadrados (val : ValidadorSudoku) : Bool :=
  (List.range val.n).all (fun filaBloque =>
    (List.range val.n).all (fun colBloque =>
      revisarCeldas val
        ((List.range val.n).flatMap (fun i =>
          (List.range val.n).map (fun j => (filaBloque * val.n + i, colBloque * val.n + j))))
        []))

/-- The method `validar`; no statement of its `try` block throws. -/
def validar (val : ValidadorSudoku) : ResultadoValidacion :=
  if !validarDimensiones val then
    { esValido := false, mensaje := "Error: Las dimensiones del sudoku no son validas" }
  else if !validarFilas val then
    { esValido := false, mensaje := "Error: Hay símbolos repetidos en alguna fila" }
  else if !validarColumnas val then
    { esValido := false, mensaje := "Error: Hay simbolos repetidos en alguna columna" }
  else if !validarSubcuadrados val then
    { esValido := false, mensaje := "Error: Hay simbolos repetidos en algún subcuadrado" }
  else
    { esValido := true, mensaje := "El sudoku es valido" }

end ValidadorSudoku

/-! ## Bit vectors and arrays: basic facts -/

namespace Bitset

theorem test_vacio (k : Nat) : test vacio k = false := by
  simp [test, vacio]

theorem test_set (b pos k : Nat) (h : pos < 26) :
    test (set b pos) k = (test b k || decide (pos = k)) := by
  simp [test, set, h, Nat.testBit_or, Nat.testBit_two_pow]

theorem test_marcar (b pos k : Nat) :
    test (b ||| 2 ^ pos) k = (test b k || decide (pos = k)) := by
  simp [test, Nat.testBit_or, Nat.testBit_two_pow]

theorem test_reset (b pos k : Nat) (h : pos < 26) :
    test (reset b pos) k = (test b k && !decide (pos = k)) := by
  simp only [test, reset, h, if_true, Nat.testBit_xor, Nat.testBit_and, Nat.testBit_two_pow]
  by_cases hk : pos = k <;> simp [hk]

theorem test_inter (a b k : Nat) : test (inter a b) k = (test a k && test b k) := by
  simp [test, inter, Nat.testBit_and]

theorem ext {a b : Bitset} (h : ∀ k, test a k = test b k) : a = b :=
  Nat.eq_of_testBit_eq h

theorem count_eq_zero (b : Bitset) : count b = 0 ↔ ∀ k, k < 26 → test b k = false := by
  simp [count, List.countP_eq_zero]

theorem count_pos (b : Bitset) : 0 < count b ↔ ∃ k, k < 26 ∧ test b k = true := by
  simp [count, List.countP_pos_iff]

theorem set_reset (b pos : Nat) (h : test b pos = true) : set (reset b pos) pos = b := by
  by_cases hp : pos < 26
  · apply ext
    intro k
    rw [test_set _ _ _ hp, test_reset _ _ _ hp]
    by_cases hk : pos = k
    · subst hk; simp [h]
    · simp [hk]
  · simp [set, reset, hp]

end Bitset

theorem leer_escribir {α : Type} (d : α) (a : Arreglo α) (i j : Nat) (x : α) :
    leer d (escribir a i x) j = if i = j ∧ j < 25 then x else leer d a j := by
  unfold leer escribir
  by_cases hj : j < 25
  · by_cases hij : i = j
    · subst hij; simp [hj]
    · simp [hj, hij, Ne.symm hij]
  · simp [hj]

theorem arreglo_ext {α : Type} (d : α) {a b : Arreglo α}
    (h : ∀ i, i < 25 → leer d a i = leer d b i) : a = b := by
  funext k
  have := h k.val k.isLt
  simpa [leer, k.isLt] using this

theorem leerCelda_escribirCelda (g : Tablero) (i j i2 j2 : Nat) (x : Int) :
    leerCelda (escribirCelda g i j x) i2 j2 =
      if (i = i2 ∧ i2 < 25) ∧ (j = j2 ∧ j2 < 25) then x else leerCelda g i2 j2 := by
  unfold leerCelda escribirCelda
  rw [leer_escribir]
  by_cases h1 : i = i2 ∧ i2 < 25
  · rw [if_pos h1, leer_escribir, h1.1]
    by_cases h2 : j = j2 ∧ j2 < 25
    · simp [h1, h2]
    · simp [h1, h2]
  · simp [h1]

theorem tablero_ext {a b : Tablero}
    (h : ∀ i j, i < 25 → j < 25 → leerCelda a i j = leerCelda b i j) : a = b := by
  funext k l
  have := h k.val l.val k.isLt l.isLt
  simpa [leerCelda, leer, k.isLt, l.isLt] using this

/-- Writing back the value an array already holds at `i`, over any earlier write at `i`. -/
theorem escribir_restituye {α : Type} (d : α) (a : Arreglo α) (i : Nat) (x : α) :
    escribir (escribir a i x) i (leer d a i) = a := by
  apply arreglo_ext d
  intro k hk
  rw [leer_escribir, leer_escribir]
  by_cases hik : i = k
  · subst hik; simp [hk]
  · simp [hik]

theorem escribir_escribir {α : Type} (a : Arreglo α) (i : Nat) (x y : α) :
    escribir (escribir a i x) i y = escribir a i y := by
  funext k
  unfold escribir
  by_cases hk : k.val = i <;> simp [hk]

/-- Clearing a cell that was empty, over a value written there, gives the grid back. -/
theorem escribirCelda_restituye (g : Tablero) (i j : Nat) (x : Int)
    (h : leerCelda g i j = 0) : escribirCelda (escribirCelda g i j x) i j 0 = g := by
  apply tablero_ext
  intro a b ha hb
  rw [leerCelda_escribirCelda, leerCelda_escribirCelda]
  by_cases h1 : (i = a ∧ a < 25) ∧ (j = b ∧ b < 25)
  · obtain ⟨⟨rfl, _⟩, rfl, _⟩ := h1
    simp [ha, hb, h]
  · simp [h1]
/-! ## Place and remove -/

/-- Setting a bit again after clearing it, in place, restores the array of vectors. -/
theorem escribir_set_reset (a : Arreglo Bitset) (i v : Nat)
    (h : Bitset.test (leer 0 a i) v = true) :
    escribir (escribir a i (Bitset.reset (leer 0 a i) v)) i
      (Bitset.set (leer 0 (escribir a i (Bitset.reset (leer 0 a i) v)) i) v) = a := by
  apply arreglo_ext 0
  intro k hk
  rw [leer_escribir, leer_escribir]
  by_cases hik : i = k
  · subst hik
    simp [hk, Bitset.set_reset _ _ h]
  · simp [hik, leer_escribir]

/-- C7. On an empty cell of the board and a value of `1..tamano` that is a candidate of
the cell, `colocarValor` followed by `quitarValor` gives back the very same state: grid
and all row, column and block candidate vectors. -/
theorem quitarValor_colocarValor (st : Estado) (r c v : Nat)
    (_hr : r < st.tamano) (_hc : c < st.tamano) (_hv1 : 1 ≤ v) (_hv2 : v ≤ st.tamano)
    (hvacia : leerCelda st.sudoku r c = 0)
    (hcand : Bitset.test (obtenerCandidatos st r c) v = true) :
    quitarValor (colocarValor st r c v) r c v = st := by
  simp only [obtenerCandidatos, Bitset.test_inter, Bool.and_eq_true] at hcand
  obtain ⟨⟨hf, hco⟩, hb⟩ := hcand
  cases st with
  | mk sudoku fila col bloque n tamano nodos vacias =>
    simp only [quitarValor, colocarValor, obtenerBloque, Estado.mk.injEq, and_true] at *
    exact ⟨escribirCelda_restituye _ _ _ _ hvacia, escribir_set_reset _ _ _ hf,
      escribir_set_reset _ _ _ hco, escribir_set_reset _ _ _ hb⟩

/-- A state in which C7 applies: `tablero4` loaded, cell (0, 1), value 2. -/
theorem quitarValor_colocarValor_witness :
    leerCelda (estadoDe tablero4 2).sudoku 0 1 = 0 ∧
    Bitset.test (obtenerCandidatos (estadoDe tablero4 2) 0 1) 2 = true ∧
    quitarValor (colocarValor (estadoDe tablero4 2) 0 1 2) 0 1 2 = estadoDe tablero4 2 :=
  ⟨by decide, by decide,
    quitarValor_colocarValor (estadoDe tablero4 2) 0 1 2 (by decide) (by decide) (by decide)
      (by decide) (by decide) (by decide)⟩

/-! ## Loading does not depend on the previous state -/

theorem leer_limpiarCandidatos (indices : List Nat) (a : Arreglo Bitset) (i : Nat) :
    leer 0 (limpiarCandidatos indices a) i =
      if i ∈ indices ∧ i < 25 then Bitset.vacio else leer 0 a i := by
  induction indices generalizing a with
  | nil => simp [limpiarCandidatos]
  | cons k resto ih =>
    rw [limpiarCandidatos, ih, leer_escribir]
    by_cases h1 : i ∈ resto ∧ i < 25
    · simp [h1]
    · by_cases h2 : k = i
      · subst h2; by_cases h3 : k < 25 <;> simp [h3]
      · have h2' : ¬ i = k := fun h => h2 h.symm
        simp [h1, h2, h2']

theorem limpiarCandidatos_todos (a : Arreglo Bitset) :
    limpiarCandidatos (List.range 25) a = fun _ => Bitset.vacio := by
  apply arreglo_ext 0
  intro i hi
  rw [leer_limpiarCandidatos]
  simp [hi, leer]

/-- C6. The state produced by `cargarSudoku(tablero, n)` is the same from any two prior
solver states, and so are the result, final state (solution grid, node count) of the
`resolverSudoku` call that follows. -/
theorem cargarSudoku_independiente (previo1 previo2 : Estado) (tablero : List (List Int))
    (nParam : Nat) :
    cargarSudoku previo1 tablero nParam = cargarSudoku previo2 tablero nParam ∧
    ∀ fuel, (cargarSudoku previo1 tablero nParam).bind (resolverSudoku fuel) =
      (cargarSudoku previo2 tablero nParam).bind (resolverSudoku fuel) := by
  have h : cargarSudoku previo1 tablero nParam = cargarSudoku previo2 tablero nParam := by
    simp only [cargarSudoku, limpiarCandidatos_todos]
  exact ⟨h, fun fuel => by rw [h]⟩

/-! ## Frame facts of loading and propagation -/

theorem estadoDe_spec (tablero : List (List Int)) (nParam : Nat)
    (h : (cargarSudoku Estado.inicial tablero nParam).isSome = true) :
    cargarSudoku Estado.inicial tablero nParam = some (estadoDe tablero nParam) := by
  unfold estadoDe
  cases hc : cargarSudoku Estado.inicial tablero nParam with
  | none => rw [hc] at h; simp at h
  | some st => simp

theorem cargarCeldas_marco (tablero : List (List Int)) (cs : List (Nat × Nat)) :
    ∀ (st st2 : Estado), cargarCeldas tablero cs st = some st2 →
      st2.n = st.n ∧ st2.tamano = st.tamano ∧ st2.nodosExplorados = st.nodosExplorados := by
  induction cs with
  | nil => intro st st2 h; simp only [cargarCeldas, Option.some.injEq] at h; subst h; simp
  | cons p resto ih =>
    intro st st2 h
    obtain ⟨i, j⟩ := p
    simp only [cargarCeldas] at h
    split at h
    · have h2 := ih _ _ h
      exact h2
    · split at h
      · have h2 := ih _ _ h
        exact h2
      · exact absurd h (by simp)

theorem cargarSudoku_marco (previo : Estado) (tablero : List (List Int)) (nParam : Nat)
    (st : Estado) (h : cargarSudoku previo tablero nParam = some st) :
    st.n = nParam ∧ st.tamano = nParam * nParam ∧ st.nodosExplorados = 0 := by
  unfold cargarSudoku at h
  simp only at h
  split at h
  · exact cargarCeldas_marco _ _ _ _ h
  · exact absurd h (by simp)

theorem propagarPasada_marco (cs : List (Nat × Nat)) :
    ∀ (st : Estado) (cambios : Bool),
      (∀ st1, propagarPasada cs st cambios = Pasada.fallo st1 →
        st1.n = st.n ∧ st1.tamano = st.tamano ∧ st1.nodosExplorados = st.nodosExplorados) ∧
      (∀ st1 c1, propagarPasada cs st cambios = Pasada.fin st1 c1 →
        st1.n = st.n ∧ st1.tamano = st.tamano ∧ st1.nodosExplorados = st.nodosExplorados) := by
  induction cs with
  | nil =>
    intro st cambios
    simp only [propagarPasada, Pasada.fin.injEq, false_implies, implies_true, true_and,
      reduceCtorEq]
    rintro st1 c1 ⟨rfl, _⟩
    simp
  | cons p resto ih =>
    intro st cambios
    obtain ⟨i, j⟩ := p
    simp only [propagarPasada]
    split
    · split
      · simp only [Pasada.fallo.injEq, reduceCtorEq, false_implies, implies_true, and_true]
        rintro st1 rfl; simp
      · split
        · split
          · rename_i v _
            have := ih { colocarValor st i j v with celdasVacias := st.celdasVacias - 1 } true
            simpa [colocarValor] using this
          · exact ih st cambios
        · exact ih st cambios
    · exact ih st cambios

theorem propagarBucle_marco (k : Nat) :
    ∀ (st : Estado), (propagarBucle k st).2.n = st.n ∧
      (propagarBucle k st).2.tamano = st.tamano ∧
      (propagarBucle k st).2.nodosExplorados = st.nodosExplorados := by
  induction k with
  | zero => intro st; simp [propagarBucle]
  | succ k ih =>
    intro st
    simp only [propagarBucle]
    have hp := propagarPasada_marco (celdas st.tamano) st false
    split
    · rename_i st1 h1; exact hp.1 st1 h1
    · rename_i st1 c1 h1
      have h2 := hp.2 st1 c1 h1
      split
      · have h3 := ih st1
        exact ⟨h3.1.trans h2.1, h3.2.1.trans h2.2.1, h3.2.2.trans h2.2.2⟩
      · exact h2

theorem propagarRestricciones_marco (st : Estado) :
    (propagarRestricciones st).2.n = st.n ∧
      (propagarRestricciones st).2.tamano = st.tamano ∧
      (propagarRestricciones st).2.nodosExplorados = st.nodosExplorados := by
  unfold propagarRestricciones
  split
  · simp
  · exact propagarBucle_marco 10 st

/-! ## Rejected boards -/

/-- C4. On a loaded board that `validarEstadoInicial` rejects, `resolverSudoku` returns
false and its final state is the loaded state itself (grid, candidate vectors and
`celdasVacias` untouched), with a node count of 0. -/
theorem resolverSudoku_rechazado (previo : Estado) (tablero : List (List Int)) (nParam : Nat)
    (st : Estado) (fuel : Nat) (hcarga : cargarSudoku previo tablero nParam = some st)
    (hval : validarEstadoInicial st = false) :
    resolverSudoku fuel st = some (false, st) ∧ st.nodosExplorados = 0 := by
  refine ⟨?_, (cargarSudoku_marco previo tablero nParam st hcarga).2.2⟩
  simp [resolverSudoku, hval]

/-- A rejected board for C4: the symbol 3 twice in row 0 of a 4 × 4 board. -/
theorem resolverSudoku_rechazado_witness :
    validarEstadoInicial (estadoDe tablero4Repetido 2) = false ∧
    resolverSudoku 17 (estadoDe tablero4Repetido 2) = some (false, estadoDe tablero4Repetido 2) ∧
    (estadoDe tablero4Repetido 2).nodosExplorados = 0 :=
  ⟨by decide,
    resolverSudoku_rechazado Estado.inicial tablero4Repetido 2 (estadoDe tablero4Repetido 2) 17
      (estadoDe_spec tablero4Repetido 2 (by decide)) (by decide)⟩

/-! ## Entries that are no bit position -/

/-- C9 (evaluation at the failing input). Loading a 4 × 4 board with the entry 26, or
with the entry -1, ends in `std::out_of_range` leaving `cargarSudoku`: no state is
produced and `resolverSudoku` is never reached. -/
theorem cargarSudoku_fuera_de_rango :
    EsCuadrado tablero4Fuera 4 ∧ cargarSudoku Estado.inicial tablero4Fuera 2 = none ∧
    EsCuadrado tablero4Negativo 4 ∧ cargarSudoku Estado.inicial tablero4Negativo 2 = none := by
  refine ⟨by decide, ?_, by decide, ?_⟩
  · exact Option.not_isSome_iff_eq_none.mp (by decide)
  · exact Option.not_isSome_iff_eq_none.mp (by decide)

/-! ## Up-front propagation -/

/-- C10 (amended). Above size 16 `resolverSudoku` is 'validate; propagate; if the
propagation failed return false, else search', and a failed up-front propagation gives
false with the node count unchanged; up to size 16 a validated board goes straight to
the search, with no propagation before it. -/
theorem resolverSudoku_propagacion_inicial (st : Estado) (fuel : Nat)
    (hval : validarEstadoInicial st = true) :
    (16 < st.tamano →
      resolverSudoku fuel st = resolverSudokuSegunSpec fuel st ∧
      ((propagarRestricciones st).1 = false →
        resolverSudoku fuel st = some (false, (propagarRestricciones st).2) ∧
        (propagarRestricciones st).2.nodosExplorados = st.nodosExplorados)) ∧
    (st.tamano ≤ 16 → resolverSudoku fuel st = resolverBacktracking fuel st) := by
  refine ⟨fun h16 => ⟨?_, fun hfallo => ⟨?_, (propagarRestricciones_marco st).2.2⟩⟩, fun h16 => ?_⟩
  · have h9 : st.tamano > 9 := by omega
    simp [resolverSudoku, resolverSudokuSegunSpec, h16, h9]
  · simp only [resolverSudoku, hval, Bool.not_true, Bool.false_eq_true, if_false, h16,
      gt_iff_lt, if_true]
    cases hp : propagarRestricciones st with
    | mk ok st1 =>
      rw [hp] at hfallo
      simp only at hfallo
      subst hfallo
      simp
  · have h : ¬ st.tamano > 16 := by omega
    simp [resolverSudoku, hval, h]
/-! ## Cells and blocks -/

theorem mem_celdas (N : Nat) (p : Nat × Nat) : p ∈ celdas N ↔ p.1 < N ∧ p.2 < N := by
  obtain ⟨i, j⟩ := p
  simp [celdas, List.mem_flatMap, List.mem_map, List.mem_range]

theorem nodup_celdas (N : Nat) : (celdas N).Nodup := by
  unfold celdas
  rw [List.nodup_flatMap]
  refine ⟨fun i _ => ?_, ?_⟩
  · exact (List.nodup_range N).map (fun a b h => by simpa using h)
  · refine List.Pairwise.imp ?_ (List.nodup_range N)
    intro a b hab
    simp only [Function.onFun, List.disjoint_left, List.mem_map, List.mem_range]
    rintro p ⟨j, _, rfl⟩ ⟨j2, _, h2⟩
    exact hab (by simpa using (congrArg Prod.fst h2).symm)

theorem bloque_div (n q a : Nat) (ha : a < n) : (q * n + a) / n = q := by
  have hn : 0 < n := by omega
  rw [Nat.add_comm, Nat.add_mul_div_right _ _ hn, Nat.div_eq_of_lt ha, Nat.zero_add]

theorem bloque_mod (n q a : Nat) (ha : a < n) : (q * n + a) % n = a := by
  rw [Nat.add_comm, Nat.add_mul_mod_self_right, Nat.mod_eq_of_lt ha]

theorem bloque_cota (n q a : Nat) (hq : q < n) (ha : a < n) : q * n + a < n * n := by
  have h1 : (q + 1) * n ≤ n * n := Nat.mul_le_mul_right n hq
  have h2 : (q + 1) * n = q * n + n := by ring
  omega

theorem div_lt_de_cuadrado (n i : Nat) (hi : i < n * n) : i / n < n := by
  have hn : 0 < n := by
    rcases Nat.eq_zero_or_pos n with h | h
    · subst h; simp at hi
    · exact h
  exact (Nat.div_lt_iff_lt_mul hn).mpr hi

/-- The block index of a cell of the board is a valid index. -/
theorem obtenerBloque_cota (n i j : Nat) (hi : i < n * n) (hj : j < n * n) :
    (i / n) * n + j / n < n * n :=
  bloque_cota n (i / n) (j / n) (div_lt_de_cuadrado n i hi) (div_lt_de_cuadrado n j hj)

/-- Two cells of the board have the same block index exactly when their block row and
block column coincide. -/
theorem bloque_eq_iff (n i j i2 j2 : Nat) (hj : j < n * n) (hj2 : j2 < n * n) :
    (i / n) * n + j / n = (i2 / n) * n + j2 / n ↔ (i / n = i2 / n ∧ j / n = j2 / n) := by
  constructor
  · intro h
    have h1 := congrArg (· / n) h
    have h2 := congrArg (· % n) h
    simp only [bloque_div n _ _ (div_lt_de_cuadrado n j hj),
      bloque_div n _ _ (div_lt_de_cuadrado n j2 hj2),
      bloque_mod n _ _ (div_lt_de_cuadrado n j hj),
      bloque_mod n _ _ (div_lt_de_cuadrado n j2 hj2)] at h1 h2
    exact ⟨h1, h2⟩
  · rintro ⟨h1, h2⟩; rw [h1, h2]

/-- The cells scanned for block `b` are the cells of the board whose block index is `b`. -/
theorem mem_celdasBloque (n b : Nat) (hb : b < n * n) (p : Nat × Nat) :
    p ∈ celdasBloque n b ↔ p.1 < n * n ∧ p.2 < n * n ∧ (p.1 / n) * n + p.2 / n = b := by
  obtain ⟨i, j⟩ := p
  have hbn := div_lt_de_cuadrado n b hb
  have hn : 0 < n := Nat.pos_of_ne_zero (fun h => by subst h; simp at hb)
  have hbm : b % n < n := Nat.mod_lt _ hn
  simp only [celdasBloque, List.mem_flatMap, List.mem_map, List.mem_range, Prod.mk.injEq]
  constructor
  · rintro ⟨a, ha, c, hc, rfl, rfl⟩
    refine ⟨bloque_cota n _ _ hbn ha, bloque_cota n _ _ hbm hc, ?_⟩
    rw [bloque_div n _ _ ha, bloque_div n _ _ hc]
    exact Nat.div_add_mod' b n
  · rintro ⟨hi, hj, rfl⟩
    have hjn := div_lt_de_cuadrado n j hj
    refine ⟨i % n, Nat.mod_lt _ hn, j % n, Nat.mod_lt _ hn, ?_, ?_⟩
    · rw [bloque_div n _ _ hjn]; exact Nat.div_add_mod' i n
    · rw [bloque_mod n _ _ hjn]; exact Nat.div_add_mod' j n

theorem nodup_celdasBloque (n b : Nat) : (celdasBloque n b).Nodup := by
  unfold celdasBloque
  rw [List.nodup_flatMap]
  refine ⟨fun i _ => ?_, ?_⟩
  · exact (List.nodup_range n).map (fun a c h => by simpa using h)
  · refine List.Pairwise.imp ?_ (List.nodup_range n)
    intro a c hac
    simp only [Function.onFun, List.disjoint_left, List.mem_map, List.mem_range]
    rintro p ⟨j, _, rfl⟩ ⟨j2, _, h2⟩
    exact hac (by simpa using (congrArg Prod.fst h2).symm)

theorem length_celdasBloque (n b : Nat) : (celdasBloque n b).length = n * n := by
  simp [celdasBloque, List.length_flatMap, Function.comp_def]

theorem length_celdasFila (N i : Nat) : (celdasFila N i).length = N := by
  simp [celdasFila]

theorem length_celdasColumna (N j : Nat) : (celdasColumna N j).length = N := by
  simp [celdasColumna]

theorem mem_celdasFila (N i : Nat) (p : Nat × Nat) : p ∈ celdasFila N i ↔ p.1 = i ∧ p.2 < N := by
  obtain ⟨a, b⟩ := p
  simp only [celdasFila, List.mem_map, List.mem_range, Prod.mk.injEq]
  constructor
  · rintro ⟨j, hj, rfl, rfl⟩; exact ⟨rfl, hj⟩
  · rintro ⟨rfl, hb⟩; exact ⟨b, hb, rfl, rfl⟩

theorem mem_celdasColumna (N j : Nat) (p : Nat × Nat) :
    p ∈ celdasColumna N j ↔ p.1 < N ∧ p.2 = j := by
  obtain ⟨a, b⟩ := p
  simp only [celdasColumna, List.mem_map, List.mem_range, Prod.mk.injEq]
  constructor
  · rintro ⟨i, hi, rfl, rfl⟩; exact ⟨hi, rfl⟩
  · rintro ⟨ha, rfl⟩; exact ⟨a, ha, rfl, rfl⟩

theorem nodup_celdasFila (N i : Nat) : (celdasFila N i).Nodup :=
  (List.nodup_range N).map (fun a b h => by simpa using h)

theorem nodup_celdasColumna (N j : Nat) : (celdasColumna N j).Nodup :=
  (List.nodup_range N).map (fun a b h => by simpa using h)

/-! ## Loading: closed form -/

theorem llenarBits_spec (vs : List Nat) :
    ∀ (b : Bitset), (∀ v ∈ vs, v < 26) →
      ∃ b2, llenarBits vs b = some b2 ∧
        ∀ k, Bitset.test b2 k = (Bitset.test b k || decide (k ∈ vs)) := by
  induction vs with
  | nil => intro b _; exact ⟨b, rfl, fun k => by simp⟩
  | cons v resto ih =>
    intro b h
    have hv : v < 26 := h v (List.mem_cons_self _ _)
    obtain ⟨b2, h1, h2⟩ := ih (Bitset.set b v) (fun w hw => h w (List.mem_cons_of_mem _ hw))
    refine ⟨b2, by simp [llenarBits, hv, h1], fun k => ?_⟩
    rw [h2, Bitset.test_set _ _ _ hv]
    by_cases hk : v = k
    · subst hk; simp
    · have hk2 : ¬ k = v := fun h => hk h.symm
      simp [hk, hk2]

theorem llenarCandidatos_spec (N : Nat) (hN : N ≤ 25) (indices : List Nat) :
    ∀ (a : Arreglo Bitset),
      ∃ a2, llenarCandidatos N indices a = some a2 ∧
        ∀ u k, Bitset.test (leer 0 a2 u) k =
          (Bitset.test (leer 0 a u) k ||
            (decide (u ∈ indices ∧ u < 25) && decide (1 ≤ k ∧ k ≤ N))) := by
  induction indices with
  | nil => intro a; exact ⟨a, rfl, fun u k => by simp⟩
  | cons i resto ih =>
    intro a
    obtain ⟨b, hb1, hb2⟩ := llenarBits_spec (List.range' 1 N) (leer 0 a i)
      (fun v hv => by
        rw [List.mem_range'_1] at hv
        omega)
    obtain ⟨a2, h1, h2⟩ := ih (escribir a i b)
    refine ⟨a2, by simp [llenarCandidatos, hb1, h1], fun u k => ?_⟩
    rw [h2, leer_escribir]
    have hmem : (k ∈ List.range' 1 N) ↔ (1 ≤ k ∧ k ≤ N) := by
      rw [List.mem_range'_1]; omega
    by_cases hiu : i = u
    · subst hiu
      by_cases h25 : i < 25
      · simp only [h25, and_self, if_true, hb2, hmem, List.mem_cons, true_or, and_true]
        by_cases hk : 1 ≤ k ∧ k ≤ N <;> simp [hk]
      · simp [h25]
    · have hiu2 : ¬ u = i := fun h => hiu h.symm
      simp [hiu, hiu2]

theorem cargarCeldas_eq (tablero : List (List Int)) (cs : List (Nat × Nat)) :
    ∀ (st : Estado),
      (∀ p ∈ cs, 0 ≤ entrada tablero p.1 p.2 ∧ entrada tablero p.1 p.2 < 26) →
      cargarCeldas tablero cs st = some
        { st with
          sudoku := escribirEntradas (entrada tablero) cs st.sudoku
          filaCandidatos := borrarUsados (entrada tablero) (fun p => p.1) cs st.filaCandidatos
          colCandidatos := borrarUsados (entrada tablero) (fun p => p.2) cs st.colCandidatos
          bloqueCandidatos :=
            borrarUsados (entrada tablero) (fun p => (p.1 / st.n) * st.n + p.2 / st.n) cs
              st.bloqueCandidatos
          celdasVacias :=
            st.celdasVacias + ((cs.countP (fun p => decide (entrada tablero p.1 p.2 = 0)) : Nat) : Int) } := by
  induction cs with
  | nil => intro st _; simp [cargarCeldas, escribirEntradas, borrarUsados]
  | cons p resto ih =>
    intro st h
    obtain ⟨i, j⟩ := p
    have hp := h (i, j) (List.mem_cons_self _ _)
    have hr := fun q hq => h q (List.mem_cons_of_mem _ hq)
    simp only at hp
    by_cases h0 : entrada tablero i j = 0
    · simp only [cargarCeldas, h0, if_true]
      rw [ih _ hr]
      simp [escribirEntradas, borrarUsados, h0, List.countP_cons, add_assoc, add_comm]
    · simp only [cargarCeldas, h0, if_false, hp, and_self, if_true]
      rw [ih _ hr]
      simp [escribirEntradas, borrarUsados, h0, List.countP_cons, obtenerBloque]

theorem test_borrarUsados (g : Nat → Nat → Int) (indice : Nat × Nat → Nat)
    (cs : List (Nat × Nat)) :
    ∀ (a : Arreglo Bitset), (∀ p ∈ cs, indice p < 25 ∧ 0 ≤ g p.1 p.2 ∧ g p.1 p.2 < 26) →
      ∀ u k, (Bitset.test (leer 0 (borrarUsados g indice cs a) u) k = true ↔
        (Bitset.test (leer 0 a u) k = true ∧
          ∀ p ∈ cs, indice p = u → g p.1 p.2 ≠ (k : Int) ∨ g p.1 p.2 = 0)) := by
  induction cs with
  | nil => intro a _ u k; simp [borrarUsados]
  | cons p resto ih =>
    intro a h u k
    have hp := h p (List.mem_cons_self _ _)
    have hr := fun q hq => h q (List.mem_cons_of_mem _ hq)
    simp only [borrarUsados]
    by_cases h0 : g p.1 p.2 = 0
    · rw [if_pos h0, ih a hr]
      simp [h0]
    · rw [if_neg h0, ih _ hr, leer_escribir]
      have hlt : (g p.1 p.2).toNat < 26 := by omega
      have hk : (g p.1 p.2).toNat = k ↔ g p.1 p.2 = (k : Int) := by omega
      by_cases hiu : indice p = u
      · subst hiu
        simp only [hp.1, and_self, if_true, Bitset.test_reset _ _ _ hlt, Bool.and_eq_true,
          Bool.not_eq_true', decide_eq_false_iff_not, hk, List.mem_cons, forall_eq_or_imp,
          true_implies, h0, or_false]
        tauto
      · simp [hiu, h0]

theorem leerCelda_escribirEntradas (g : Nat → Nat → Int) (cs : List (Nat × Nat)) :
    ∀ (t : Tablero), (∀ p ∈ cs, p.1 < 25 ∧ p.2 < 25) →
      ∀ i j, leerCelda (escribirEntradas g cs t) i j =
        if (i, j) ∈ cs then g i j else leerCelda t i j := by
  induction cs with
  | nil => intro t _ i j; simp [escribirEntradas]
  | cons p resto ih =>
    intro t h i j
    have hp := h p (List.mem_cons_self _ _)
    have hr := fun q hq => h q (List.mem_cons_of_mem _ hq)
    simp only [escribirEntradas]
    rw [ih _ hr, leerCelda_escribirCelda]
    by_cases hm : (i, j) ∈ resto
    · simp [hm]
    · by_cases hij : p = (i, j)
      · subst hij; simp [hm, hp.1, hp.2]
      · have : ¬ (p.1 = i ∧ p.2 = j) := fun hh => hij (Prod.ext hh.1 hh.2)
        have h3 : ¬ ((p.1 = i ∧ i < 25) ∧ (p.2 = j ∧ j < 25)) := fun hh => this ⟨hh.1.1, hh.2.1⟩
        have h4 : ¬ (i, j) = p := fun hh => hij hh.symm
        simp [hm, h3, h4]

/-! ## Loading: the loaded state -/

theorem cuadrado_le_25 (n : Nat) (hn : n ≤ 5) : n * n ≤ 25 :=
  Nat.mul_le_mul hn hn

/-- The state after `cargarSudoku` on a board with entries in `[0, 25]`. -/
theorem cargarSudoku_spec (previo : Estado) (tablero : List (List Int)) (n : Nat)
    (hn5 : n ≤ 5) (he : EntradasEn tablero (n * n) 25) :
    ∃ st, cargarSudoku previo tablero n = some st ∧ st.n = n ∧ st.tamano = n * n ∧
      st.nodosExplorados = 0 ∧
      (∀ i j, i < n * n → j < n * n → leerCelda st.sudoku i j = entrada tablero i j) ∧
      (∀ u, u < n * n → ∀ k : Nat,
        (Bitset.test (leer 0 st.filaCandidatos u) k = true ↔
          (1 ≤ k ∧ k ≤ n * n ∧ ¬ EnFila (entrada tablero) (n * n) u k)) ∧
        (Bitset.test (leer 0 st.colCandidatos u) k = true ↔
          (1 ≤ k ∧ k ≤ n * n ∧ ¬ EnColumna (entrada tablero) (n * n) u k)) ∧
        (Bitset.test (leer 0 st.bloqueCandidatos u) k = true ↔
          (1 ≤ k ∧ k ≤ n * n ∧ ¬ EnBloque (entrada tablero) n u k))) ∧
      st.celdasVacias = (cerosDe (entrada tablero) (n * n) : Nat) := by
  have hN : n * n ≤ 25 := cuadrado_le_25 n hn5
  obtain ⟨a1, ha1, ha2⟩ := llenarCandidatos_spec (n * n) hN (List.range (n * n))
    (fun _ => Bitset.vacio)
  have hent : ∀ p ∈ celdas (n * n),
      0 ≤ entrada tablero p.1 p.2 ∧ entrada tablero p.1 p.2 < 26 := by
    intro p hp
    rw [mem_celdas] at hp
    have := he p.1 hp.1 p.2 hp.2
    omega
  have hbits : ∀ u, u < n * n → ∀ k,
      (Bitset.test (leer 0 a1 u) k = true ↔ (1 ≤ k ∧ k ≤ n * n)) := by
    intro u hu k
    have hu25 : u < 25 := by omega
    rw [ha2]
    simp [leer, hu25, Bitset.test_vacio, hu]
  have hcarga : cargarSudoku previo tablero n =
      cargarCeldas tablero (celdas (n * n))
        { sudoku := fun _ _ => 0, filaCandidatos := a1, colCandidatos := a1,
          bloqueCandidatos := a1, n := n, tamano := n * n, nodosExplorados := 0,
          celdasVacias := 0 } := by
    simp only [cargarSudoku, limpiarCandidatos_todos, ha1]
  refine ⟨_, hcarga.trans (cargarCeldas_eq tablero (celdas (n * n)) _ hent), ?_⟩
  · refine ⟨rfl, rfl, rfl, ?_, ?_, ?_⟩
    · intro i j hi hj
      simp only
      rw [leerCelda_escribirEntradas _ _ _ (fun p hp => by
        rw [mem_celdas] at hp; omega)]
      have : (i, j) ∈ celdas (n * n) := by rw [mem_celdas]; exact ⟨hi, hj⟩
      simp [this]
    · intro u hu k
      have hkk : ∀ x : Int, (x ≠ (k : Int) ∨ x = 0) ↔ (1 ≤ k → x ≠ (k : Int)) := by
        intro x; omega
      refine ⟨?_, ?_, ?_⟩
      · simp only
        rw [test_borrarUsados _ _ _ _ (fun p hp => by
          have h1 := hent p hp
          rw [mem_celdas] at hp
          exact ⟨by omega, h1⟩), hbits u hu]
        simp only [mem_celdas, EnFila, hkk]
        constructor
        · rintro ⟨⟨h1, h2⟩, h3⟩
          refine ⟨h1, h2, ?_⟩
          rintro ⟨c, hc, hv⟩
          exact h3 (u, c) ⟨hu, hc⟩ rfl h1 hv
        · rintro ⟨h1, h2, h3⟩
          refine ⟨⟨h1, h2⟩, ?_⟩
          rintro ⟨i, j⟩ ⟨_, hj⟩ hiu _ hv
          simp only at hiu hv
          subst hiu
          exact h3 ⟨j, hj, hv⟩
      · simp only
        rw [test_borrarUsados _ _ _ _ (fun p hp => by
          have h1 := hent p hp
          rw [mem_celdas] at hp
          exact ⟨by omega, h1⟩), hbits u hu]
        simp only [mem_celdas, EnColumna, hkk]
        constructor
        · rintro ⟨⟨h1, h2⟩, h3⟩
          refine ⟨h1, h2, ?_⟩
          rintro ⟨r, hr, hv⟩
          exact h3 (r, u) ⟨hr, hu⟩ rfl h1 hv
        · rintro ⟨h1, h2, h3⟩
          refine ⟨⟨h1, h2⟩, ?_⟩
          rintro ⟨i, j⟩ ⟨hi, _⟩ hju _ hv
          simp only at hju hv
          subst hju
          exact h3 ⟨i, hi, hv⟩
      · simp only
        rw [test_borrarUsados _ _ _ _ (fun p hp => by
          have h1 := hent p hp
          rw [mem_celdas] at hp
          have := obtenerBloque_cota n p.1 p.2 hp.1 hp.2
          exact ⟨by omega, h1⟩), hbits u hu]
        simp only [mem_celdas, EnBloque, hkk]
        constructor
        · rintro ⟨⟨h1, h2⟩, h3⟩
          refine ⟨h1, h2, ?_⟩
          rintro ⟨r, hr, c, hc, hb, hv⟩
          exact h3 (r, c) ⟨hr, hc⟩ hb h1 hv
        · rintro ⟨h1, h2, h3⟩
          refine ⟨⟨h1, h2⟩, ?_⟩
          rintro ⟨i, j⟩ ⟨hi, hj⟩ hb _ hv
          exact h3 ⟨i, hi, j, hj, hb, hv⟩
    · simp [cerosDe]

/-- C5. After `cargarSudoku(tablero, n)` on an `n² × n²` board (`2 ≤ n ≤ 5`) with entries
in `[0, n²]`: bit `v` of the vector of row, column or block `u` is set exactly when
`1 ≤ v ≤ n²` and `v` does not occur in that row, column or block of the board;
`celdasVacias` is the number of zero cells and `nodosExplorados` is 0. -/
theorem cargarSudoku_candidatos (previo : Estado) (tablero : List (List Int)) (n : Nat)
    (_hn2 : 2 ≤ n) (hn5 : n ≤ 5) (_hc : EsCuadrado tablero (n * n))
    (he : EntradasEn tablero (n * n) ((n * n : Nat) : Int)) :
    ∃ st, cargarSudoku previo tablero n = some st ∧
      (∀ u, u < n * n → ∀ v : Nat,
        (Bitset.test (leer 0 st.filaCandidatos u) v = true ↔
          (1 ≤ v ∧ v ≤ n * n ∧ ¬ EnFila (entrada tablero) (n * n) u v)) ∧
        (Bitset.test (leer 0 st.colCandidatos u) v = true ↔
          (1 ≤ v ∧ v ≤ n * n ∧ ¬ EnColumna (entrada tablero) (n * n) u v)) ∧
        (Bitset.test (leer 0 st.bloqueCandidatos u) v = true ↔
          (1 ≤ v ∧ v ≤ n * n ∧ ¬ EnBloque (entrada tablero) n u v))) ∧
      st.celdasVacias = (cerosDe (entrada tablero) (n * n) : Nat) ∧
      st.nodosExplorados = 0 := by
  have hN : n * n ≤ 25 := cuadrado_le_25 n hn5
  have he25 : EntradasEn tablero (n * n) 25 := by
    intro i hi j hj
    have := he i hi j hj
    omega
  obtain ⟨st, h1, _, _, h4, _, h6, h7⟩ := cargarSudoku_spec previo tablero n hn5 he25
  exact ⟨st, h1, h6, h7, h4⟩

/-- The 4 × 4 puzzle `tablero4` loaded with `n = 2`, an instance of C5. -/
theorem cargarSudoku_candidatos_witness :
    ∃ st, cargarSudoku Estado.inicial tablero4 2 = some st ∧
      (∀ u, u < 2 * 2 → ∀ v : Nat,
        (Bitset.test (leer 0 st.filaCandidatos u) v = true ↔
          (1 ≤ v ∧ v ≤ 2 * 2 ∧ ¬ EnFila (entrada tablero4) (2 * 2) u v)) ∧
        (Bitset.test (leer 0 st.colCandidatos u) v = true ↔
          (1 ≤ v ∧ v ≤ 2 * 2 ∧ ¬ EnColumna (entrada tablero4) (2 * 2) u v)) ∧
        (Bitset.test (leer 0 st.bloqueCandidatos u) v = true ↔
          (1 ≤ v ∧ v ≤ 2 * 2 ∧ ¬ EnBloque (entrada tablero4) 2 u v))) ∧
      st.celdasVacias = (cerosDe (entrada tablero4) (2 * 2) : Nat) ∧
      st.nodosExplorados = 0 :=
  cargarSudoku_candidatos Estado.inicial tablero4 2 (by decide) (by decide) (by decide)
    (by decide)


/-! ## The initial validator -/

/-- What one `vistos` scan decides, on cells holding non-negative values. -/
theorem validarUnidad_iff (st : Estado) (conRango : Bool) (cs : List (Nat × Nat)) :
    ∀ (vistos : Bitset), (∀ p ∈ cs, 0 ≤ leerCelda st.sudoku p.1 p.2) →
      (validarUnidad st conRango cs vistos = true ↔
        ((conRango = true → ∀ p ∈ cs, leerCelda st.sudoku p.1 p.2 ≠ 0 →
            1 ≤ leerCelda st.sudoku p.1 p.2 ∧ leerCelda st.sudoku p.1 p.2 ≤ (st.tamano : Int)) ∧
          (∀ p ∈ cs, leerCelda st.sudoku p.1 p.2 ≠ 0 →
            Bitset.test vistos (leerCelda st.sudoku p.1 p.2).toNat = false) ∧
          cs.Pairwise (fun p q => leerCelda st.sudoku p.1 p.2 ≠ 0 →
            leerCelda st.sudoku p.1 p.2 ≠ leerCelda st.sudoku q.1 q.2))) := by
  induction cs with
  | nil => intro vistos _; simp [validarUnidad]
  | cons p resto ih =>
    intro vistos hnn
    obtain ⟨i, j⟩ := p
    have hp := hnn (i, j) (List.mem_cons_self _ _)
    have hr := fun q hq => hnn q (List.mem_cons_of_mem _ hq)
    simp only at hp
    simp only [validarUnidad, List.mem_cons, forall_eq_or_imp, List.pairwise_cons]
    by_cases h0 : leerCelda st.sudoku i j = 0
    · simp only [h0, ne_eq, not_true_eq_false, if_false, false_implies, true_and, implies_true]
      rw [ih vistos hr]
    · simp only [ne_eq, h0, not_false_eq_true, if_true, true_implies]
      by_cases hrango : (conRango && (decide (leerCelda st.sudoku i j < 1) ||
          decide (leerCelda st.sudoku i j > (st.tamano : Int)))) = true
      · rw [if_pos hrango]
        simp only [Bool.and_eq_true, Bool.or_eq_true, decide_eq_true_eq] at hrango
        simp only [Bool.false_eq_true, false_iff, not_and]
        intro h
        have := (h hrango.1).1
        omega
      · rw [if_neg hrango]
        simp only [Bool.and_eq_true, Bool.or_eq_true, decide_eq_true_eq, not_and, not_or,
          not_lt, gt_iff_lt, not_lt] at hrango
        by_cases hv : Bitset.test vistos (leerCelda st.sudoku i j).toNat = true
        · rw [if_pos hv]
          simp [hv]
        · rw [if_neg hv, ih _ hr]
          simp only [Bool.not_eq_true] at hv
          have hk : ∀ q ∈ resto, leerCelda st.sudoku q.1 q.2 ≠ 0 →
              (Bitset.test (vistos ||| 2 ^ (leerCelda st.sudoku i j).toNat)
                  (leerCelda st.sudoku q.1 q.2).toNat = false ↔
                (Bitset.test vistos (leerCelda st.sudoku q.1 q.2).toNat = false ∧
                  ¬ leerCelda st.sudoku i j = leerCelda st.sudoku q.1 q.2)) := by
            intro q hq _
            have hq0 := hr q hq
            rw [Bitset.test_marcar]
            have : (leerCelda st.sudoku i j).toNat = (leerCelda st.sudoku q.1 q.2).toNat ↔
                leerCelda st.sudoku i j = leerCelda st.sudoku q.1 q.2 := by omega
            simp [this]
          constructor
          · rintro ⟨h1, h2, h3⟩
            refine ⟨fun hc => ⟨hrango hc, h1 hc⟩, ⟨hv, fun q hq hq0 => ((hk q hq hq0).mp (h2 q hq hq0)).1⟩,
              fun q hq => ?_, h3⟩
            by_cases hq0 : leerCelda st.sudoku q.1 q.2 = 0
            · rw [hq0]; exact h0
            · exact ((hk q hq hq0).mp (h2 q hq hq0)).2
          · rintro ⟨h1, h2, h3, h4⟩
            exact ⟨fun hc => (h1 hc).2, fun q hq hq0 => (hk q hq hq0).mpr ⟨h2.2 q hq hq0, h3 q hq⟩, h4⟩

/-- On a duplicate-free list of cells the scan's pairwise condition reads: two different
listed cells never hold the same non-zero value. -/
theorem pairwise_celdas_iff (f : Nat → Nat → Int) (cs : List (Nat × Nat)) (hnd : cs.Nodup) :
    cs.Pairwise (fun p q => f p.1 p.2 ≠ 0 → f p.1 p.2 ≠ f q.1 q.2) ↔
      ∀ p ∈ cs, ∀ q ∈ cs, p ≠ q → f p.1 p.2 ≠ 0 → f p.1 p.2 ≠ f q.1 q.2 := by
  constructor
  · intro h p hp q hq hpq
    refine List.Pairwise.forall ?_ h hp hq hpq
    intro a b hab hb0 heq
    exact hab (by rw [← heq]; exact hb0) heq.symm
  · intro h
    exact hnd.pairwise_of_forall_ne (fun a ha b hb hab => h a ha b hb hab)

/-- The validator on a state of known sizes whose board holds no negative value: it
accepts exactly the boards whose non-zero entries lie in `1..tamano` and are not
repeated in any row, column or block. -/
theorem validarEstadoInicial_iff_estado (st : Estado) (hd : Dimensionado st)
    (hnn : ∀ i, i < st.tamano → ∀ j, j < st.tamano → 0 ≤ leerCelda st.sudoku i j) :
    validarEstadoInicial st = true ↔
      (EnRango (leerCelda st.sudoku) st.tamano ∧ SinRepetidos (leerCelda st.sudoku) st.n) := by
  obtain ⟨hn1, _, hN⟩ := hd
  have hfila : ∀ i, i < st.tamano → ∀ p ∈ celdasFila st.tamano i,
      0 ≤ leerCelda st.sudoku p.1 p.2 := by
    intro i hi p hp
    rw [mem_celdasFila] at hp
    rw [hp.1]; exact hnn i hi p.2 hp.2
  have hcol : ∀ j, j < st.tamano → ∀ p ∈ celdasColumna st.tamano j,
      0 ≤ leerCelda st.sudoku p.1 p.2 := by
    intro j hj p hp
    rw [mem_celdasColumna] at hp
    rw [hp.2]; exact hnn p.1 hp.1 j hj
  have hblo : ∀ b, b < st.tamano → ∀ p ∈ celdasBloque st.n b,
      0 ≤ leerCelda st.sudoku p.1 p.2 := by
    intro b hb p hp
    rw [mem_celdasBloque _ _ (hN ▸ hb)] at hp
    exact hnn p.1 (hN ▸ hp.1) p.2 (hN ▸ hp.2.1)
  simp only [validarEstadoInicial, Bool.and_eq_true, List.all_eq_true, List.mem_range]
  have e1 : (∀ i, i < st.tamano → validarUnidad st true (celdasFila st.tamano i) Bitset.vacio = true) ↔
      ∀ i, i < st.tamano →
        ((∀ p ∈ celdasFila st.tamano i, leerCelda st.sudoku p.1 p.2 ≠ 0 →
            1 ≤ leerCelda st.sudoku p.1 p.2 ∧ leerCelda st.sudoku p.1 p.2 ≤ (st.tamano : Int)) ∧
          ∀ p ∈ celdasFila st.tamano i, ∀ q ∈ celdasFila st.tamano i, p ≠ q →
            leerCelda st.sudoku p.1 p.2 ≠ 0 →
            leerCelda st.sudoku p.1 p.2 ≠ leerCelda st.sudoku q.1 q.2) := by
    refine forall_congr' (fun i => imp_congr_right (fun hi => ?_))
    rw [validarUnidad_iff st true _ _ (hfila i hi),
      pairwise_celdas_iff (leerCelda st.sudoku) _ (nodup_celdasFila _ _)]
    simp [Bitset.test_vacio]
  have e2 : (∀ j, j < st.tamano → validarUnidad st false (celdasColumna st.tamano j) Bitset.vacio = true) ↔
      ∀ j, j < st.tamano →
          ∀ p ∈ celdasColumna st.tamano j, ∀ q ∈ celdasColumna st.tamano j, p ≠ q →
            leerCelda st.sudoku p.1 p.2 ≠ 0 →
            leerCelda st.sudoku p.1 p.2 ≠ leerCelda st.sudoku q.1 q.2 := by
    refine forall_congr' (fun j => imp_congr_right (fun hj => ?_))
    rw [validarUnidad_iff st false _ _ (hcol j hj),
      pairwise_celdas_iff (leerCelda st.sudoku) _ (nodup_celdasColumna _ _)]
    simp [Bitset.test_vacio]
  have e3 : (∀ b, b < st.tamano → validarUnidad st false (celdasBloque st.n b) Bitset.vacio = true) ↔
      ∀ b, b < st.tamano →
          ∀ p ∈ celdasBloque st.n b, ∀ q ∈ celdasBloque st.n b, p ≠ q →
            leerCelda st.sudoku p.1 p.2 ≠ 0 →
            leerCelda st.sudoku p.1 p.2 ≠ leerCelda st.sudoku q.1 q.2 := by
    refine forall_congr' (fun b => imp_congr_right (fun hb => ?_))
    rw [validarUnidad_iff st false _ _ (hblo b hb),
      pairwise_celdas_iff (leerCelda st.sudoku) _ (nodup_celdasBloque _ _)]
    simp [Bitset.test_vacio]
  rw [e1, e2, e3]
  constructor
  · rintro ⟨⟨hA, hB⟩, hC⟩
    refine ⟨fun i hi j hj h0 => (hA i hi).1 (i, j) ((mem_celdasFila _ _ _).mpr ⟨rfl, hj⟩) h0, ?_⟩
    intro i hi j hj i2 hi2 j2 hj2 h0 heq
    rw [← hN] at hi hj hi2 hj2
    by_cases hsame : i = i2 ∧ j = j2
    · exact Or.inl hsame
    · right
      have hne : (i, j) ≠ (i2, j2) := fun h => hsame ⟨congrArg Prod.fst h, congrArg Prod.snd h⟩
      refine ⟨?_, ?_, ?_⟩
      · intro hii
        subst hii
        exact (hA i hi).2 (i, j) ((mem_celdasFila _ _ _).mpr ⟨rfl, hj⟩) (i, j2)
          ((mem_celdasFila _ _ _).mpr ⟨rfl, hj2⟩) hne h0 heq
      · intro hjj
        subst hjj
        exact hB j hj (i, j) ((mem_celdasColumna _ _ _).mpr ⟨hi, rfl⟩) (i2, j)
          ((mem_celdasColumna _ _ _).mpr ⟨hi2, rfl⟩) hne h0 heq
      · intro hblk
        have hb1 := obtenerBloque_cota st.n i j (hN ▸ hi) (hN ▸ hj)
        have hbb := (bloque_eq_iff st.n i j i2 j2 (hN ▸ hj) (hN ▸ hj2)).mpr hblk
        exact hC _ (hN ▸ hb1) (i, j)
          ((mem_celdasBloque _ _ hb1 _).mpr ⟨hN ▸ hi, hN ▸ hj, rfl⟩) (i2, j2)
          ((mem_celdasBloque _ _ hb1 _).mpr ⟨hN ▸ hi2, hN ▸ hj2, hbb.symm⟩) hne h0 heq
  · rintro ⟨hR, hS⟩
    refine ⟨⟨fun i hi => ⟨?_, ?_⟩, ?_⟩, ?_⟩
    · intro p hp h0
      rw [mem_celdasFila] at hp
      have := hR p.1 (hp.1 ▸ hi) p.2 hp.2 h0
      exact this
    · intro p hp q hq hpq h0 heq
      rw [mem_celdasFila] at hp hq
      rcases hS p.1 (hN ▸ hp.1 ▸ hi) p.2 (hN ▸ hp.2) q.1 (hN ▸ hq.1 ▸ hi) q.2 (hN ▸ hq.2) h0 heq
        with h | h
      · exact hpq (Prod.ext h.1 h.2)
      · exact h.1 (hp.1.trans hq.1.symm)
    · intro j hj p hp q hq hpq h0 heq
      rw [mem_celdasColumna] at hp hq
      rcases hS p.1 (hN ▸ hp.1) p.2 (hN ▸ hp.2 ▸ hj) q.1 (hN ▸ hq.1) q.2 (hN ▸ hq.2 ▸ hj) h0 heq
        with h | h
      · exact hpq (Prod.ext h.1 h.2)
      · exact h.2.1 (hp.2.trans hq.2.symm)
    · intro b hb p hp q hq hpq h0 heq
      rw [mem_celdasBloque _ _ (hN ▸ hb)] at hp hq
      rcases hS p.1 hp.1 p.2 hp.2.1 q.1 hq.1 q.2 hq.2.1 h0 heq with h | h
      · exact hpq (Prod.ext h.1 h.2)
      · exact h.2.2 ((bloque_eq_iff st.n _ _ _ _ hp.2.1 hq.2.1).mp (hp.2.2.trans hq.2.2.symm))

theorem enRango_congr (f g : Nat → Nat → Int) (N : Nat)
    (h : ∀ i j, i < N → j < N → f i j = g i j) : EnRango f N ↔ EnRango g N := by
  unfold EnRango
  constructor
  · intro hf i hi j hj; rw [← h i j hi hj]; exact hf i hi j hj
  · intro hg i hi j hj; rw [h i j hi hj]; exact hg i hi j hj

theorem sinRepetidos_congr (f g : Nat → Nat → Int) (n : Nat)
    (h : ∀ i j, i < n * n → j < n * n → f i j = g i j) :
    SinRepetidos f n ↔ SinRepetidos g n := by
  unfold SinRepetidos SinRepetidosEn
  constructor
  · intro hf i hi j hj i2 hi2 j2 hj2
    rw [← h i j hi hj, ← h i2 j2 hi2 hj2]; exact hf i hi j hj i2 hi2 j2 hj2
  · intro hg i hi j hj i2 hi2 j2 hj2
    rw [h i j hi hj, h i2 j2 hi2 hj2]; exact hg i hi j hj i2 hi2 j2 hj2

/-- C3. On an `n² × n²` board (`2 ≤ n ≤ 5`) with entries in `[0, 25]` loaded with
`cargarSudoku`, `validarEstadoInicial` returns true exactly when every non-zero entry
lies in `[1, n²]` and no non-zero value appears twice in a row, a column or an `n × n`
block. -/
theorem validarEstadoInicial_iff (previo : Estado) (tablero : List (List Int)) (n : Nat)
    (st : Estado) (hn2 : 2 ≤ n) (hn5 : n ≤ 5) (_hc : EsCuadrado tablero (n * n))
    (he : EntradasEn tablero (n * n) 25)
    (hcarga : cargarSudoku previo tablero n = some st) :
    validarEstadoInicial st = true ↔
      (EnRango (entrada tablero) (n * n) ∧ SinRepetidos (entrada tablero) n) := by
  obtain ⟨st2, h1, h2, h3, _, h5, _, _⟩ := cargarSudoku_spec previo tablero n hn5 he
  rw [hcarga, Option.some.injEq] at h1
  subst h1
  have hd : Dimensionado st := ⟨by omega, by omega, by rw [h3, h2]⟩
  rw [validarEstadoInicial_iff_estado st hd (fun i hi j hj => by
    rw [h3] at hi hj
    rw [h5 i j hi hj]; exact (he i hi j hj).1)]
  rw [h3, h2, enRango_congr _ _ _ h5, sinRepetidos_congr _ _ _ h5]

/-- The 4 × 4 puzzle `tablero4` loaded with `n = 2`, an instance of C3. -/
theorem validarEstadoInicial_iff_witness :
    validarEstadoInicial (estadoDe tablero4 2) = true ↔
      (EnRango (entrada tablero4) (2 * 2) ∧ SinRepetidos (entrada tablero4) 2) :=
  validarEstadoInicial_iff Estado.inicial tablero4 2 (estadoDe tablero4 2) (by decide)
    (by decide) (by decide) (by decide) (estadoDe_spec tablero4 2 (by decide))


/-! ## Placing a value keeps the invariant -/

theorem enFila_conValor (f : Nat → Nat → Int) (N r c : Nat) (v : Int) (u : Nat) (w : Int)
    (hc : c < N) (h0 : f r c = 0) (hw : w ≠ 0) :
    EnFila (conValor f r c v) N u w ↔ (EnFila f N u w ∨ (u = r ∧ w = v)) := by
  unfold EnFila conValor
  constructor
  · rintro ⟨j, hj, h⟩
    by_cases hij : u = r ∧ j = c
    · rw [if_pos hij] at h; exact Or.inr ⟨hij.1, h.symm⟩
    · rw [if_neg hij] at h; exact Or.inl ⟨j, hj, h⟩
  · rintro (⟨j, hj, h⟩ | ⟨rfl, rfl⟩)
    · refine ⟨j, hj, ?_⟩
      by_cases hij : u = r ∧ j = c
      · obtain ⟨rfl, rfl⟩ := hij
        rw [h0] at h; exact absurd h.symm hw
      · rw [if_neg hij]; exact h
    · exact ⟨c, hc, by simp⟩

theorem enColumna_conValor (f : Nat → Nat → Int) (N r c : Nat) (v : Int) (u : Nat) (w : Int)
    (hr : r < N) (h0 : f r c = 0) (hw : w ≠ 0) :
    EnColumna (conValor f r c v) N u w ↔ (EnColumna f N u w ∨ (u = c ∧ w = v)) := by
  unfold EnColumna conValor
  constructor
  · rintro ⟨i, hi, h⟩
    by_cases hij : i = r ∧ u = c
    · rw [if_pos hij] at h; exact Or.inr ⟨hij.2, h.symm⟩
    · rw [if_neg hij] at h; exact Or.inl ⟨i, hi, h⟩
  · rintro (⟨i, hi, h⟩ | ⟨rfl, rfl⟩)
    · refine ⟨i, hi, ?_⟩
      by_cases hij : i = r ∧ u = c
      · obtain ⟨rfl, rfl⟩ := hij
        rw [h0] at h; exact absurd h.symm hw
      · rw [if_neg hij]; exact h
    · exact ⟨r, hr, by simp⟩

theorem enBloque_conValor (f : Nat → Nat → Int) (n r c : Nat) (v : Int) (u : Nat) (w : Int)
    (hr : r < n * n) (hc : c < n * n) (h0 : f r c = 0) (hw : w ≠ 0) :
    EnBloque (conValor f r c v) n u w ↔
      (EnBloque f n u w ∨ (u = (r / n) * n + c / n ∧ w = v)) := by
  unfold EnBloque conValor
  constructor
  · rintro ⟨i, hi, j, hj, hb, h⟩
    by_cases hij : i = r ∧ j = c
    · rw [if_pos hij] at h
      obtain ⟨rfl, rfl⟩ := hij
      exact Or.inr ⟨hb.symm, h.symm⟩
    · rw [if_neg hij] at h; exact Or.inl ⟨i, hi, j, hj, hb, h⟩
  · rintro (⟨i, hi, j, hj, hb, h⟩ | ⟨rfl, rfl⟩)
    · refine ⟨i, hi, j, hj, hb, ?_⟩
      by_cases hij : i = r ∧ j = c
      · obtain ⟨rfl, rfl⟩ := hij
        rw [h0] at h; exact absurd h.symm hw
      · rw [if_neg hij]; exact h
    · exact ⟨r, hr, c, hc, rfl, by simp⟩

theorem leerCelda_colocarValor (st : Estado) (r c v : Nat) (hr : r < 25) (hc : c < 25) :
    leerCelda (colocarValor st r c v).sudoku = conValor (leerCelda st.sudoku) r c (v : Int) := by
  funext i j
  simp only [colocarValor, leerCelda_escribirCelda, conValor]
  by_cases h : i = r ∧ j = c
  · obtain ⟨rfl, rfl⟩ := h; simp [hr, hc]
  · have : ¬ ((r = i ∧ i < 25) ∧ (c = j ∧ j < 25)) := fun hh => h ⟨hh.1.1.symm, hh.2.1.symm⟩
    simp [h, this]

/-- Filling one empty cell of the board lowers the number of empty cells by one. -/
theorem cerosDe_conValor (f : Nat → Nat → Int) (N r c : Nat) (v : Int) (hr : r < N)
    (hc : c < N) (h0 : f r c = 0) (hv : v ≠ 0) :
    cerosDe (conValor f r c v) N + 1 = cerosDe f N := by
  unfold cerosDe
  have hmem : (r, c) ∈ celdas N := (mem_celdas N (r, c)).mpr ⟨hr, hc⟩
  have hnd := nodup_celdas N
  generalize celdas N = l at hmem hnd
  induction l with
  | nil => simp at hmem
  | cons p resto ih =>
    rw [List.nodup_cons] at hnd
    rw [List.countP_cons, List.countP_cons]
    by_cases hp : p = (r, c)
    · subst hp
      have hresto : List.countP (fun p => decide (conValor f r c v p.1 p.2 = 0)) resto =
          List.countP (fun p => decide (f p.1 p.2 = 0)) resto := by
        apply List.countP_congr
        intro q hq
        have hq2 : ¬ (q.1 = r ∧ q.2 = c) := fun hh => hnd.1 (by
          have : q = (r, c) := Prod.ext hh.1 hh.2
          rw [← this]; exact hq)
        simp [conValor, hq2]
      rw [hresto]
      simp [conValor, h0, hv]
    · have hmem2 : (r, c) ∈ resto := by
        rcases List.mem_cons.mp hmem with h | h
        · exact absurd h.symm hp
        · exact h
      have hp2 : ¬ (p.1 = r ∧ p.2 = c) := fun hh => hp (Prod.ext hh.1 hh.2)
      have := ih hmem2 hnd.2
      simp only [conValor, hp2, if_false]
      simp only [conValor] at this
      omega


/-- The three vectors of a candidate of a cell have its bit set. -/
theorem test_obtenerCandidatos (st : Estado) (r c v : Nat) :
    Bitset.test (obtenerCandidatos st r c) v = true ↔
      (Bitset.test (leer 0 st.filaCandidatos r) v = true ∧
        Bitset.test (leer 0 st.colCandidatos c) v = true ∧
        Bitset.test (leer 0 st.bloqueCandidatos ((r / st.n) * st.n + c / st.n)) v = true) := by
  simp [obtenerCandidatos, obtenerBloque, Bitset.test_inter, and_assoc]

/-- A candidate of an empty cell, under the invariant, is a symbol of `1..tamano` used
neither in the row, nor in the column, nor in the block of the cell. -/
theorem candidato_libre (st : Estado) (h : Invariante st) (r c v : Nat)
    (hr : r < st.tamano) (hc : c < st.tamano) (hv26 : v < 26)
    (hv : Bitset.test (obtenerCandidatos st r c) v = true) :
    1 ≤ v ∧ v ≤ st.tamano ∧ ¬ EnFila (leerCelda st.sudoku) st.tamano r v ∧
      ¬ EnColumna (leerCelda st.sudoku) st.tamano c v ∧
      ¬ EnBloque (leerCelda st.sudoku) st.n ((r / st.n) * st.n + c / st.n) v := by
  obtain ⟨⟨_, _, hN⟩, hcons, _, _, _⟩ := h
  rw [test_obtenerCandidatos] at hv
  have hb : (r / st.n) * st.n + c / st.n < st.tamano := by
    rw [hN]; exact obtenerBloque_cota st.n r c (hN ▸ hr) (hN ▸ hc)
  have h1 := ((hcons r hr v hv26).1).mp hv.1
  have h2 := ((hcons c hc v hv26).2.1).mp hv.2.1
  have h3 := ((hcons _ hb v hv26).2.2).mp hv.2.2
  exact ⟨h1.1, h1.2.1, h1.2.2, h2.2.2, h3.2.2⟩

/-- Placing a candidate in an empty cell of the board, with `celdasVacias` decremented,
keeps the invariant. -/
theorem invariante_colocar (st : Estado) (h : Invariante st) (r c v : Nat)
    (hr : r < st.tamano) (hc : c < st.tamano) (h0 : leerCelda st.sudoku r c = 0)
    (hv26 : v < 26) (hv : Bitset.test (obtenerCandidatos st r c) v = true) :
    Invariante { colocarValor st r c v with celdasVacias := st.celdasVacias - 1 } := by
  obtain ⟨hv1, hvN, hfil, hcol, hblo⟩ := candidato_libre st h r c v hr hc hv26 hv
  obtain ⟨hd, hcons, hran, hsin, hcv⟩ := h
  obtain ⟨hn1, hn5, hN⟩ := hd
  have hN25 : st.tamano ≤ 25 := hN ▸ cuadrado_le_25 st.n hn5
  have hr25 : r < 25 := by omega
  have hc25 : c < 25 := by omega
  have hb : (r / st.n) * st.n + c / st.n < st.tamano := by
    rw [hN]; exact obtenerBloque_cota st.n r c (hN ▸ hr) (hN ▸ hc)
  have hf := leerCelda_colocarValor st r c v hr25 hc25
  have hvz : ((v : Nat) : Int) ≠ 0 := by omega
  refine ⟨⟨hn1, hn5, hN⟩, ?_, ?_, ?_, ?_⟩
  · intro u hu w hw
    have hu' : u < st.tamano := hu
    have hu25 : u < 25 := by omega
    obtain ⟨c1, c2, c3⟩ := hcons u hu' w hw
    have hwz : 1 ≤ w → ((w : Nat) : Int) ≠ 0 := by omega
    have hwv : ((w : Nat) : Int) = (v : Int) ↔ v = w := by omega
    refine ⟨?_, ?_, ?_⟩
    · show Bitset.test (leer 0 (colocarValor st r c v).filaCandidatos u) w = true ↔
        (1 ≤ w ∧ w ≤ st.tamano ∧
          ¬ EnFila (leerCelda (colocarValor st r c v).sudoku) st.tamano u w)
      rw [hf]
      simp only [colocarValor, leer_escribir]
      by_cases hur : r = u
      · subst hur
        simp only [hu25, and_self, if_true, Bitset.test_reset _ _ _ hv26, Bool.and_eq_true,
          c1, Bool.not_eq_true', decide_eq_false_iff_not]
        constructor
        · rintro ⟨⟨a1, a2, a3⟩, a4⟩
          refine ⟨a1, a2, ?_⟩
          rw [enFila_conValor _ _ _ _ _ _ _ hc h0 (hwz a1)]
          rintro (hh | ⟨_, hh⟩)
          · exact a3 hh
          · exact a4 (hwv.mp hh)
        · rintro ⟨a1, a2, a3⟩
          rw [enFila_conValor _ _ _ _ _ _ _ hc h0 (hwz a1)] at a3
          exact ⟨⟨a1, a2, fun hh => a3 (Or.inl hh)⟩, fun hh => a3 (Or.inr ⟨rfl, hwv.mpr hh⟩)⟩
      · simp only [hur, false_and, if_false, c1]
        constructor
        · rintro ⟨a1, a2, a3⟩
          refine ⟨a1, a2, ?_⟩
          rw [enFila_conValor _ _ _ _ _ _ _ hc h0 (hwz a1)]
          rintro (hh | ⟨hh, _⟩)
          · exact a3 hh
          · exact hur hh.symm
        · rintro ⟨a1, a2, a3⟩
          rw [enFila_conValor _ _ _ _ _ _ _ hc h0 (hwz a1)] at a3
          exact ⟨a1, a2, fun hh => a3 (Or.inl hh)⟩
    · show Bitset.test (leer 0 (colocarValor st r c v).colCandidatos u) w = true ↔
        (1 ≤ w ∧ w ≤ st.tamano ∧
          ¬ EnColumna (leerCelda (colocarValor st r c v).sudoku) st.tamano u w)
      rw [hf]
      simp only [colocarValor, leer_escribir]
      by_cases huc : c = u
      · subst huc
        simp only [hu25, and_self, if_true, Bitset.test_reset _ _ _ hv26, Bool.and_eq_true,
          c2, Bool.not_eq_true', decide_eq_false_iff_not]
        constructor
        · rintro ⟨⟨a1, a2, a3⟩, a4⟩
          refine ⟨a1, a2, ?_⟩
          rw [enColumna_conValor _ _ _ _ _ _ _ hr h0 (hwz a1)]
          rintro (hh | ⟨_, hh⟩)
          · exact a3 hh
          · exact a4 (hwv.mp hh)
        · rintro ⟨a1, a2, a3⟩
          rw [enColumna_conValor _ _ _ _ _ _ _ hr h0 (hwz a1)] at a3
          exact ⟨⟨a1, a2, fun hh => a3 (Or.inl hh)⟩, fun hh => a3 (Or.inr ⟨rfl, hwv.mpr hh⟩)⟩
      · simp only [huc, false_and, if_false, c2]
        constructor
        · rintro ⟨a1, a2, a3⟩
          refine ⟨a1, a2, ?_⟩
          rw [enColumna_conValor _ _ _ _ _ _ _ hr h0 (hwz a1)]
          rintro (hh | ⟨hh, _⟩)
          · exact a3 hh
          · exact huc hh.symm
        · rintro ⟨a1, a2, a3⟩
          rw [enColumna_conValor _ _ _ _ _ _ _ hr h0 (hwz a1)] at a3
          exact ⟨a1, a2, fun hh => a3 (Or.inl hh)⟩
    · show Bitset.test (leer 0 (colocarValor st r c v).bloqueCandidatos u) w = true ↔
        (1 ≤ w ∧ w ≤ st.tamano ∧
          ¬ EnBloque (leerCelda (colocarValor st r c v).sudoku) st.n u w)
      rw [hf]
      simp only [colocarValor, obtenerBloque, leer_escribir]
      by_cases hub : (r / st.n) * st.n + c / st.n = u
      · subst hub
        simp only [hu25, and_self, if_true, Bitset.test_reset _ _ _ hv26, Bool.and_eq_true,
          c3, Bool.not_eq_true', decide_eq_false_iff_not]
        constructor
        · rintro ⟨⟨a1, a2, a3⟩, a4⟩
          refine ⟨a1, a2, ?_⟩
          rw [enBloque_conValor _ _ _ _ _ _ _ (hN ▸ hr) (hN ▸ hc) h0 (hwz a1)]
          rintro (hh | ⟨_, hh⟩)
          · exact a3 hh
          · exact a4 (hwv.mp hh)
        · rintro ⟨a1, a2, a3⟩
          rw [enBloque_conValor _ _ _ _ _ _ _ (hN ▸ hr) (hN ▸ hc) h0 (hwz a1)] at a3
          exact ⟨⟨a1, a2, fun hh => a3 (Or.inl hh)⟩, fun hh => a3 (Or.inr ⟨rfl, hwv.mpr hh⟩)⟩
      · simp only [hub, false_and, if_false, c3]
        constructor
        · rintro ⟨a1, a2, a3⟩
          refine ⟨a1, a2, ?_⟩
          rw [enBloque_conValor _ _ _ _ _ _ _ (hN ▸ hr) (hN ▸ hc) h0 (hwz a1)]
          rintro (hh | ⟨hh, _⟩)
          · exact a3 hh
          · exact hub hh.symm
        · rintro ⟨a1, a2, a3⟩
          rw [enBloque_conValor _ _ _ _ _ _ _ (hN ▸ hr) (hN ▸ hc) h0 (hwz a1)] at a3
          exact ⟨a1, a2, fun hh => a3 (Or.inl hh)⟩
  · show EnRango (leerCelda (colocarValor st r c v).sudoku) st.tamano
    rw [hf]
    intro i hi j hj hz
    unfold conValor at hz ⊢
    by_cases hij : i = r ∧ j = c
    · simp only [hij, and_self, if_true]; omega
    · simp only [hij, if_false] at hz ⊢; exact hran i hi j hj hz
  · show SinRepetidos (leerCelda (colocarValor st r c v).sudoku) st.n
    rw [hf]
    intro i hi j hj i2 hi2 j2 hj2 hz heq
    unfold conValor at hz heq
    by_cases hij : i = r ∧ j = c
    · by_cases hij2 : i2 = r ∧ j2 = c
      · left; exact ⟨hij.1.trans hij2.1.symm, hij.2.trans hij2.2.symm⟩
      · simp only [hij, and_self, if_true, hij2, if_false] at heq
        obtain ⟨rfl, rfl⟩ := hij
        right
        refine ⟨?_, ?_, ?_⟩
        · rintro rfl; exact hfil ⟨j2, hN ▸ hj2, heq.symm⟩
        · rintro rfl; exact hcol ⟨i2, hN ▸ hi2, heq.symm⟩
        · intro hblk
          have := (bloque_eq_iff st.n i j i2 j2 hj hj2).mpr hblk
          exact hblo ⟨i2, hi2, j2, hj2, this.symm, heq.symm⟩
    · by_cases hij2 : i2 = r ∧ j2 = c
      · simp only [hij, if_false, hij2, and_self, if_true] at heq
        obtain ⟨rfl, rfl⟩ := hij2
        right
        refine ⟨?_, ?_, ?_⟩
        · rintro rfl; exact hfil ⟨j, hN ▸ hj, heq⟩
        · rintro rfl; exact hcol ⟨i, hN ▸ hi, heq⟩
        · intro hblk
          have := (bloque_eq_iff st.n i j i2 j2 hj hj2).mpr hblk
          exact hblo ⟨i, hi, j, hj, this, heq⟩
      · simp only [hij, if_false, hij2] at hz heq
        exact hsin i hi j hj i2 hi2 j2 hj2 hz heq
  · show st.celdasVacias - 1 =
      (cerosDe (leerCelda (colocarValor st r c v).sudoku) st.tamano : Nat)
    rw [hf, hcv]
    have := cerosDe_conValor (leerCelda st.sudoku) st.tamano r c (v : Int) hr hc h0 hvz
    omega


/-! ## Undoing a trial, and the cell-selection scan -/

theorem escribir_leer {α : Type} (d : α) (a : Arreglo α) (i : Nat) :
    escribir a i (leer d a i) = a := by
  apply arreglo_ext d
  intro k hk
  rw [leer_escribir]
  by_cases hik : i = k
  · subst hik; simp [hk]
  · simp [hik]

/-- Undoing a trial on a cell that was empty gives back the state before the trial, up
to the node counter. -/
theorem restaurar_colocarValor (st : Estado) (r c v k : Nat)
    (h0 : leerCelda st.sudoku r c = 0) :
    restaurar
        { colocarValor st r c v with celdasVacias := st.celdasVacias - 1, nodosExplorados := k }
        r c v (obtenerBloque st r c) (leer 0 st.filaCandidatos r) (leer 0 st.colCandidatos c)
        (leer 0 st.bloqueCandidatos (obtenerBloque st r c)) =
      { st with nodosExplorados := k } := by
  cases st with
  | mk sudoku fila col bloque n tamano nodos vacias =>
    simp only [restaurar, quitarValor, colocarValor, obtenerBloque, Estado.mk.injEq, and_true,
      true_and, escribir_escribir, escribir_restituye] at *
    exact ⟨escribirCelda_restituye _ _ _ _ h0, escribir_leer _ _ _, escribir_leer _ _ _,
      escribir_leer _ _ _, sub_add_cancel _ _⟩

/-- The number of set bits is at most `N` when every set bit is one of `1..N`. -/
theorem count_le (b : Bitset) (N : Nat)
    (h : ∀ k, k < 26 → Bitset.test b k = true → 1 ≤ k ∧ k ≤ N) : Bitset.count b ≤ N := by
  unfold Bitset.count
  rw [List.countP_eq_length_filter]
  have hsub : (List.range 26).filter (fun k => Bitset.test b k) ⊆ List.range' 1 N := by
    intro k hk
    rw [List.mem_filter, List.mem_range] at hk
    rw [List.mem_range'_1]
    have := h k hk.1 hk.2
    omega
  have hnd : ((List.range 26).filter (fun k => Bitset.test b k)).Nodup :=
    (List.nodup_range 26).filter _
  have := (List.subperm_of_subset hnd hsub).length_le
  simpa using this

/-- Under the invariant a cell of the board has at most `tamano` candidates. -/
theorem count_obtenerCandidatos_le (st : Estado) (h : Invariante st) (r c : Nat)
    (hr : r < st.tamano) (hc : c < st.tamano) :
    Bitset.count (obtenerCandidatos st r c) ≤ st.tamano := by
  apply count_le
  intro k hk ht
  have := candidato_libre st h r c k hr hc hk ht
  exact ⟨this.1, this.2.1⟩

/-- What the three outcomes of the MRV scan tell about the scanned cells. -/
theorem buscarMRV_spec (st : Estado) (cs : List (Nat × Nat)) :
    ∀ (mejor : Option (Nat × Nat)) (minCandidatos : Nat),
      (buscarMRV st cs mejor minCandidatos = Seleccion.muerto →
        ∃ p ∈ cs, leerCelda st.sudoku p.1 p.2 = 0 ∧
          Bitset.count (obtenerCandidatos st p.1 p.2) = 0) ∧
      (∀ q, buscarMRV st cs mejor minCandidatos = Seleccion.elegida (some q) →
        (mejor = some q ∨ (q ∈ cs ∧ leerCelda st.sudoku q.1 q.2 = 0))) ∧
      (buscarMRV st cs mejor minCandidatos = Seleccion.elegida none →
        mejor = none ∧ ∀ p ∈ cs, leerCelda st.sudoku p.1 p.2 = 0 →
          minCandidatos ≤ Bitset.count (obtenerCandidatos st p.1 p.2)) := by
  induction cs with
  | nil =>
    intro mejor minC
    simp [buscarMRV]
  | cons p resto ih =>
    intro mejor minC
    obtain ⟨i, j⟩ := p
    simp only [buscarMRV]
    by_cases h0 : leerCelda st.sudoku i j = 0
    · simp only [h0, if_true]
      by_cases hc0 : Bitset.count (obtenerCandidatos st i j) = 0
      · simp only [hc0, if_true, true_implies, reduceCtorEq, false_implies, implies_true,
          and_true]
        exact ⟨(i, j), List.mem_cons_self _ _, h0, hc0⟩
      · simp only [hc0, if_false]
        by_cases hlt : Bitset.count (obtenerCandidatos st i j) < minC
        · simp only [hlt, if_true]
          by_cases h1 : Bitset.count (obtenerCandidatos st i j) = 1
          · simp only [h1, if_true, reduceCtorEq, false_implies, Seleccion.elegida.injEq,
              Option.some.injEq, true_and]
            refine ⟨fun q hq => ?_, trivial⟩
            subst hq
            exact Or.inr ⟨List.mem_cons_self _ _, h0⟩
          · simp only [h1, if_false]
            obtain ⟨a1, a2, a3⟩ := ih (some (i, j)) (Bitset.count (obtenerCandidatos st i j))
            refine ⟨fun hm => ?_, fun q hq => ?_, fun hn => ?_⟩
            · obtain ⟨p, hp, hh⟩ := a1 hm
              exact ⟨p, List.mem_cons_of_mem _ hp, hh⟩
            · rcases a2 q hq with hh | hh
              · rw [Option.some.injEq] at hh
                subst hh
                exact Or.inr ⟨List.mem_cons_self _ _, h0⟩
              · exact Or.inr ⟨List.mem_cons_of_mem _ hh.1, hh.2⟩
            · exact absurd (a3 hn).1 (by simp)
        · simp only [hlt, if_false]
          obtain ⟨a1, a2, a3⟩ := ih mejor minC
          refine ⟨fun hm => ?_, fun q hq => ?_, fun hn => ?_⟩
          · obtain ⟨p, hp, hh⟩ := a1 hm
            exact ⟨p, List.mem_cons_of_mem _ hp, hh⟩
          · rcases a2 q hq with hh | hh
            · exact Or.inl hh
            · exact Or.inr ⟨List.mem_cons_of_mem _ hh.1, hh.2⟩
          · refine ⟨(a3 hn).1, fun p hp hp0 => ?_⟩
            rcases List.mem_cons.mp hp with hh | hh
            · subst hh
              show minC ≤ Bitset.count (obtenerCandidatos st i j)
              omega
            · exact (a3 hn).2 p hh hp0
    · simp only [h0, if_false]
      obtain ⟨a1, a2, a3⟩ := ih mejor minC
      refine ⟨fun hm => ?_, fun q hq => ?_, fun hn => ?_⟩
      · obtain ⟨p, hp, hh⟩ := a1 hm
        exact ⟨p, List.mem_cons_of_mem _ hp, hh⟩
      · rcases a2 q hq with hh | hh
        · exact Or.inl hh
        · exact Or.inr ⟨List.mem_cons_of_mem _ hh.1, hh.2⟩
      · refine ⟨(a3 hn).1, fun p hp hp0 => ?_⟩
        rcases List.mem_cons.mp hp with hh | hh
        · subst hh; exact absurd hp0 h0
        · exact (a3 hn).2 p hh hp0


/-! ## Partial correctness of the search (no periodic propagation: `tamano ≤ 16`) -/

theorem sucede_colocar (st : Estado) (r c v : Nat) (x : Int) (hr : r < 25) (hc : c < 25)
    (h0 : leerCelda st.sudoku r c = 0) :
    Sucede st { colocarValor st r c v with celdasVacias := x } := by
  refine ⟨rfl, rfl, ?_⟩
  intro i _ j _ hz
  show leerCelda (colocarValor st r c v).sudoku i j = leerCelda st.sudoku i j
  rw [leerCelda_colocarValor st r c v hr hc]
  unfold conValor
  by_cases hij : i = r ∧ j = c
  · obtain ⟨rfl, rfl⟩ := hij; exact absurd h0 hz
  · simp [hij]

theorem sucede_trans (st st1 st2 : Estado) (h1 : Sucede st st1) (h2 : Sucede st1 st2) :
    Sucede st st2 := by
  obtain ⟨a1, a2, a3⟩ := h1
  obtain ⟨b1, b2, b3⟩ := h2
  refine ⟨b1.trans a1, b2.trans a2, ?_⟩
  intro i hi j hj hz
  have e1 := a3 i hi j hj hz
  have e2 := b3 i (a2 ▸ hi) j (a2 ▸ hj) (by rw [e1]; exact hz)
  rw [e2, e1]

theorem propagacionPeriodica_pequeno (st : Estado) (h : st.tamano ≤ 16) :
    propagacionPeriodica st = (true, st) := by
  have : ¬ st.tamano > 16 := by omega
  simp [propagacionPeriodica, this]

/-- The trial loop is correct when the recursive call is. -/
theorem probar_correcto (recursion : Estado → Option (Bool × Estado)) (r c : Nat)
    (cand : Bitset) (vs : List Nat) :
    ∀ (st : Estado) (b : Bool) (st2 : Estado),
      Invariante st → st.tamano ≤ 16 → r < st.tamano → c < st.tamano →
      leerCelda st.sudoku r c = 0 → (∀ v ∈ vs, v < 26) → cand = obtenerCandidatos st r c →
      (∀ s1 b1 s2, s1.tamano ≤ 16 → Invariante s1 → recursion s1 = some (b1, s2) →
        Correcto s1 b1 s2) →
      probar recursion r c cand vs st = some (b, st2) → Correcto st b st2 := by
  induction vs with
  | nil =>
    intro st b st2 _ _ _ _ _ _ _ _ hp
    simp only [probar, Option.some.injEq, Prod.mk.injEq] at hp
    obtain ⟨rfl, rfl⟩ := hp
    exact ⟨fun _ => ⟨st.nodosExplorados, rfl⟩, fun h => absurd h (by simp)⟩
  | cons v vs ih =>
    intro st b st2 hinv h16 hr hc h0 hvs hcand hrec hp
    have hv26 : v < 26 := hvs v (List.mem_cons_self _ _)
    have hvs2 : ∀ w ∈ vs, w < 26 := fun w hw => hvs w (List.mem_cons_of_mem _ hw)
    have hN25 : st.tamano ≤ 25 := by omega
    simp only [probar] at hp
    by_cases ht : Bitset.test cand v = true
    · rw [if_pos ht] at hp
      have hinv1 := invariante_colocar st hinv r c v hr hc h0 hv26 (hcand ▸ ht)
      cases hrc : recursion { colocarValor st r c v with celdasVacias := st.celdasVacias - 1 } with
      | none => rw [hrc] at hp; exact absurd hp (by simp)
      | some res =>
        obtain ⟨b1, s2⟩ := res
        rw [hrc] at hp
        have hcor := hrec { colocarValor st r c v with celdasVacias := st.celdasVacias - 1 }
          b1 s2 h16 hinv1 hrc
        cases b1 with
        | true =>
          simp only [Option.some.injEq, Prod.mk.injEq] at hp
          obtain ⟨rfl, rfl⟩ := hp
          obtain ⟨a1, a2, a3⟩ := hcor.2 rfl
          exact ⟨fun h => absurd h (by simp),
            fun _ => ⟨a1, a2, sucede_trans st
              { colocarValor st r c v with celdasVacias := st.celdasVacias - 1 } s2
              (sucede_colocar st r c v _ (by omega) (by omega) h0) a3⟩⟩
        | false =>
          simp only at hp
          obtain ⟨k, hk⟩ := hcor.1 rfl
          have hres : restaurar s2 r c v (obtenerBloque st r c) (leer 0 st.filaCandidatos r)
              (leer 0 st.colCandidatos c)
              (leer 0 st.bloqueCandidatos (obtenerBloque st r c)) =
              { st with nodosExplorados := k } := by
            rw [hk]; exact restaurar_colocarValor st r c v k h0
          rw [hres] at hp
          have := ih { st with nodosExplorados := k } b st2 hinv h16 hr hc h0 hvs2 hcand hrec hp
          refine ⟨fun hb => ?_, fun hb => this.2 hb⟩
          obtain ⟨k2, hk2⟩ := this.1 hb
          exact ⟨k2, hk2⟩
    · rw [if_neg ht] at hp
      exact ih st b st2 hinv h16 hr hc h0 hvs2 hcand hrec hp

/-- Partial correctness of `resolverBacktracking` on boards up to 16 × 16: a failed call
leaves the state as it found it (up to the node counter), a successful call ends in a
state that keeps the invariant, has `celdasVacias = 0` and keeps the filled cells. -/
theorem resolverBacktracking_correcto (fuel : Nat) :
    ∀ (st : Estado) (b : Bool) (st2 : Estado), st.tamano ≤ 16 → Invariante st →
      resolverBacktracking fuel st = some (b, st2) → Correcto st b st2 := by
  induction fuel with
  | zero => intro st b st2 _ _ h; simp [resolverBacktracking] at h
  | succ fuel ih =>
    intro st b st2 h16 hinv h
    have hinv1 : Invariante { st with nodosExplorados := st.nodosExplorados + 1 } := hinv
    simp only [resolverBacktracking] at h
    rw [propagacionPeriodica_pequeno { st with nodosExplorados := st.nodosExplorados + 1 } h16] at h
    simp only at h
    by_cases hcv : st.celdasVacias = 0
    · rw [if_pos hcv] at h
      simp only [Option.some.injEq, Prod.mk.injEq] at h
      obtain ⟨rfl, rfl⟩ := h
      exact ⟨fun h => absurd h (by simp), fun _ => ⟨hinv1, hcv, rfl, rfl, fun _ _ _ _ _ => rfl⟩⟩
    · rw [if_neg hcv] at h
      have hspec := buscarMRV_spec { st with nodosExplorados := st.nodosExplorados + 1 }
        (celdas st.tamano) none (st.tamano + 1)
      cases hsel : buscarMRV { st with nodosExplorados := st.nodosExplorados + 1 }
          (celdas st.tamano) none (st.tamano + 1) with
      | muerto =>
        rw [hsel] at h
        simp only [Option.some.injEq, Prod.mk.injEq] at h
        obtain ⟨rfl, rfl⟩ := h
        exact ⟨fun _ => ⟨_, rfl⟩, fun h => absurd h (by simp)⟩
      | elegida mejor =>
        rw [hsel] at h
        cases mejor with
        | none =>
          simp only [hcv, decide_False, Option.some.injEq, Prod.mk.injEq] at h
          obtain ⟨rfl, rfl⟩ := h
          exact ⟨fun _ => ⟨_, rfl⟩, fun h => absurd h (by simp)⟩
        | some q =>
          obtain ⟨r, c⟩ := q
          simp only at h
          rcases hspec.2.1 (r, c) hsel with hq | ⟨hq, hq0⟩
          · exact absurd hq (by simp)
          · rw [mem_celdas] at hq
            have hcor := probar_correcto (resolverBacktracking fuel) r c _ _
              { st with nodosExplorados := st.nodosExplorados + 1 } b st2 hinv1 h16 hq.1 hq.2
              hq0 (fun v hv => by
                rw [List.mem_range'_1] at hv
                have : st.tamano ≤ 16 := h16
                omega) rfl ih h
            refine ⟨fun hb => ?_, fun hb => hcor.2 hb⟩
            obtain ⟨k, hk⟩ := hcor.1 hb
            exact ⟨k, hk⟩


/-! ## Termination and completeness of the search (`tamano ≤ 16`) -/

/-- In a state that keeps the invariant, the value a completed board gives to an empty
cell is one of the candidates of that cell. -/
theorem solucion_es_candidato (st : Estado) (h : Invariante st) (s : Nat → Nat → Int)
    (hs : Completa s st.n) (hp : Prolonga st.tamano (leerCelda st.sudoku) s) (r c : Nat)
    (hr : r < st.tamano) (hc : c < st.tamano) (h0 : leerCelda st.sudoku r c = 0) :
    1 ≤ (s r c).toNat ∧ (s r c).toNat ≤ st.tamano ∧ (((s r c).toNat : Nat) : Int) = s r c ∧
      Bitset.test (obtenerCandidatos st r c) (s r c).toNat = true := by
  obtain ⟨⟨hn1, hn5, hN⟩, hcons, _, _, _⟩ := h
  obtain ⟨hs1, hs2⟩ := hs
  have hN25 : st.tamano ≤ 25 := hN ▸ cuadrado_le_25 st.n hn5
  have hrc := hs1 r (hN ▸ hr) c (hN ▸ hc)
  rw [← hN] at hrc
  have hcast : (((s r c).toNat : Nat) : Int) = s r c := by omega
  have hv1 : 1 ≤ (s r c).toNat := by omega
  have hvN : (s r c).toNat ≤ st.tamano := by omega
  have hv26 : (s r c).toNat < 26 := by omega
  have hb : (r / st.n) * st.n + c / st.n < st.tamano := by
    rw [hN]; exact obtenerBloque_cota st.n r c (hN ▸ hr) (hN ▸ hc)
  have hne : s r c ≠ 0 := by omega
  -- a cell of the grid holding the value of `s` at `(r, c)` is `(r, c)` itself or is
  -- compatible with it
  have hcomp : ∀ i j, i < st.tamano → j < st.tamano → leerCelda st.sudoku i j = s r c →
      Compatibles st.n r c i j := by
    intro i j hi hj hij
    have hz : leerCelda st.sudoku i j ≠ 0 := by rw [hij]; exact hne
    have e := hp i hi j hj hz
    exact hs2 r (hN ▸ hr) c (hN ▸ hc) i (hN ▸ hi) j (hN ▸ hj) hne (by rw [e, hij])
  refine ⟨hv1, hvN, hcast, ?_⟩
  rw [test_obtenerCandidatos]
  refine ⟨((hcons r hr _ hv26).1).mpr ⟨hv1, hvN, ?_⟩,
    ((hcons c hc _ hv26).2.1).mpr ⟨hv1, hvN, ?_⟩,
    ((hcons _ hb _ hv26).2.2).mpr ⟨hv1, hvN, ?_⟩⟩
  · rintro ⟨j, hj, hv⟩
    rw [hcast] at hv
    rcases hcomp r j hr hj hv with hh | hh
    · rw [← hh.2, h0] at hv; exact hne hv.symm
    · exact hh.1 rfl
  · rintro ⟨i, hi, hv⟩
    rw [hcast] at hv
    rcases hcomp i c hi hc hv with hh | hh
    · rw [← hh.1, h0] at hv; exact hne hv.symm
    · exact hh.2.1 rfl
  · rintro ⟨i, hi, j, hj, hblk, hv⟩
    rw [hcast] at hv
    rcases hcomp i j (hN ▸ hi) (hN ▸ hj) hv with hh | hh
    · rw [← hh.1, ← hh.2, h0] at hv; exact hne hv.symm
    · exact hh.2.2 ((bloque_eq_iff st.n r c i j (hN ▸ hc) hj).mp hblk.symm)

/-- A completed board that gives `v` to the empty cell `(r, c)` also prolongs the grid
with `v` written there. -/
theorem prolonga_conValor (N : Nat) (f s : Nat → Nat → Int) (r c : Nat) (v : Int)
    (hp : Prolonga N f s) (hv : s r c = v) : Prolonga N (conValor f r c v) s := by
  intro i hi j hj hz
  unfold conValor at hz ⊢
  by_cases hij : i = r ∧ j = c
  · obtain ⟨rfl, rfl⟩ := hij; simp [hv]
  · simp only [hij, if_false] at hz ⊢; exact hp i hi j hj hz

theorem cerosDe_pos (f : Nat → Nat → Int) (N : Nat) (h : cerosDe f N ≠ 0) :
    ∃ p ∈ celdas N, f p.1 p.2 = 0 := by
  unfold cerosDe at h
  have := List.countP_pos_iff.mp (Nat.pos_of_ne_zero h)
  obtain ⟨p, hp, hz⟩ := this
  exact ⟨p, hp, by simpa using hz⟩

/-- The trial loop returns, and it fails only if no completed board prolongs the grid
with one of the tried values in the chosen cell. -/
theorem probar_completo (recursion : Estado → Option (Bool × Estado)) (fuel r c : Nat)
    (cand : Bitset) (vs : List Nat) :
    ∀ (st : Estado),
      Invariante st → st.tamano ≤ 16 → r < st.tamano → c < st.tamano →
      leerCelda st.sudoku r c = 0 → (∀ v ∈ vs, 1 ≤ v ∧ v < 26) →
      cand = obtenerCandidatos st r c →
      (∀ s1 b1 s2, s1.tamano ≤ 16 → Invariante s1 → recursion s1 = some (b1, s2) →
        Correcto s1 b1 s2) →
      (∀ s1, s1.tamano ≤ 16 → Invariante s1 →
        cerosDe (leerCelda s1.sudoku) s1.tamano < fuel →
        ∃ b1 s2, recursion s1 = some (b1, s2) ∧
          (b1 = false → ∀ s, Completa s s1.n →
            ¬ Prolonga s1.tamano (leerCelda s1.sudoku) s)) →
      cerosDe (leerCelda st.sudoku) st.tamano ≤ fuel →
      ∃ b st2, probar recursion r c cand vs st = some (b, st2) ∧
        (b = false → ∀ s, Completa s st.n → Prolonga st.tamano (leerCelda st.sudoku) s →
          ∀ v ∈ vs, s r c ≠ (v : Int)) := by
  induction vs with
  | nil =>
    intro st _ _ _ _ _ _ _ _ _ _
    exact ⟨false, st, rfl, fun _ s _ _ v hv => absurd hv (List.not_mem_nil v)⟩
  | cons v vs ih =>
    intro st hinv h16 hr hc h0 hvs hcand hrec1 hrec2 hfuel
    have hv := hvs v (List.mem_cons_self _ _)
    have hvs2 : ∀ w ∈ vs, 1 ≤ w ∧ w < 26 := fun w hw => hvs w (List.mem_cons_of_mem _ hw)
    have hN25 : st.tamano ≤ 25 := by omega
    simp only [probar]
    by_cases ht : Bitset.test cand v = true
    · rw [if_pos ht]
      have hinv1 := invariante_colocar st hinv r c v hr hc h0 hv.2 (hcand ▸ ht)
      have hceros := cerosDe_conValor (leerCelda st.sudoku) st.tamano r c (v : Int) hr hc h0
        (by omega)
      have hf := leerCelda_colocarValor st r c v (by omega) (by omega)
      have hfuel1 : cerosDe
          (leerCelda ({ colocarValor st r c v with
            celdasVacias := st.celdasVacias - 1 } : Estado).sudoku) st.tamano < fuel := by
        show cerosDe (leerCelda (colocarValor st r c v).sudoku) st.tamano < fuel
        rw [hf]; omega
      obtain ⟨b1, s2, hrc, hno⟩ :=
        hrec2 { colocarValor st r c v with celdasVacias := st.celdasVacias - 1 } h16 hinv1 hfuel1
      have hcor := hrec1 { colocarValor st r c v with celdasVacias := st.celdasVacias - 1 }
        b1 s2 h16 hinv1 hrc
      rw [hrc]
      cases b1 with
      | true => exact ⟨true, s2, rfl, fun h => absurd h (by simp)⟩
      | false =>
        simp only
        obtain ⟨k, hk⟩ := hcor.1 rfl
        have hres : restaurar s2 r c v (obtenerBloque st r c) (leer 0 st.filaCandidatos r)
            (leer 0 st.colCandidatos c)
            (leer 0 st.bloqueCandidatos (obtenerBloque st r c)) =
            { st with nodosExplorados := k } := by
          rw [hk]; exact restaurar_colocarValor st r c v k h0
        rw [hres]
        obtain ⟨b, st2, hpr, hb⟩ := ih { st with nodosExplorados := k } hinv h16 hr hc h0 hvs2
          hcand hrec1 hrec2 hfuel
        refine ⟨b, st2, hpr, fun hbf s hs hp w hw => ?_⟩
        rcases List.mem_cons.mp hw with rfl | hw2
        · intro hsv
          have hno2 := hno rfl s hs
          apply hno2
          show Prolonga st.tamano (leerCelda (colocarValor st r c w).sudoku) s
          rw [hf]
          exact prolonga_conValor _ _ _ _ _ _ hp hsv
        · exact hb hbf s hs hp w hw2
    · rw [if_neg ht]
      obtain ⟨b, st2, hpr, hb⟩ := ih st hinv h16 hr hc h0 hvs2 hcand hrec1 hrec2 hfuel
      refine ⟨b, st2, hpr, fun hbf s hs hp w hw => ?_⟩
      rcases List.mem_cons.mp hw with rfl | hw2
      · intro hsv
        have hcd := solucion_es_candidato st hinv s hs hp r c hr hc h0
        rw [hsv, Int.toNat_ofNat, ← hcand] at hcd
        exact ht hcd.2.2.2
      · exact hb hbf s hs hp w hw2

/-- Termination and completeness of `resolverBacktracking` on boards up to 16 × 16: with
more fuel than empty cells the call returns, and it returns false only if no completed
board prolongs the grid. -/
theorem resolverBacktracking_completo (fuel : Nat) :
    ∀ (st : Estado), st.tamano ≤ 16 → Invariante st →
      cerosDe (leerCelda st.sudoku) st.tamano < fuel →
      ∃ b st2, resolverBacktracking fuel st = some (b, st2) ∧
        (b = false → ∀ s, Completa s st.n → ¬ Prolonga st.tamano (leerCelda st.sudoku) s) := by
  induction fuel with
  | zero => intro st _ _ h; exact absurd h (Nat.not_lt_zero _)
  | succ fuel ih =>
    intro st h16 hinv hfuel
    have hinv1 : Invariante { st with nodosExplorados := st.nodosExplorados + 1 } := hinv
    simp only [resolverBacktracking]
    rw [propagacionPeriodica_pequeno { st with nodosExplorados := st.nodosExplorados + 1 } h16]
    simp only
    by_cases hcv : st.celdasVacias = 0
    · rw [if_pos hcv]
      exact ⟨true, _, rfl, fun h => absurd h (by simp)⟩
    · rw [if_neg hcv]
      have hspec := buscarMRV_spec { st with nodosExplorados := st.nodosExplorados + 1 }
        (celdas st.tamano) none (st.tamano + 1)
      cases hsel : buscarMRV { st with nodosExplorados := st.nodosExplorados + 1 }
          (celdas st.tamano) none (st.tamano + 1) with
      | muerto =>
        refine ⟨false, _, rfl, fun _ s hs hp => ?_⟩
        obtain ⟨p, hpm, hp0, hcount⟩ := hspec.1 hsel
        rw [mem_celdas] at hpm
        have hcd := solucion_es_candidato st hinv s hs hp p.1 p.2 hpm.1 hpm.2 hp0
        have hpos : 0 < Bitset.count (obtenerCandidatos st p.1 p.2) :=
          (Bitset.count_pos _).mpr ⟨_, by omega, hcd.2.2.2⟩
        have hcount2 : Bitset.count (obtenerCandidatos st p.1 p.2) = 0 := hcount
        omega
      | elegida mejor =>
        cases mejor with
        | none =>
          exfalso
          have hz : cerosDe (leerCelda st.sudoku) st.tamano ≠ 0 := by
            intro hz
            apply hcv
            rw [hinv.2.2.2.2, hz]; rfl
          obtain ⟨p, hpm, hp0⟩ := cerosDe_pos _ _ hz
          have h1 := (hspec.2.2 hsel).2 p hpm hp0
          rw [mem_celdas] at hpm
          have h2 := count_obtenerCandidatos_le st hinv p.1 p.2 hpm.1 hpm.2
          have h1' : st.tamano + 1 ≤ Bitset.count (obtenerCandidatos st p.1 p.2) := h1
          omega
        | some q =>
          obtain ⟨r, c⟩ := q
          simp only
          rcases hspec.2.1 (r, c) hsel with hq | ⟨hq, hq0⟩
          · exact absurd hq (by simp)
          · rw [mem_celdas] at hq
            obtain ⟨b, st2, hpr, hb⟩ := probar_completo (resolverBacktracking fuel) fuel r c
              (obtenerCandidatos { st with nodosExplorados := st.nodosExplorados + 1 } r c)
              (List.range' 1 st.tamano)
              { st with nodosExplorados := st.nodosExplorados + 1 } hinv1 h16 hq.1 hq.2
              hq0 (fun v hv => by
                rw [List.mem_range'_1] at hv
                have : st.tamano ≤ 16 := h16
                omega) rfl (resolverBacktracking_correcto fuel) ih
              (by
                show cerosDe (leerCelda st.sudoku) st.tamano ≤ fuel
                omega)
            refine ⟨b, st2, hpr, fun hbf s hs hp => ?_⟩
            have hcd := solucion_es_candidato st hinv s hs hp r c hq.1 hq.2 hq0
            refine hb hbf s hs hp (s r c).toNat ?_ hcd.2.2.1.symm
            rw [List.mem_range'_1]
            omega


/-! ## Completed boards: "exactly once" against "not repeated" -/

/-- The symbols `1..N` as a list. -/
theorem simbolos_nodup (N : Nat) : ((List.range N).map (fun (v : Nat) => (v : Int) + 1)).Nodup :=
  (List.nodup_range N).map (fun a b h => by
    have h2 : (a : Int) + 1 = (b : Int) + 1 := h
    omega)

theorem mem_simbolos (N : Nat) (x : Int) :
    x ∈ (List.range N).map (fun (v : Nat) => (v : Int) + 1) ↔ (1 ≤ x ∧ x ≤ (N : Int)) := by
  simp only [List.mem_map, List.mem_range]
  constructor
  · rintro ⟨v, hv, rfl⟩; omega
  · intro h; exact ⟨(x - 1).toNat, by omega, by omega⟩

/-- `N` values of `1..N`, pairwise different: each symbol of `1..N` occurs exactly once. -/
theorem count_uno_de_inyectiva {α : Type} (l : List α) (g : α → Int) (N : Nat)
    (hl : l.length = N) (hnd : l.Nodup) (hinj : ∀ a ∈ l, ∀ b ∈ l, g a = g b → a = b)
    (hr : ∀ a ∈ l, 1 ≤ g a ∧ g a ≤ (N : Int)) (v : Nat) (hv : v < N) :
    (l.map g).count ((v : Int) + 1) = 1 := by
  have hnd2 : (l.map g).Nodup := hnd.map_on hinj
  have hsub : l.map g ⊆ (List.range N).map (fun (v : Nat) => (v : Int) + 1) := by
    intro x hx
    rw [mem_simbolos]
    obtain ⟨a, ha, rfl⟩ := List.mem_map.mp hx
    exact hr a ha
  have hperm := (List.subperm_of_subset hnd2 hsub).perm_of_length_le (by simp [hl])
  have hmem : ((v : Int) + 1) ∈ l.map g :=
    hperm.mem_iff.mpr ((mem_simbolos N _).mpr (by omega))
  exact List.count_eq_one_of_mem hnd2 hmem

/-- A list of `N` values in which each symbol of `1..N` occurs exactly once has no
repetition and holds only symbols of `1..N`. -/
theorem nodup_de_count_uno (l : List Int) (N : Nat) (hl : l.length = N)
    (hc : ∀ v, v < N → l.count ((v : Int) + 1) = 1) :
    l.Nodup ∧ ∀ x ∈ l, 1 ≤ x ∧ x ≤ (N : Int) := by
  have hsub : (List.range N).map (fun (v : Nat) => (v : Int) + 1) ⊆ l := by
    intro x hx
    obtain ⟨v, hv, rfl⟩ := List.mem_map.mp hx
    rw [List.mem_range] at hv
    exact List.count_pos_iff.mp (by rw [hc v hv]; exact Nat.one_pos)
  have hperm := (List.subperm_of_subset (simbolos_nodup N) hsub).perm_of_length_le
    (by simp [hl])
  exact ⟨hperm.nodup_iff.mp (simbolos_nodup N),
    fun x hx => (mem_simbolos N x).mp (hperm.mem_iff.mpr hx)⟩

theorem entrada_obtenerSolucion (st : Estado) (i j : Nat) (hi : i < st.tamano)
    (hj : j < st.tamano) :
    entrada (obtenerSolucion st) i j = leerCelda st.sudoku i j := by
  simp [entrada, obtenerSolucion, List.getElem?_map, List.getElem?_range, hi, hj]

theorem esCuadrado_obtenerSolucion (st : Estado) :
    EsCuadrado (obtenerSolucion st) st.tamano := by
  refine ⟨by simp [obtenerSolucion], ?_⟩
  intro fila hf
  simp only [obtenerSolucion, List.mem_map, List.mem_range] at hf
  obtain ⟨i, _, rfl⟩ := hf
  simp

/-- A state that keeps the invariant and has `celdasVacias = 0` holds a completed board. -/
theorem completo_de_invariante (st : Estado) (h : Invariante st) (hcv : st.celdasVacias = 0) :
    Completo st.n (obtenerSolucion st) := by
  obtain ⟨⟨hn1, hn5, hN⟩, _, hran, hsin, hvac⟩ := h
  have hz : ∀ i, i < st.tamano → ∀ j, j < st.tamano → leerCelda st.sudoku i j ≠ 0 := by
    intro i hi j hj h0
    have hc0 : cerosDe (leerCelda st.sudoku) st.tamano = 0 := by
      rw [hcv] at hvac; exact_mod_cast hvac.symm
    unfold cerosDe at hc0
    rw [List.countP_eq_zero] at hc0
    have := hc0 (i, j) ((mem_celdas _ _).mpr ⟨hi, hj⟩)
    simp at this
    exact this h0
  have hval : ∀ i, i < st.tamano → ∀ j, j < st.tamano →
      1 ≤ leerCelda st.sudoku i j ∧ leerCelda st.sudoku i j ≤ (st.tamano : Int) :=
    fun i hi j hj => hran i hi j hj (hz i hi j hj)
  refine ⟨hN ▸ esCuadrado_obtenerSolucion st, ?_, ?_⟩
  · intro i hi j hj
    rw [entrada_obtenerSolucion st i j (hN ▸ hi) (hN ▸ hj)]
    exact hz i (hN ▸ hi) j (hN ▸ hj)
  · intro u hu v hv
    rw [← hN] at hu hv ⊢
    refine ⟨?_, ?_, ?_⟩
    · have e : filaDe (obtenerSolucion st) st.tamano u =
          (celdasFila st.tamano u).map (fun p => leerCelda st.sudoku p.1 p.2) := by
        unfold filaDe
        apply List.map_congr_left
        intro p hp
        rw [mem_celdasFila] at hp
        exact entrada_obtenerSolucion st p.1 p.2 (hp.1 ▸ hu) hp.2
      rw [e]
      refine count_uno_de_inyectiva _ _ st.tamano (length_celdasFila _ _)
        (nodup_celdasFila _ _) ?_ ?_ v hv
      · intro p hp q hq hpq
        rw [mem_celdasFila] at hp hq
        rcases hsin p.1 (hN ▸ hp.1 ▸ hu) p.2 (hN ▸ hp.2) q.1 (hN ▸ hq.1 ▸ hu) q.2 (hN ▸ hq.2)
          (hz p.1 (hp.1 ▸ hu) p.2 hp.2) hpq with hh | hh
        · exact Prod.ext hh.1 hh.2
        · exact absurd (hp.1.trans hq.1.symm) hh.1
      · intro p hp
        rw [mem_celdasFila] at hp
        exact hval p.1 (hp.1 ▸ hu) p.2 hp.2
    · have e : columnaDe (obtenerSolucion st) st.tamano u =
          (celdasColumna st.tamano u).map (fun p => leerCelda st.sudoku p.1 p.2) := by
        unfold columnaDe
        apply List.map_congr_left
        intro p hp
        rw [mem_celdasColumna] at hp
        exact entrada_obtenerSolucion st p.1 p.2 hp.1 (hp.2 ▸ hu)
      rw [e]
      refine count_uno_de_inyectiva _ _ st.tamano (length_celdasColumna _ _)
        (nodup_celdasColumna _ _) ?_ ?_ v hv
      · intro p hp q hq hpq
        rw [mem_celdasColumna] at hp hq
        rcases hsin p.1 (hN ▸ hp.1) p.2 (hN ▸ hp.2 ▸ hu) q.1 (hN ▸ hq.1) q.2 (hN ▸ hq.2 ▸ hu)
          (hz p.1 hp.1 p.2 (hp.2 ▸ hu)) hpq with hh | hh
        · exact Prod.ext hh.1 hh.2
        · exact absurd (hp.2.trans hq.2.symm) hh.2.1
      · intro p hp
        rw [mem_celdasColumna] at hp
        exact hval p.1 hp.1 p.2 (hp.2 ▸ hu)
    · have e : bloqueDe (obtenerSolucion st) st.n u =
          (celdasBloque st.n u).map (fun p => leerCelda st.sudoku p.1 p.2) := by
        unfold bloqueDe
        apply List.map_congr_left
        intro p hp
        rw [mem_celdasBloque _ _ (hN ▸ hu)] at hp
        exact entrada_obtenerSolucion st p.1 p.2 (hN ▸ hp.1) (hN ▸ hp.2.1)
      rw [e]
      refine count_uno_de_inyectiva _ _ st.tamano ((length_celdasBloque _ _).trans hN.symm)
        (nodup_celdasBloque _ _) ?_ ?_ v hv
      · intro p hp q hq hpq
        rw [mem_celdasBloque _ _ (hN ▸ hu)] at hp hq
        rcases hsin p.1 hp.1 p.2 hp.2.1 q.1 hq.1 q.2 hq.2.1
          (hz p.1 (hN ▸ hp.1) p.2 (hN ▸ hp.2.1)) hpq with hh | hh
        · exact Prod.ext hh.1 hh.2
        · exact absurd ((bloque_eq_iff st.n _ _ _ _ hp.2.1 hq.2.1).mp
            (hp.2.2.trans hq.2.2.symm)) hh.2.2
      · intro p hp
        rw [mem_celdasBloque _ _ (hN ▸ hu)] at hp
        exact hval p.1 (hN ▸ hp.1) p.2 (hN ▸ hp.2.1)

/-- A completed board, read as a grid, holds symbols of `1..n²` that are not repeated
in any row, column or block. -/
theorem completa_de_completo (n : Nat) (g : List (List Int)) (h : Completo n g) :
    Completa (entrada g) n := by
  obtain ⟨_, _, hc⟩ := h
  have hfila : ∀ u, u < n * n → _ := fun u hu =>
    nodup_de_count_uno (filaDe g (n * n) u) (n * n)
      (by simp [filaDe, celdasFila]) (fun v hv => (hc u hu v hv).1)
  have hcol : ∀ u, u < n * n → _ := fun u hu =>
    nodup_de_count_uno (columnaDe g (n * n) u) (n * n)
      (by simp [columnaDe, celdasColumna]) (fun v hv => (hc u hu v hv).2.1)
  have hblo : ∀ u, u < n * n → _ := fun u hu =>
    nodup_de_count_uno (bloqueDe g n u) (n * n)
      (by simp [bloqueDe, length_celdasBloque]) (fun v hv => (hc u hu v hv).2.2)
  refine ⟨?_, ?_⟩
  · intro i hi j hj
    refine (hfila i hi).2 (entrada g i j) ?_
    exact List.mem_map.mpr ⟨(i, j), (mem_celdasFila _ _ _).mpr ⟨rfl, hj⟩, rfl⟩
  · intro i hi j hj i2 hi2 j2 hj2 _ heq
    by_cases hsame : i = i2 ∧ j = j2
    · exact Or.inl hsame
    · right
      refine ⟨?_, ?_, ?_⟩
      · rintro rfl
        have := List.inj_on_of_nodup_map (hfila i hi).1
          ((mem_celdasFila _ _ (i, j)).mpr ⟨rfl, hj⟩)
          ((mem_celdasFila _ _ (i, j2)).mpr ⟨rfl, hj2⟩) heq
        exact hsame ⟨rfl, congrArg Prod.snd this⟩
      · rintro rfl
        have := List.inj_on_of_nodup_map (hcol j hj).1
          ((mem_celdasColumna _ _ (i, j)).mpr ⟨hi, rfl⟩)
          ((mem_celdasColumna _ _ (i2, j)).mpr ⟨hi2, rfl⟩) heq
        exact hsame ⟨congrArg Prod.fst this, rfl⟩
      · intro hblk
        have hb := obtenerBloque_cota n i j hi hj
        have hbb := (bloque_eq_iff n i j i2 j2 hj hj2).mpr hblk
        have := List.inj_on_of_nodup_map (hblo _ hb).1
          ((mem_celdasBloque _ _ hb (i, j)).mpr ⟨hi, hj, rfl⟩)
          ((mem_celdasBloque _ _ hb (i2, j2)).mpr ⟨hi2, hj2, hbb.symm⟩) heq
        exact hsame ⟨congrArg Prod.fst this, congrArg Prod.snd this⟩


/-! ## The fuel does not change a result -/

theorem probar_mono (rec1 rec2 : Estado → Option (Bool × Estado))
    (h : ∀ s res, rec1 s = some res → rec2 s = some res) (fila col : Nat) (cand : Bitset)
    (vs : List Nat) :
    ∀ (st : Estado) (res : Bool × Estado),
      probar rec1 fila col cand vs st = some res → probar rec2 fila col cand vs st = some res := by
  induction vs with
  | nil => intro st res hp; simpa [probar] using hp
  | cons v vs ih =>
    intro st res hp
    simp only [probar] at hp ⊢
    by_cases ht : Bitset.test cand v = true
    · rw [if_pos ht] at hp ⊢
      cases h1 : rec1 { colocarValor st fila col v with celdasVacias := st.celdasVacias - 1 } with
      | none => rw [h1] at hp; exact absurd hp (by simp)
      | some r1 =>
        rw [h1] at hp
        rw [h _ r1 h1]
        obtain ⟨b1, s1⟩ := r1
        cases b1 with
        | true => exact hp
        | false => exact ih _ res hp
    · rw [if_neg ht] at hp ⊢
      exact ih st res hp

/-- A result of `resolverBacktracking` is the result for every larger fuel. -/
theorem resolverBacktracking_mono (fuel : Nat) :
    ∀ (fuel2 : Nat) (st : Estado) (res : Bool × Estado), fuel ≤ fuel2 →
      resolverBacktracking fuel st = some res → resolverBacktracking fuel2 st = some res := by
  induction fuel with
  | zero => intro fuel2 st res _ h; simp [resolverBacktracking] at h
  | succ fuel ih =>
    intro fuel2 st res hle h
    obtain ⟨f2, rfl⟩ : ∃ f2, fuel2 = f2 + 1 := ⟨fuel2 - 1, by omega⟩
    simp only [resolverBacktracking] at h ⊢
    generalize propagacionPeriodica { st with nodosExplorados := st.nodosExplorados + 1 } = pp
      at h ⊢
    match pp with
    | (ok, st2) =>
      cases ok with
      | false => exact h
      | true =>
        simp only at h ⊢
        by_cases hcv : st2.celdasVacias = 0
        · rw [if_pos hcv] at h ⊢; exact h
        · rw [if_neg hcv] at h ⊢
          cases hsel : buscarMRV st2 (celdas st2.tamano) none (st2.tamano + 1) with
          | muerto => rw [hsel] at h; exact h
          | elegida mejor =>
            rw [hsel] at h
            cases mejor with
            | none => exact h
            | some q =>
              obtain ⟨mf, mc⟩ := q
              exact probar_mono _ _ (fun s r hr => ih f2 s r (by omega) hr) _ _ _ _ _ _ h

/-- A result of `resolverSudoku` is the result for every larger fuel. -/
theorem resolverSudoku_mono (fuel fuel2 : Nat) (st : Estado) (res : Bool × Estado)
    (hle : fuel ≤ fuel2) (h : resolverSudoku fuel st = some res) :
    resolverSudoku fuel2 st = some res := by
  simp only [resolverSudoku] at h ⊢
  split at h
  · rename_i hv; rw [if_pos hv]; exact h
  · rename_i hv
    rw [if_neg hv]
    generalize (if st.tamano > 16 then propagarRestricciones st else (true, st)) = pp at h ⊢
    match pp with
    | (false, st1) => exact h
    | (true, st1) => exact resolverBacktracking_mono fuel fuel2 st1 res hle h

/-! ## The loaded and validated state keeps the invariant -/

theorem enFila_congr (f g : Nat → Nat → Int) (N u : Nat) (w : Int) (hu : u < N)
    (h : ∀ i j, i < N → j < N → f i j = g i j) : EnFila f N u w ↔ EnFila g N u w := by
  unfold EnFila
  constructor
  · rintro ⟨c, hc, hv⟩; exact ⟨c, hc, by rw [← h u c hu hc]; exact hv⟩
  · rintro ⟨c, hc, hv⟩; exact ⟨c, hc, by rw [h u c hu hc]; exact hv⟩

theorem enColumna_congr (f g : Nat → Nat → Int) (N u : Nat) (w : Int) (hu : u < N)
    (h : ∀ i j, i < N → j < N → f i j = g i j) : EnColumna f N u w ↔ EnColumna g N u w := by
  unfold EnColumna
  constructor
  · rintro ⟨r, hr, hv⟩; exact ⟨r, hr, by rw [← h r u hr hu]; exact hv⟩
  · rintro ⟨r, hr, hv⟩; exact ⟨r, hr, by rw [h r u hr hu]; exact hv⟩

theorem enBloque_congr (f g : Nat → Nat → Int) (n u : Nat) (w : Int)
    (h : ∀ i j, i < n * n → j < n * n → f i j = g i j) :
    EnBloque f n u w ↔ EnBloque g n u w := by
  unfold EnBloque
  constructor
  · rintro ⟨r, hr, c, hc, hb, hv⟩; exact ⟨r, hr, c, hc, hb, by rw [← h r c hr hc]; exact hv⟩
  · rintro ⟨r, hr, c, hc, hb, hv⟩; exact ⟨r, hr, c, hc, hb, by rw [h r c hr hc]; exact hv⟩

theorem cerosDe_congr (f g : Nat → Nat → Int) (N : Nat)
    (h : ∀ i j, i < N → j < N → f i j = g i j) : cerosDe f N = cerosDe g N := by
  unfold cerosDe
  apply List.countP_congr
  intro p hp
  rw [mem_celdas] at hp
  rw [h p.1 p.2 hp.1 hp.2]

theorem cerosDe_le (f : Nat → Nat → Int) (N : Nat) : cerosDe f N ≤ N * N := by
  unfold cerosDe
  refine (List.countP_le_length _).trans ?_
  simp [celdas, List.length_flatMap, Function.comp_def]

/-- A board with entries in `[0, 25]` that was loaded and accepted by the validator
gives a state that keeps the invariant and holds the board. -/
theorem invariante_carga (previo : Estado) (tablero : List (List Int)) (n : Nat)
    (st : Estado) (hn1 : 1 ≤ n) (hn5 : n ≤ 5) (he : EntradasEn tablero (n * n) 25)
    (hcarga : cargarSudoku previo tablero n = some st)
    (hval : validarEstadoInicial st = true) :
    Invariante st ∧ st.n = n ∧ st.tamano = n * n ∧
      ∀ i j, i < n * n → j < n * n → leerCelda st.sudoku i j = entrada tablero i j := by
  obtain ⟨st2, h1, h2, h3, _, h5, h6, h7⟩ := cargarSudoku_spec previo tablero n hn5 he
  rw [hcarga, Option.some.injEq] at h1
  subst h1
  have hd : Dimensionado st := ⟨by omega, by omega, by rw [h3, h2]⟩
  have hv := (validarEstadoInicial_iff_estado st hd (fun i hi j hj => by
    rw [h3] at hi hj
    rw [h5 i j hi hj]; exact (he i hi j hj).1)).mp hval
  refine ⟨⟨hd, ?_, hv.1, hv.2, ?_⟩, h2, h3, h5⟩
  · intro u hu v _
    rw [h3] at hu
    rw [h3, h2, enFila_congr _ _ _ u v hu h5, enColumna_congr _ _ _ u v hu h5,
      enBloque_congr _ _ n u v h5]
    exact h6 u hu v
  · rw [h7, h3, cerosDe_congr _ _ _ h5]

/-- A state that keeps the invariant and has `celdasVacias = 0` holds, as a grid, a
completed board. -/
theorem completa_de_invariante (st : Estado) (h : Invariante st) (hcv : st.celdasVacias = 0) :
    Completa (leerCelda st.sudoku) st.n := by
  obtain ⟨⟨_, _, hN⟩, _, hran, hsin, hvac⟩ := h
  refine ⟨?_, hsin⟩
  intro i hi j hj
  rw [← hN] at hi hj ⊢
  refine hran i hi j hj ?_
  intro h0
  have hc0 : cerosDe (leerCelda st.sudoku) st.tamano = 0 := by
    rw [hcv] at hvac; exact_mod_cast hvac.symm
  unfold cerosDe at hc0
  rw [List.countP_eq_zero] at hc0
  have := hc0 (i, j) ((mem_celdas _ _).mpr ⟨hi, hj⟩)
  simp at this
  exact this h0

/-! ## The solver on boards up to 16 × 16 -/

theorem resolverSudoku_pequeno (st : Estado) (fuel : Nat) (h16 : st.tamano ≤ 16)
    (hval : validarEstadoInicial st = true) :
    resolverSudoku fuel st = resolverBacktracking fuel st := by
  have h : ¬ st.tamano > 16 := by omega
  simp [resolverSudoku, hval, h]

theorem resolverSudoku_true_valida (st : Estado) (fuel : Nat) (st2 : Estado)
    (h : resolverSudoku fuel st = some (true, st2)) : validarEstadoInicial st = true := by
  by_contra hv
  simp [resolverSudoku, hv] at h

/-- C1. For `n` in {2, 3, 4} and an `n² × n²` board with entries in `[0, n²]`: if
`cargarSudoku` followed by `resolverSudoku` returns true, the grid given by
`obtenerSolucion` is `n² × n²`, has no empty cell, and every row, every column and
every `n × n` block contains each symbol of `1..n²` exactly once; and the call returns
that same result with any larger fuel. -/
theorem resolverSudoku_solucion_valida (previo : Estado) (tablero : List (List Int))
    (n : Nat) (st : Estado) (fuel : Nat) (st2 : Estado)
    (hn : n = 2 ∨ n = 3 ∨ n = 4) (_hc : EsCuadrado tablero (n * n))
    (he : EntradasEn tablero (n * n) ((n * n : Nat) : Int))
    (hcarga : cargarSudoku previo tablero n = some st)
    (hres : resolverSudoku fuel st = some (true, st2)) :
    Completo n (obtenerSolucion st2) ∧
      ∀ fuel2, fuel ≤ fuel2 → resolverSudoku fuel2 st = some (true, st2) := by
  have hn1 : 1 ≤ n := by omega
  have hn5 : n ≤ 5 := by omega
  have hN25 : n * n ≤ 25 := cuadrado_le_25 n hn5
  have hN16 : n * n ≤ 16 := by rcases hn with rfl | rfl | rfl <;> decide
  have he25 : EntradasEn tablero (n * n) 25 := by
    intro i hi j hj
    have := he i hi j hj
    omega
  refine ⟨?_, fun fuel2 hle => resolverSudoku_mono fuel fuel2 st _ hle hres⟩
  have hval := resolverSudoku_true_valida st fuel st2 hres
  obtain ⟨hinv, hn', hN, _⟩ := invariante_carga previo tablero n st hn1 hn5 he25 hcarga hval
  have h16 : st.tamano ≤ 16 := by rw [hN]; exact hN16
  rw [resolverSudoku_pequeno st fuel h16 hval] at hres
  obtain ⟨hinv2, hcv2, hsuc⟩ := (resolverBacktracking_correcto fuel st true st2 h16 hinv hres).2 rfl
  have := completo_de_invariante st2 hinv2 hcv2
  rw [hsuc.1, hn'] at this
  exact this

/-- C2. For `n` in {2, 3, 4} and an `n² × n²` board with entries in `[0, n²]` that passes
`validarEstadoInicial`: if some completed board agrees with the input on every
pre-filled cell, `resolverSudoku` returns true, with one and the same final state for
every fuel above the number of cells. -/
theorem resolverSudoku_encuentra (previo : Estado) (tablero : List (List Int))
    (n : Nat) (st : Estado) (s : List (List Int))
    (hn : n = 2 ∨ n = 3 ∨ n = 4) (_hc : EsCuadrado tablero (n * n))
    (he : EntradasEn tablero (n * n) ((n * n : Nat) : Int))
    (hcarga : cargarSudoku previo tablero n = some st)
    (hval : validarEstadoInicial st = true)
    (hs : Completo n s) (hext : Extiende (n * n) tablero s) :
    ∃ st2, ∀ fuel, (n * n) * (n * n) < fuel → resolverSudoku fuel st = some (true, st2) := by
  have hn1 : 1 ≤ n := by omega
  have hn5 : n ≤ 5 := by omega
  have hN25 : n * n ≤ 25 := cuadrado_le_25 n hn5
  have hN16 : n * n ≤ 16 := by rcases hn with rfl | rfl | rfl <;> decide
  have he25 : EntradasEn tablero (n * n) 25 := by
    intro i hi j hj
    have := he i hi j hj
    omega
  obtain ⟨hinv, hn', hN, hf⟩ := invariante_carga previo tablero n st hn1 hn5 he25 hcarga hval
  have h16 : st.tamano ≤ 16 := by rw [hN]; exact hN16
  have hceros : cerosDe (leerCelda st.sudoku) st.tamano < (n * n) * (n * n) + 1 :=
    Nat.lt_succ_of_le (by rw [hN]; exact cerosDe_le _ _)
  obtain ⟨b, st2, hr, hb⟩ := resolverBacktracking_completo _ st h16 hinv hceros
  cases b with
  | true =>
    refine ⟨st2, fun fuel hfuel => ?_⟩
    rw [resolverSudoku_pequeno st fuel h16 hval]
    exact resolverBacktracking_mono _ fuel st _ hfuel hr
  | false =>
    exfalso
    refine hb rfl (entrada s) (hn' ▸ completa_de_completo n s hs) ?_
    intro i hi j hj hz
    rw [hN] at hi hj
    rw [hf i j hi hj] at hz ⊢
    exact hext i hi j hj hz


theorem resultado_spec (o : Option (Bool × Estado)) (b : Bool)
    (h : o.map Prod.fst = some b) : o = some (b, estadoFinal o) := by
  cases o with
  | none => simp at h
  | some res =>
    obtain ⟨b1, s⟩ := res
    simp only [Option.map_some', Option.some.injEq] at h
    subst h
    rfl

/-- The 4 × 4 puzzle `tablero4`, solved: an instance of C1. -/
theorem resolverSudoku_solucion_valida_witness :
    (resolverSudoku 17 (estadoDe tablero4 2)).map Prod.fst = some true ∧
    (Completo 2 (obtenerSolucion (estadoFinal (resolverSudoku 17 (estadoDe tablero4 2)))) ∧
      ∀ fuel2, 17 ≤ fuel2 → resolverSudoku fuel2 (estadoDe tablero4 2) =
        some (true, estadoFinal (resolverSudoku 17 (estadoDe tablero4 2)))) :=
  ⟨by decide,
    resolverSudoku_solucion_valida Estado.inicial tablero4 2 (estadoDe tablero4 2) 17
      (estadoFinal (resolverSudoku 17 (estadoDe tablero4 2))) (by decide) (by decide)
      (by decide) (estadoDe_spec tablero4 2 (by decide)) (resultado_spec _ true (by decide))⟩

/-- The 4 × 4 puzzle `tablero4` and its completion `solucion4`: an instance of C2. -/
theorem resolverSudoku_encuentra_witness :
    validarEstadoInicial (estadoDe tablero4 2) = true ∧ Completo 2 solucion4 ∧
    Extiende (2 * 2) tablero4 solucion4 ∧
    ∃ st2, ∀ fuel, (2 * 2) * (2 * 2) < fuel →
      resolverSudoku fuel (estadoDe tablero4 2) = some (true, st2) :=
  ⟨by decide, by decide, by decide,
    resolverSudoku_encuentra Estado.inicial tablero4 2 (estadoDe tablero4 2) solucion4
      (by decide) (by decide) (by decide) (estadoDe_spec tablero4 2 (by decide)) (by decide)
      (by decide) (by decide)⟩

/-! ## A cell without candidates -/

theorem Bitset.test_reset_imp (b pos k : Nat) (h : Bitset.test (Bitset.reset b pos) k = true) :
    Bitset.test b k = true := by
  by_cases hp : pos < 26
  · rw [Bitset.test_reset _ _ _ hp] at h
    simp only [Bool.and_eq_true] at h
    exact h.1
  · simpa [Bitset.reset, hp] using h

theorem test_leer_reset_imp (a : Arreglo Bitset) (x v y k : Nat)
    (h : Bitset.test (leer 0 (escribir a x (Bitset.reset (leer 0 a x) v)) y) k = true) :
    Bitset.test (leer 0 a y) k = true := by
  rw [leer_escribir] at h
  by_cases hxy : x = y ∧ y < 25
  · rw [if_pos hxy] at h
    rw [← hxy.1]
    exact Bitset.test_reset_imp _ _ _ h
  · rw [if_neg hxy] at h; exact h

/-- Placing a value never adds a candidate to any cell. -/
theorem test_obtenerCandidatos_colocar (st : Estado) (i j v r c k : Nat) (x : Int)
    (h : Bitset.test (obtenerCandidatos
      { colocarValor st i j v with celdasVacias := x } r c) k = true) :
    Bitset.test (obtenerCandidatos st r c) k = true := by
  simp only [obtenerCandidatos, obtenerBloque, colocarValor, Bitset.test_inter,
    Bool.and_eq_true] at h ⊢
  exact ⟨⟨test_leer_reset_imp _ _ _ _ _ h.1.1, test_leer_reset_imp _ _ _ _ _ h.1.2⟩,
    test_leer_reset_imp _ _ _ _ _ h.2⟩

/-- A scan of the propagation over cells that include an empty cell without candidates
ends in `return false`. -/
theorem propagarPasada_fallo (cs : List (Nat × Nat)) :
    ∀ (st : Estado) (cambios : Bool),
      (∃ p ∈ cs, leerCelda st.sudoku p.1 p.2 = 0 ∧
        Bitset.count (obtenerCandidatos st p.1 p.2) = 0) →
      ∃ st1, propagarPasada cs st cambios = Pasada.fallo st1 := by
  induction cs with
  | nil => rintro st cambios ⟨p, hp, _⟩; exact absurd hp (List.not_mem_nil p)
  | cons q resto ih =>
    rintro st cambios ⟨p, hp, hp0, hpc⟩
    obtain ⟨i, j⟩ := q
    simp only [propagarPasada]
    by_cases h0 : leerCelda st.sudoku i j = 0
    · rw [if_pos h0]
      by_cases hc0 : Bitset.count (obtenerCandidatos st i j) = 0
      · exact ⟨st, by simp [hc0]⟩
      · have hpq : p ≠ (i, j) := by
          rintro rfl; exact hc0 hpc
        have hpr : p ∈ resto := by
          rcases List.mem_cons.mp hp with hh | hh
          · exact absurd hh hpq
          · exact hh
        simp only [hc0, if_false]
        by_cases h1 : Bitset.count (obtenerCandidatos st i j) = 1
        · simp only [h1, if_true]
          cases hpc1 : primerCandidato (obtenerCandidatos st i j) st.tamano with
          | none => exact ih st cambios ⟨p, hpr, hp0, hpc⟩
          | some v =>
            simp only
            refine ih _ true ⟨p, hpr, ?_, ?_⟩
            · show leerCelda (colocarValor st i j v).sudoku p.1 p.2 = 0
              simp only [colocarValor, leerCelda_escribirCelda]
              have : ¬ ((i = p.1 ∧ p.1 < 25) ∧ (j = p.2 ∧ p.2 < 25)) :=
                fun hh => hpq (Prod.ext hh.1.1.symm hh.2.1.symm)
              rw [if_neg this]; exact hp0
            · rw [Bitset.count_eq_zero] at hpc ⊢
              intro k hk
              by_contra hne
              have := test_obtenerCandidatos_colocar st i j v p.1 p.2 k _
                (by simpa using hne)
              rw [hpc k hk] at this
              exact absurd this (by simp)
        · simp only [h1, if_false]
          exact ih st cambios ⟨p, hpr, hp0, hpc⟩
    · rw [if_neg h0]
      have hpq : p ≠ (i, j) := by
        rintro rfl; exact h0 hp0
      have hpr : p ∈ resto := by
        rcases List.mem_cons.mp hp with hh | hh
        · exact absurd hh hpq
        · exact hh
      exact ih st cambios ⟨p, hpr, hp0, hpc⟩

/-- Above size 9 the propagation fails when a cell of the board is empty and has no
candidate. -/
theorem propagarRestricciones_fallo (st : Estado) (h9 : 9 < st.tamano) (r c : Nat)
    (hr : r < st.tamano) (hc : c < st.tamano) (h0 : leerCelda st.sudoku r c = 0)
    (hcount : Bitset.count (obtenerCandidatos st r c) = 0) :
    (propagarRestricciones st).1 = false := by
  have h : ¬ st.tamano ≤ 9 := by omega
  obtain ⟨st1, h1⟩ := propagarPasada_fallo (celdas st.tamano) st false
    ⟨(r, c), (mem_celdas _ _).mpr ⟨hr, hc⟩, h0, hcount⟩
  simp [propagarRestricciones, h, propagarBucle, h1]

/-- C8. For `2 ≤ n ≤ 5` and an `n² × n²` board with entries in `[0, n²]` that passes
`validarEstadoInicial` but has, right after `cargarSudoku`, an empty cell with no
candidate: `resolverSudoku` returns false, with one and the same final state for every
fuel above the number of cells. -/
theorem resolverSudoku_sin_candidatos (previo : Estado) (tablero : List (List Int))
    (n : Nat) (st : Estado) (r c : Nat)
    (hn2 : 2 ≤ n) (hn5 : n ≤ 5) (_hc : EsCuadrado tablero (n * n))
    (he : EntradasEn tablero (n * n) ((n * n : Nat) : Int))
    (hcarga : cargarSudoku previo tablero n = some st)
    (hval : validarEstadoInicial st = true)
    (hr : r < n * n) (hc : c < n * n) (h0 : leerCelda st.sudoku r c = 0)
    (hcount : Bitset.count (obtenerCandidatos st r c) = 0) :
    ∃ st2, ∀ fuel, (n * n) * (n * n) < fuel →
      resolverSudoku fuel st = some (false, st2) := by
  have hN25 : n * n ≤ 25 := cuadrado_le_25 n hn5
  have he25 : EntradasEn tablero (n * n) 25 := by
    intro i hi j hj
    have := he i hi j hj
    omega
  obtain ⟨hinv, hn', hN, hf⟩ :=
    invariante_carga previo tablero n st (by omega) hn5 he25 hcarga hval
  by_cases hn4 : n ≤ 4
  · have hN16 : n * n ≤ 16 := Nat.mul_le_mul hn4 hn4
    have h16 : st.tamano ≤ 16 := by rw [hN]; exact hN16
    have hceros : cerosDe (leerCelda st.sudoku) st.tamano < (n * n) * (n * n) + 1 :=
      Nat.lt_succ_of_le (by rw [hN]; exact cerosDe_le _ _)
    obtain ⟨b, st2, hres, _⟩ := resolverBacktracking_completo _ st h16 hinv hceros
    cases b with
    | false =>
      refine ⟨st2, fun fuel hfuel => ?_⟩
      rw [resolverSudoku_pequeno st fuel h16 hval]
      exact resolverBacktracking_mono _ fuel st _ hfuel hres
    | true =>
      exfalso
      obtain ⟨hinv2, hcv2, hsuc⟩ :=
        (resolverBacktracking_correcto _ st true st2 h16 hinv hres).2 rfl
      have hs := completa_de_invariante st2 hinv2 hcv2
      rw [hsuc.1] at hs
      have hcd := solucion_es_candidato st hinv (leerCelda st2.sudoku) hs hsuc.2.2 r c
        (hN ▸ hr) (hN ▸ hc) h0
      have hpos : 0 < Bitset.count (obtenerCandidatos st r c) :=
        (Bitset.count_pos _).mpr ⟨_, by have := hN ▸ hN25; omega, hcd.2.2.2⟩
      omega
  · have hn5' : n = 5 := by omega
    subst hn5'
    have h16 : st.tamano > 16 := by rw [hN]; decide
    have hfallo := propagarRestricciones_fallo st (by omega) r c (hN ▸ hr) (hN ▸ hc) h0 hcount
    refine ⟨(propagarRestricciones st).2, fun fuel _ => ?_⟩
    simp only [resolverSudoku, hval, Bool.not_true, Bool.false_eq_true, if_false, h16, if_true]
    cases hp : propagarRestricciones st with
    | mk ok st1 =>
      rw [hp] at hfallo
      simp only at hfallo
      subst hfallo
      rfl

/-- The 4 × 4 board `tablero4Muerto`, whose cell (0, 0) has no candidate: an instance
of C8. -/
theorem resolverSudoku_sin_candidatos_witness :
    validarEstadoInicial (estadoDe tablero4Muerto 2) = true ∧
    leerCelda (estadoDe tablero4Muerto 2).sudoku 0 0 = 0 ∧
    Bitset.count (obtenerCandidatos (estadoDe tablero4Muerto 2) 0 0) = 0 ∧
    ∃ st2, ∀ fuel, (2 * 2) * (2 * 2) < fuel →
      resolverSudoku fuel (estadoDe tablero4Muerto 2) = some (false, st2) :=
  ⟨by decide, by decide, by decide,
    resolverSudoku_sin_candidatos Estado.inicial tablero4Muerto 2 (estadoDe tablero4Muerto 2)
      0 0 (by decide) (by decide) (by decide) (by decide)
      (estadoDe_spec tablero4Muerto 2 (by decide)) (by decide) (by decide) (by decide)
      (by decide) (by decide)⟩


/-! ## Sizes are never changed by the search -/

theorem probar_marco (recursion : Estado → Option (Bool × Estado)) (fila col : Nat)
    (cand : Bitset) (vs : List Nat)
    (hrec : ∀ s b s2, recursion s = some (b, s2) → s2.n = s.n ∧ s2.tamano = s.tamano) :
    ∀ (st : Estado) (b : Bool) (st2 : Estado),
      probar recursion fila col cand vs st = some (b, st2) →
      st2.n = st.n ∧ st2.tamano = st.tamano := by
  induction vs with
  | nil =>
    intro st b st2 hp
    simp only [probar, Option.some.injEq, Prod.mk.injEq] at hp
    obtain ⟨_, rfl⟩ := hp
    exact ⟨rfl, rfl⟩
  | cons v vs ih =>
    intro st b st2 hp
    simp only [probar] at hp
    by_cases ht : Bitset.test cand v = true
    · rw [if_pos ht] at hp
      cases hrc : recursion { colocarValor st fila col v with
          celdasVacias := st.celdasVacias - 1 } with
      | none => rw [hrc] at hp; exact absurd hp (by simp)
      | some res =>
        obtain ⟨b1, s1⟩ := res
        rw [hrc] at hp
        have h1 := hrec _ b1 s1 hrc
        cases b1 with
        | true =>
          simp only [Option.some.injEq, Prod.mk.injEq] at hp
          obtain ⟨_, rfl⟩ := hp
          exact h1
        | false =>
          have h2 := ih _ b st2 hp
          exact ⟨h2.1.trans h1.1, h2.2.trans h1.2⟩
    · rw [if_neg ht] at hp
      exact ih st b st2 hp

/-- A call of `resolverBacktracking` returns a state with the sizes `n` and `tamano` it
was entered with. -/
theorem resolverBacktracking_marco (fuel : Nat) :
    ∀ (st : Estado) (b : Bool) (st2 : Estado),
      resolverBacktracking fuel st = some (b, st2) →
      st2.n = st.n ∧ st2.tamano = st.tamano := by
  induction fuel with
  | zero => intro st b st2 h; simp [resolverBacktracking] at h
  | succ fuel ih =>
    intro st b st2 h
    simp only [resolverBacktracking] at h
    have hpm : (propagacionPeriodica
        { st with nodosExplorados := st.nodosExplorados + 1 }).2.n = st.n ∧
        (propagacionPeriodica
          { st with nodosExplorados := st.nodosExplorados + 1 }).2.tamano = st.tamano := by
      unfold propagacionPeriodica
      split
      · have := propagarRestricciones_marco
          { st with nodosExplorados := st.nodosExplorados + 1 }
        exact ⟨this.1, this.2.1⟩
      · exact ⟨rfl, rfl⟩
    generalize propagacionPeriodica { st with nodosExplorados := st.nodosExplorados + 1 } = pp
      at h hpm
    match pp with
    | (false, s1) =>
      simp only [Option.some.injEq, Prod.mk.injEq] at h
      obtain ⟨_, rfl⟩ := h
      exact hpm
    | (true, s1) =>
      simp only at h hpm
      by_cases hcv : s1.celdasVacias = 0
      · rw [if_pos hcv] at h
        simp only [Option.some.injEq, Prod.mk.injEq] at h
        obtain ⟨_, rfl⟩ := h
        exact hpm
      · rw [if_neg hcv] at h
        cases hsel : buscarMRV s1 (celdas s1.tamano) none (s1.tamano + 1) with
        | muerto =>
          rw [hsel] at h
          simp only [Option.some.injEq, Prod.mk.injEq] at h
          obtain ⟨_, rfl⟩ := h
          exact hpm
        | elegida mejor =>
          rw [hsel] at h
          cases mejor with
          | none =>
            simp only [Option.some.injEq, Prod.mk.injEq] at h
            obtain ⟨_, rfl⟩ := h
            exact hpm
          | some q =>
            obtain ⟨r, c⟩ := q
            have := probar_marco (resolverBacktracking fuel) r c _ _ ih s1 b st2 h
            exact ⟨this.1.trans hpm.1, this.2.trans hpm.2⟩

/-! ## Propagation skipped on small boards -/

theorem probar_congr (rec1 rec2 : Estado → Option (Bool × Estado)) (T fila col : Nat)
    (cand : Bitset) (vs : List Nat)
    (heq : ∀ s, s.tamano = T → rec1 s = rec2 s)
    (hmarco : ∀ s b s2, rec1 s = some (b, s2) → s2.n = s.n ∧ s2.tamano = s.tamano) :
    ∀ (st : Estado), st.tamano = T →
      probar rec1 fila col cand vs st = probar rec2 fila col cand vs st := by
  induction vs with
  | nil => intro st _; rfl
  | cons v vs ih =>
    intro st hT
    simp only [probar]
    by_cases ht : Bitset.test cand v = true
    · rw [if_pos ht, if_pos ht]
      rw [← heq { colocarValor st fila col v with celdasVacias := st.celdasVacias - 1 } hT]
      cases hrc : rec1 { colocarValor st fila col v with
          celdasVacias := st.celdasVacias - 1 } with
      | none => rfl
      | some res =>
        obtain ⟨b1, s1⟩ := res
        cases b1 with
        | true => rfl
        | false =>
          have h1 := hmarco _ false s1 hrc
          exact ih _ (h1.2.trans hT)
    · rw [if_neg ht, if_neg ht]
      exact ih st hT

/-- Up to size 16 the search never propagates: it is the search of the solver with
propagation disabled. -/
theorem resolverBacktracking_sin_propagacion (fuel : Nat) :
    ∀ (st : Estado), st.tamano ≤ 16 →
      resolverBacktracking fuel st = resolverBacktrackingSinPropagacion fuel st := by
  induction fuel with
  | zero => intro st _; rfl
  | succ fuel ih =>
    intro st h16
    simp only [resolverBacktracking, resolverBacktrackingSinPropagacion]
    rw [propagacionPeriodica_pequeno { st with nodosExplorados := st.nodosExplorados + 1 } h16]
    simp only
    by_cases hcv : st.celdasVacias = 0
    · rw [if_pos hcv, if_pos hcv]
    · rw [if_neg hcv, if_neg hcv]
      cases hsel : buscarMRV { st with nodosExplorados := st.nodosExplorados + 1 }
          (celdas st.tamano) none (st.tamano + 1) with
      | muerto => rfl
      | elegida mejor =>
        cases mejor with
        | none => rfl
        | some q =>
          obtain ⟨r, c⟩ := q
          exact probar_congr _ _ st.tamano r c _ _
            (fun s hs => ih s (by omega)) (resolverBacktracking_marco fuel) _ rfl

/-- C11. With `tamano ≤ 9`, `propagarRestricciones` returns true and the state it was
given (grid, candidate vectors and `celdasVacias` untouched), and `resolverSudoku`
gives the same result and final state as the solver with propagation disabled. -/
theorem propagacion_omitida (st : Estado) (h9 : st.tamano ≤ 9) :
    propagarRestricciones st = (true, st) ∧
    ∀ fuel, resolverSudoku fuel st = resolverSudokuSinPropagacion fuel st := by
  refine ⟨by simp [propagarRestricciones, h9], fun fuel => ?_⟩
  have h16 : ¬ st.tamano > 16 := by omega
  simp only [resolverSudoku, resolverSudokuSinPropagacion, h16, if_false]
  by_cases hv : validarEstadoInicial st = true
  · simp only [hv, Bool.not_true, Bool.false_eq_true, if_false]
    exact resolverBacktracking_sin_propagacion fuel st (by omega)
  · simp [hv]

/-- The 4 × 4 puzzle `tablero4` loaded: an instance of C11. -/
theorem propagacion_omitida_witness :
    (estadoDe tablero4 2).tamano ≤ 9 ∧
    propagarRestricciones (estadoDe tablero4 2) = (true, estadoDe tablero4 2) ∧
    ∀ fuel, resolverSudoku fuel (estadoDe tablero4 2) =
      resolverSudokuSinPropagacion fuel (estadoDe tablero4 2) :=
  ⟨by decide, propagacion_omitida (estadoDe tablero4 2) (by decide)⟩

/-- C18. With `tamano > 9`, when some empty cell of the board has no candidate as
`propagarRestricciones` is called, the call returns false. -/
theorem propagarRestricciones_celda_sin_candidatos (st : Estado) (h9 : 9 < st.tamano)
    (r c : Nat) (hr : r < st.tamano) (hc : c < st.tamano)
    (h0 : leerCelda st.sudoku r c = 0)
    (hcount : Bitset.count (obtenerCandidatos st r c) = 0) :
    (propagarRestricciones st).1 = false := by
  have h : ¬ st.tamano ≤ 9 := by omega
  have hmem : (r, c) ∈ celdas st.tamano := (mem_celdas _ _).mpr ⟨hr, hc⟩
  obtain ⟨st1, h1⟩ := propagarPasada_fallo (celdas st.tamano) st false ⟨(r, c), hmem, h0, hcount⟩
  unfold propagarRestricciones
  rw [if_neg h]
  show (propagarBucle (9 + 1) st).1 = false
  simp only [propagarBucle, h1]


/-! ## Solving from a known completion, and the empty boards -/

theorem entrada_tableroVacio (N i j : Nat) : entrada (tableroVacio N) i j = 0 := by
  unfold entrada tableroVacio
  by_cases hi : i < N
  · by_cases hj : j < N
    · simp [List.getD_eq_getElem?_getD, List.getElem?_replicate, hi, hj]
    · simp [List.getD_eq_getElem?_getD, List.getElem?_replicate, hi, hj]
  · simp [List.getD_eq_getElem?_getD, List.getElem?_replicate, hi]

/-- A loaded board whose non-zero entries lie in `1..n²` and are not repeated passes
the validator. -/
theorem validar_de_entradas (previo : Estado) (tablero : List (List Int)) (n : Nat)
    (st : Estado) (hn1 : 1 ≤ n) (hn5 : n ≤ 5) (he : EntradasEn tablero (n * n) 25)
    (hcarga : cargarSudoku previo tablero n = some st)
    (hran : EnRango (entrada tablero) (n * n)) (hsin : SinRepetidos (entrada tablero) n) :
    validarEstadoInicial st = true := by
  obtain ⟨st2, h1, h2, h3, _, h5, _, _⟩ := cargarSudoku_spec previo tablero n hn5 he
  rw [hcarga, Option.some.injEq] at h1
  subst h1
  have hd : Dimensionado st := ⟨by omega, by omega, by rw [h3, h2]⟩
  rw [validarEstadoInicial_iff_estado st hd (fun i hi j hj => by
    rw [h3] at hi hj
    rw [h5 i j hi hj]; exact (he i hi j hj).1)]
  rw [h3, h2, enRango_congr _ _ _ h5, sinRepetidos_congr _ _ _ h5]
  exact ⟨hran, hsin⟩

/-- Up to size 16, a loaded and validated board that has a completion is solved: the
call returns true with one final state for every fuel above the number of cells, and
that state holds a completed board. -/
theorem resolverSudoku_resuelve (previo : Estado) (tablero : List (List Int)) (n : Nat)
    (st : Estado) (s : List (List Int)) (hn1 : 1 ≤ n) (hn4 : n ≤ 4)
    (he : EntradasEn tablero (n * n) 25)
    (hcarga : cargarSudoku previo tablero n = some st)
    (hval : validarEstadoInicial st = true)
    (hs : Completo n s) (hext : Extiende (n * n) tablero s) :
    ∃ st2, (∀ fuel, (n * n) * (n * n) < fuel → resolverSudoku fuel st = some (true, st2)) ∧
      Completo n (obtenerSolucion st2) := by
  have hN16 : n * n ≤ 16 := Nat.mul_le_mul hn4 hn4
  obtain ⟨hinv, hn', hN, hf⟩ :=
    invariante_carga previo tablero n st hn1 (by omega) he hcarga hval
  have h16 : st.tamano ≤ 16 := by rw [hN]; exact hN16
  have hceros : cerosDe (leerCelda st.sudoku) st.tamano < (n * n) * (n * n) + 1 :=
    Nat.lt_succ_of_le (by rw [hN]; exact cerosDe_le _ _)
  obtain ⟨b, st2, hr, hb⟩ := resolverBacktracking_completo _ st h16 hinv hceros
  cases b with
  | true =>
    obtain ⟨hinv2, hcv2, hsuc⟩ :=
      (resolverBacktracking_correcto _ st true st2 h16 hinv hr).2 rfl
    refine ⟨st2, fun fuel hfuel => ?_, ?_⟩
    · rw [resolverSudoku_pequeno st fuel h16 hval]
      exact resolverBacktracking_mono _ fuel st _ hfuel hr
    · have := completo_de_invariante st2 hinv2 hcv2
      rw [hsuc.1, hn'] at this
      exact this
  | false =>
    exfalso
    refine hb rfl (entrada s) (hn' ▸ completa_de_completo n s hs) ?_
    intro i hi j hj hz
    rw [hN] at hi hj
    rw [hf i j hi hj] at hz ⊢
    exact hext i hi j hj hz

/-- The all-empty board of block size `n ≤ 4` is solved as soon as some completed board
of that size exists. -/
theorem resolverSudoku_vacio (previo : Estado) (n : Nat) (s : List (List Int))
    (hn1 : 1 ≤ n) (hn4 : n ≤ 4) (hs : Completo n s) :
    ∃ st st2, cargarSudoku previo (tableroVacio (n * n)) n = some st ∧
      (∀ fuel, (n * n) * (n * n) < fuel → resolverSudoku fuel st = some (true, st2)) ∧
      Completo n (obtenerSolucion st2) := by
  have he : EntradasEn (tableroVacio (n * n)) (n * n) 25 := by
    intro i _ j _
    rw [entrada_tableroVacio]; omega
  obtain ⟨st, hcarga, _⟩ := cargarSudoku_spec previo (tableroVacio (n * n)) n (by omega) he
  have hval : validarEstadoInicial st = true := by
    refine validar_de_entradas previo _ n st hn1 (by omega) he hcarga ?_ ?_
    · intro i _ j _ hz
      exact absurd (entrada_tableroVacio _ i j) hz
    · intro i _ j _ i2 _ j2 _ hz
      exact absurd (entrada_tableroVacio _ i j) hz
  obtain ⟨st2, h1, h2⟩ := resolverSudoku_resuelve previo _ n st s hn1 hn4 he hcarga hval hs
    (fun i _ j _ hz => absurd (entrada_tableroVacio _ i j) hz)
  exact ⟨st, st2, hcarga, h1, h2⟩

/-- C15. For the all-empty 4 × 4 board (`n = 2`) and the all-empty 9 × 9 board
(`n = 3`), from any prior solver state: `cargarSudoku` succeeds, the following
`resolverSudoku` returns true (for every fuel above the number of cells), and the grid
it leaves is a completed board: no zero cell, and every row, column and block contains
each symbol of `1..size` exactly once. -/
theorem resolverSudoku_tablero_vacio (previo : Estado) :
    (∃ st st2, cargarSudoku previo (tableroVacio 4) 2 = some st ∧
      (∀ fuel, 16 < fuel → resolverSudoku fuel st = some (true, st2)) ∧
      Completo 2 (obtenerSolucion st2)) ∧
    (∃ st st2, cargarSudoku previo (tableroVacio 9) 3 = some st ∧
      (∀ fuel, 81 < fuel → resolverSudoku fuel st = some (true, st2)) ∧
      Completo 3 (obtenerSolucion st2)) := by
  have h4 : Completo 2 solucion4 := by decide
  have h9 : Completo 3 solucion9 := by decide!
  exact ⟨resolverSudoku_vacio previo 2 solucion4 (by omega) (by omega) h4,
    resolverSudoku_vacio previo 3 solucion9 (by omega) (by omega) h9⟩


/-! ## Which cell the MRV scan selects -/

theorem buscarMRV_cons (st : Estado) (p : Nat × Nat) (resto : List (Nat × Nat))
    (mejor : Option (Nat × Nat)) (minC : Nat) :
    buscarMRV st (p :: resto) mejor minC =
      if EsVacia st p then
        if cuentaDe st p = 0 then Seleccion.muerto
        else if cuentaDe st p < minC then
          if cuentaDe st p = 1 then Seleccion.elegida (some p)
          else buscarMRV st resto (some p) (cuentaDe st p)
        else buscarMRV st resto mejor minC
      else buscarMRV st resto mejor minC := by
  obtain ⟨i, j⟩ := p
  rfl

/-- When an empty cell with exactly one candidate is among the scanned cells and the scan
does not report a dead branch, the scan selects the first such cell. -/
theorem buscarMRV_primera_unica (st : Estado) (cs : List (Nat × Nat)) :
    ∀ (mejor : Option (Nat × Nat)) (minC : Nat), 2 ≤ minC →
      buscarMRV st cs mejor minC ≠ Seleccion.muerto →
      (∃ p ∈ cs, EsVacia st p ∧ cuentaDe st p = 1) →
      ∃ antes x despues, cs = antes ++ x :: despues ∧
        buscarMRV st cs mejor minC = Seleccion.elegida (some x) ∧
        EsVacia st x ∧ cuentaDe st x = 1 ∧
        ∀ p ∈ antes, EsVacia st p → 2 ≤ cuentaDe st p := by
  induction cs with
  | nil => rintro mejor minC _ _ ⟨p, hp, _⟩; exact absurd hp (List.not_mem_nil p)
  | cons q resto ih =>
    rintro mejor minC hmin hnm ⟨p, hp, hpv, hpc⟩
    rw [buscarMRV_cons] at hnm ⊢
    by_cases hq : EsVacia st q
    · rw [if_pos hq] at hnm ⊢
      by_cases hq0 : cuentaDe st q = 0
      · rw [if_pos hq0] at hnm; exact absurd rfl hnm
      · rw [if_neg hq0] at hnm ⊢
        by_cases hq1 : cuentaDe st q = 1
        · have hlt : cuentaDe st q < minC := by omega
          rw [if_pos hlt, if_pos hq1]
          exact ⟨[], q, resto, rfl, rfl, hq, hq1, fun p hp => absurd hp (List.not_mem_nil p)⟩
        · have hpr : p ∈ resto := by
            rcases List.mem_cons.mp hp with rfl | hh
            · exact absurd hpc hq1
            · exact hh
          by_cases hlt : cuentaDe st q < minC
          · rw [if_pos hlt, if_neg hq1] at hnm ⊢
            obtain ⟨antes, x, despues, h1, h2, h3, h4, h5⟩ :=
              ih (some q) (cuentaDe st q) (by omega) hnm ⟨p, hpr, hpv, hpc⟩
            refine ⟨q :: antes, x, despues, by rw [h1]; rfl, h2, h3, h4, ?_⟩
            intro r hr hrv
            rcases List.mem_cons.mp hr with rfl | hh
            · omega
            · exact h5 r hh hrv
          · rw [if_neg hlt] at hnm ⊢
            obtain ⟨antes, x, despues, h1, h2, h3, h4, h5⟩ :=
              ih mejor minC hmin hnm ⟨p, hpr, hpv, hpc⟩
            refine ⟨q :: antes, x, despues, by rw [h1]; rfl, h2, h3, h4, ?_⟩
            intro r hr hrv
            rcases List.mem_cons.mp hr with rfl | hh
            · omega
            · exact h5 r hh hrv
    · rw [if_neg hq] at hnm ⊢
      have hpr : p ∈ resto := by
        rcases List.mem_cons.mp hp with rfl | hh
        · exact absurd hpv hq
        · exact hh
      obtain ⟨antes, x, despues, h1, h2, h3, h4, h5⟩ :=
        ih mejor minC hmin hnm ⟨p, hpr, hpv, hpc⟩
      refine ⟨q :: antes, x, despues, by rw [h1]; rfl, h2, h3, h4, ?_⟩
      intro r hr hrv
      rcases List.mem_cons.mp hr with rfl | hh
      · exact absurd hrv hq
      · exact h5 r hh hrv

/-- When every scanned empty cell has at least two candidates, the scan keeps the cell it
came with, or selects the first scanned cell of minimum count below `minC`. -/
theorem buscarMRV_minimo (st : Estado) (cs : List (Nat × Nat)) :
    ∀ (mejor : Option (Nat × Nat)) (minC : Nat),
      (∀ p ∈ cs, EsVacia st p → 2 ≤ cuentaDe st p) →
      (buscarMRV st cs mejor minC = Seleccion.elegida mejor ∧
        ∀ p ∈ cs, EsVacia st p → minC ≤ cuentaDe st p) ∨
      (∃ antes x despues, cs = antes ++ x :: despues ∧
        buscarMRV st cs mejor minC = Seleccion.elegida (some x) ∧
        EsVacia st x ∧ cuentaDe st x < minC ∧
        (∀ p ∈ antes, EsVacia st p → cuentaDe st x < cuentaDe st p) ∧
        (∀ p ∈ despues, EsVacia st p → cuentaDe st x ≤ cuentaDe st p)) := by
  induction cs with
  | nil =>
    intro mejor minC _
    exact Or.inl ⟨rfl, fun p hp => absurd hp (List.not_mem_nil p)⟩
  | cons q resto ih =>
    intro mejor minC h2
    have h2r : ∀ p ∈ resto, EsVacia st p → 2 ≤ cuentaDe st p :=
      fun p hp => h2 p (List.mem_cons_of_mem _ hp)
    rw [buscarMRV_cons]
    by_cases hq : EsVacia st q
    · have hq2 := h2 q (List.mem_cons_self _ _) hq
      have hq0 : ¬ cuentaDe st q = 0 := by omega
      have hq1 : ¬ cuentaDe st q = 1 := by omega
      rw [if_pos hq, if_neg hq0]
      by_cases hlt : cuentaDe st q < minC
      · rw [if_pos hlt, if_neg hq1]
        right
        rcases ih (some q) (cuentaDe st q) h2r with ⟨h3, h4⟩ | ⟨antes, x, despues, h3, h4, h5, h6, h7, h8⟩
        · exact ⟨[], q, resto, rfl, h3, hq, hlt,
            fun p hp => absurd hp (List.not_mem_nil p), h4⟩
        · refine ⟨q :: antes, x, despues, by rw [h3]; rfl, h4, h5, by omega, ?_, h8⟩
          intro r hr hrv
          rcases List.mem_cons.mp hr with rfl | hh
          · exact h6
          · exact h7 r hh hrv
      · rw [if_neg hlt]
        rcases ih mejor minC h2r with ⟨h3, h4⟩ | ⟨antes, x, despues, h3, h4, h5, h6, h7, h8⟩
        · left
          refine ⟨h3, fun r hr hrv => ?_⟩
          rcases List.mem_cons.mp hr with rfl | hh
          · omega
          · exact h4 r hh hrv
        · right
          refine ⟨q :: antes, x, despues, by rw [h3]; rfl, h4, h5, h6, ?_, h8⟩
          intro r hr hrv
          rcases List.mem_cons.mp hr with rfl | hh
          · omega
          · exact h7 r hh hrv
    · rw [if_neg hq]
      rcases ih mejor minC h2r with ⟨h3, h4⟩ | ⟨antes, x, despues, h3, h4, h5, h6, h7, h8⟩
      · left
        refine ⟨h3, fun r hr hrv => ?_⟩
        rcases List.mem_cons.mp hr with rfl | hh
        · exact absurd hrv hq
        · exact h4 r hh hrv
      · right
        refine ⟨q :: antes, x, despues, by rw [h3]; rfl, h4, h5, h6, ?_, h8⟩
        intro r hr hrv
        rcases List.mem_cons.mp hr with rfl | hh
        · exact absurd hrv hq
        · exact h7 r hh hrv

/-- When no scanned empty cell has exactly one candidate and the scan reports no dead
branch, every scanned empty cell has at least two candidates. -/
theorem buscarMRV_sin_muerto (st : Estado) (cs : List (Nat × Nat)) :
    ∀ (mejor : Option (Nat × Nat)) (minC : Nat),
      buscarMRV st cs mejor minC ≠ Seleccion.muerto →
      (∀ p ∈ cs, EsVacia st p → cuentaDe st p ≠ 1) →
      ∀ p ∈ cs, EsVacia st p → 2 ≤ cuentaDe st p := by
  induction cs with
  | nil => intro _ _ _ _ p hp; exact absurd hp (List.not_mem_nil p)
  | cons q resto ih =>
    intro mejor minC hnm h1 p hp hpv
    have h1r : ∀ p ∈ resto, EsVacia st p → cuentaDe st p ≠ 1 :=
      fun p hp => h1 p (List.mem_cons_of_mem _ hp)
    rw [buscarMRV_cons] at hnm
    by_cases hq : EsVacia st q
    · rw [if_pos hq] at hnm
      by_cases hq0 : cuentaDe st q = 0
      · rw [if_pos hq0] at hnm; exact absurd rfl hnm
      · rw [if_neg hq0] at hnm
        have hq1 := h1 q (List.mem_cons_self _ _) hq
        rcases List.mem_cons.mp hp with rfl | hh
        · omega
        · by_cases hlt : cuentaDe st q < minC
          · rw [if_pos hlt, if_neg hq1] at hnm
            exact ih _ _ hnm h1r p hh hpv
          · rw [if_neg hlt] at hnm
            exact ih _ _ hnm h1r p hh hpv
    · rw [if_neg hq] at hnm
      rcases List.mem_cons.mp hp with rfl | hh
      · exact absurd hpv hq
      · exact ih _ _ hnm h1r p hh hpv

/-- With vectors in range, a cell has at most `tamano` candidates. -/
theorem cuentaDe_le (st : Estado) (hve : VectoresEnRango st) (p : Nat × Nat) :
    cuentaDe st p ≤ st.tamano := by
  apply count_le
  intro k hk ht
  rw [test_obtenerCandidatos] at ht
  by_cases hr : p.1 < 25
  · exact hve p.1 hr k hk (Or.inl ht.1)
  · have := ht.1
    simp [leer, hr, Bitset.test] at this

/-- C20. In a state with at least one empty cell of the board on which the row-major
scan reports no dead branch, the scan selects an empty cell `x` of the board; with
`antes` the cells scanned before `x` in row-major order: if some empty cell has exactly
one candidate, `x` has exactly one and no empty cell before it has; otherwise `x` has
the minimum candidate count over all empty cells and every empty cell before it has
strictly more candidates. -/
theorem buscarMRV_seleccion (st : Estado) (hve : VectoresEnRango st)
    (hvacia : ∃ p ∈ celdas st.tamano, EsVacia st p)
    (hnm : buscarMRV st (celdas st.tamano) none (st.tamano + 1) ≠ Seleccion.muerto) :
    ∃ antes x despues, celdas st.tamano = antes ++ x :: despues ∧
      buscarMRV st (celdas st.tamano) none (st.tamano + 1) = Seleccion.elegida (some x) ∧
      EsVacia st x ∧
      ((∃ p ∈ celdas st.tamano, EsVacia st p ∧ cuentaDe st p = 1) →
        cuentaDe st x = 1 ∧ ∀ p ∈ antes, EsVacia st p → cuentaDe st p ≠ 1) ∧
      ((¬ ∃ p ∈ celdas st.tamano, EsVacia st p ∧ cuentaDe st p = 1) →
        (∀ p ∈ celdas st.tamano, EsVacia st p → cuentaDe st x ≤ cuentaDe st p) ∧
        ∀ p ∈ antes, EsVacia st p → cuentaDe st x < cuentaDe st p) := by
  obtain ⟨p0, hp0, hp0v⟩ := hvacia
  have hN : 1 ≤ st.tamano := by
    rw [mem_celdas] at hp0; omega
  by_cases huna : ∃ p ∈ celdas st.tamano, EsVacia st p ∧ cuentaDe st p = 1
  · obtain ⟨antes, x, despues, h1, h2, h3, h4, h5⟩ :=
      buscarMRV_primera_unica st (celdas st.tamano) none (st.tamano + 1) (by omega) hnm huna
    refine ⟨antes, x, despues, h1, h2, h3, fun _ => ⟨h4, fun p hp hpv => ?_⟩,
      fun hno => absurd huna hno⟩
    have := h5 p hp hpv
    omega
  · have hno1 : ∀ p ∈ celdas st.tamano, EsVacia st p → cuentaDe st p ≠ 1 :=
      fun p hp hpv hc => huna ⟨p, hp, hpv, hc⟩
    have h2 := buscarMRV_sin_muerto st (celdas st.tamano) none (st.tamano + 1) hnm hno1
    rcases buscarMRV_minimo st (celdas st.tamano) none (st.tamano + 1) h2 with
      ⟨_, h4⟩ | ⟨antes, x, despues, h3, h4, h5, _, h7, h8⟩
    · have := h4 p0 hp0 hp0v
      have := cuentaDe_le st hve p0
      omega
    · refine ⟨antes, x, despues, h3, h4, h5, fun h => absurd h huna, fun _ => ⟨?_, h7⟩⟩
      intro p hp hpv
      rw [h3] at hp
      rcases List.mem_append.mp hp with hh | hh
      · exact Nat.le_of_lt (h7 p hh hpv)
      · rcases List.mem_cons.mp hh with rfl | hh2
        · exact Nat.le_refl _
        · exact h8 p hh2 hpv

/-- The 4 × 4 puzzle `tablero4` loaded: an instance of C20. -/
theorem buscarMRV_seleccion_witness :
    VectoresEnRango (estadoDe tablero4 2) ∧
    (∃ p ∈ celdas (estadoDe tablero4 2).tamano, EsVacia (estadoDe tablero4 2) p) ∧
    buscarMRV (estadoDe tablero4 2) (celdas (estadoDe tablero4 2).tamano) none
      ((estadoDe tablero4 2).tamano + 1) ≠ Seleccion.muerto ∧
    ∃ antes x despues, celdas (estadoDe tablero4 2).tamano = antes ++ x :: despues ∧
      buscarMRV (estadoDe tablero4 2) (celdas (estadoDe tablero4 2).tamano) none
        ((estadoDe tablero4 2).tamano + 1) = Seleccion.elegida (some x) ∧
      EsVacia (estadoDe tablero4 2) x ∧
      ((∃ p ∈ celdas (estadoDe tablero4 2).tamano,
          EsVacia (estadoDe tablero4 2) p ∧ cuentaDe (estadoDe tablero4 2) p = 1) →
        cuentaDe (estadoDe tablero4 2) x = 1 ∧
        ∀ p ∈ antes, EsVacia (estadoDe tablero4 2) p → cuentaDe (estadoDe tablero4 2) p ≠ 1) ∧
      ((¬ ∃ p ∈ celdas (estadoDe tablero4 2).tamano,
          EsVacia (estadoDe tablero4 2) p ∧ cuentaDe (estadoDe tablero4 2) p = 1) →
        (∀ p ∈ celdas (estadoDe tablero4 2).tamano, EsVacia (estadoDe tablero4 2) p →
          cuentaDe (estadoDe tablero4 2) x ≤ cuentaDe (estadoDe tablero4 2) p) ∧
        ∀ p ∈ antes, EsVacia (estadoDe tablero4 2) p →
          cuentaDe (estadoDe tablero4 2) x < cuentaDe (estadoDe tablero4 2) p) :=
  ⟨by decide, by decide, by decide,
    buscarMRV_seleccion (estadoDe tablero4 2) (by decide) (by decide) (by decide)⟩


/-! ## What a propagation that returns true has done -/

theorem vectoresEnRango_colocar (st : Estado) (hve : VectoresEnRango st) (i j v : Nat)
    (x : Int) : VectoresEnRango { colocarValor st i j v with celdasVacias := x } := by
  intro u hu k hk h
  refine hve u hu k hk ?_
  simp only [colocarValor] at h
  rcases h with h | h | h
  · exact Or.inl (test_leer_reset_imp _ _ _ _ _ h)
  · exact Or.inr (Or.inl (test_leer_reset_imp _ _ _ _ _ h))
  · exact Or.inr (Or.inr (test_leer_reset_imp _ _ _ _ _ h))

/-- With vectors in range, a cell with candidates has a first candidate in `1..tamano`. -/
theorem primerCandidato_some (st : Estado) (hve : VectoresEnRango st) (p : Nat × Nat)
    (hc : cuentaDe st p ≠ 0) :
    ∃ v, primerCandidato (obtenerCandidatos st p.1 p.2) st.tamano = some v ∧ 1 ≤ v ∧
      v ≤ st.tamano ∧ Bitset.test (obtenerCandidatos st p.1 p.2) v = true := by
  have hpos : 0 < Bitset.count (obtenerCandidatos st p.1 p.2) := Nat.pos_of_ne_zero hc
  obtain ⟨k, hk, ht⟩ := (Bitset.count_pos _).mp hpos
  have hkr : 1 ≤ k ∧ k ≤ st.tamano := by
    have ht2 := (test_obtenerCandidatos st p.1 p.2 k).mp ht
    by_cases hr : p.1 < 25
    · exact hve p.1 hr k hk (Or.inl ht2.1)
    · have := ht2.1
      simp [leer, hr, Bitset.test] at this
  cases hf : primerCandidato (obtenerCandidatos st p.1 p.2) st.tamano with
  | none =>
    unfold primerCandidato at hf
    rw [List.find?_eq_none] at hf
    have := hf k (by rw [List.mem_range'_1]; omega)
    exact absurd ht this
  | some v =>
    unfold primerCandidato at hf
    have hm := List.mem_of_find?_eq_some hf
    have ht := List.find?_some hf
    rw [List.mem_range'_1] at hm
    exact ⟨v, rfl, hm.1, by omega, ht⟩

theorem propagarPasada_cons (st : Estado) (p : Nat × Nat) (resto : List (Nat × Nat))
    (cambios : Bool) :
    propagarPasada (p :: resto) st cambios =
      if EsVacia st p then
        if cuentaDe st p = 0 then Pasada.fallo st
        else if cuentaDe st p = 1 then
          match primerCandidato (obtenerCandidatos st p.1 p.2) st.tamano with
          | some v =>
            propagarPasada resto
              { colocarValor st p.1 p.2 v with celdasVacias := st.celdasVacias - 1 } true
          | none => propagarPasada resto st cambios
        else propagarPasada resto st cambios
      else propagarPasada resto st cambios := by
  obtain ⟨i, j⟩ := p
  rfl

/-- One full scan of the propagation over cells of the board, in a state with vectors in
range: the vectors stay in range, no cell is emptied, a scan that ends with `cambios`
set (and started without) filled a cell, and a scan that ends without `cambios` changed
nothing and saw at least two candidates in every empty cell. -/
theorem propagarPasada_fin (cs : List (Nat × Nat)) :
    ∀ (st : Estado) (c0 : Bool) (st1 : Estado) (c1 : Bool),
      st.tamano ≤ 25 → VectoresEnRango st →
      (∀ p ∈ cs, p.1 < st.tamano ∧ p.2 < st.tamano) →
      propagarPasada cs st c0 = Pasada.fin st1 c1 →
      VectoresEnRango st1 ∧ st1.tamano = st.tamano ∧
      cerosDe (leerCelda st1.sudoku) st.tamano ≤ cerosDe (leerCelda st.sudoku) st.tamano ∧
      (c1 = true → c0 = true ∨
        cerosDe (leerCelda st1.sudoku) st.tamano + 1 ≤ cerosDe (leerCelda st.sudoku) st.tamano) ∧
      (c1 = false → c0 = false ∧ st1 = st ∧ ∀ p ∈ cs, EsVacia st p → 2 ≤ cuentaDe st p) := by
  induction cs with
  | nil =>
    intro st c0 st1 c1 _ hve _ h
    simp only [propagarPasada, Pasada.fin.injEq] at h
    obtain ⟨rfl, rfl⟩ := h
    exact ⟨hve, rfl, Nat.le_refl _, fun h => Or.inl h,
      fun h => ⟨h, rfl, fun p hp => absurd hp (List.not_mem_nil p)⟩⟩
  | cons q resto ih =>
    intro st c0 st1 c1 h25 hve hcs h
    have hq := hcs q (List.mem_cons_self _ _)
    have hcr : ∀ p ∈ resto, p.1 < st.tamano ∧ p.2 < st.tamano :=
      fun p hp => hcs p (List.mem_cons_of_mem _ hp)
    rw [propagarPasada_cons] at h
    by_cases hv : EsVacia st q
    · rw [if_pos hv] at h
      by_cases h0 : cuentaDe st q = 0
      · rw [if_pos h0] at h; exact absurd h (by simp)
      · rw [if_neg h0] at h
        by_cases h1 : cuentaDe st q = 1
        · rw [if_pos h1] at h
          obtain ⟨v, hpc, hv1, _, _⟩ := primerCandidato_some st hve q h0
          rw [hpc] at h
          simp only at h
          have hstep := ih { colocarValor st q.1 q.2 v with celdasVacias := st.celdasVacias - 1 }
            true st1 c1 h25 (vectoresEnRango_colocar st hve _ _ _ _) hcr h
          obtain ⟨a1, a2, a3, _, a5⟩ := hstep
          have hf := leerCelda_colocarValor st q.1 q.2 v (by omega) (by omega)
          have hceros := cerosDe_conValor (leerCelda st.sudoku) st.tamano q.1 q.2 (v : Int)
            hq.1 hq.2 hv (by omega)
          have a3' : cerosDe (leerCelda st1.sudoku) st.tamano ≤
              cerosDe (leerCelda (colocarValor st q.1 q.2 v).sudoku) st.tamano := a3
          rw [hf] at a3'
          refine ⟨a1, a2, by omega, fun _ => Or.inr (by omega), fun hc1 => ?_⟩
          exact absurd (a5 hc1).1 (by simp)
        · rw [if_neg h1] at h
          obtain ⟨a1, a2, a3, a4, a5⟩ := ih st c0 st1 c1 h25 hve hcr h
          refine ⟨a1, a2, a3, a4, fun hc1 => ?_⟩
          obtain ⟨b1, b2, b3⟩ := a5 hc1
          refine ⟨b1, b2, fun p hp hpv => ?_⟩
          rcases List.mem_cons.mp hp with rfl | hh
          · omega
          · exact b3 p hh hpv
    · rw [if_neg hv] at h
      obtain ⟨a1, a2, a3, a4, a5⟩ := ih st c0 st1 c1 h25 hve hcr h
      refine ⟨a1, a2, a3, a4, fun hc1 => ?_⟩
      obtain ⟨b1, b2, b3⟩ := a5 hc1
      refine ⟨b1, b2, fun p hp hpv => ?_⟩
      rcases List.mem_cons.mp hp with rfl | hh
      · exact absurd hpv hv
      · exact b3 p hh hpv

/-- The loop of the propagation with `m ≥ 1` scans allowed, in a state with vectors in
range: it makes `k < m` scans that each fill a cell, and then one more scan which
returns false, or changes nothing (a fixed point: every empty cell has at least two
candidates), or is the `m`-th scan and fills a cell again. -/
theorem propagarBucle_pasadas (m : Nat) :
    ∀ (st : Estado), st.tamano ≤ 25 → VectoresEnRango st →
      ∃ k s, k < m + 1 ∧ trasPasadas k st = some s ∧ s.tamano = st.tamano ∧
        cerosDe (leerCelda s.sudoku) st.tamano + k ≤ cerosDe (leerCelda st.sudoku) st.tamano ∧
        ((∃ st1, propagarPasada (celdas s.tamano) s false = Pasada.fallo st1 ∧
            propagarBucle (m + 1) st = (false, st1)) ∨
          (propagarPasada (celdas s.tamano) s false = Pasada.fin s false ∧
            propagarBucle (m + 1) st = (true, s) ∧
            ∀ p ∈ celdas s.tamano, EsVacia s p → 2 ≤ cuentaDe s p) ∨
          (k = m ∧ ∃ st1, propagarPasada (celdas s.tamano) s false = Pasada.fin st1 true ∧
            propagarBucle (m + 1) st = (true, st1) ∧
            cerosDe (leerCelda st1.sudoku) st.tamano + (m + 1) ≤
              cerosDe (leerCelda st.sudoku) st.tamano)) := by
  induction m with
  | zero =>
    intro st h25 hve
    have hcs : ∀ p ∈ celdas st.tamano, p.1 < st.tamano ∧ p.2 < st.tamano :=
      fun p hp => (mem_celdas _ _).mp hp
    refine ⟨0, st, by omega, rfl, rfl, by omega, ?_⟩
    cases hp : propagarPasada (celdas st.tamano) st false with
    | fallo s1 => exact Or.inl ⟨s1, rfl, by simp [propagarBucle, hp]⟩
    | fin s1 c1 =>
      obtain ⟨_, _, _, a4, a5⟩ := propagarPasada_fin _ st false s1 c1 h25 hve hcs hp
      cases c1 with
      | false =>
        obtain ⟨_, b2, b3⟩ := a5 rfl
        subst b2
        exact Or.inr (Or.inl ⟨rfl, by simp [propagarBucle, hp], b3⟩)
      | true =>
        have hfill : cerosDe (leerCelda s1.sudoku) st.tamano + 1 ≤
            cerosDe (leerCelda st.sudoku) st.tamano := by
          rcases a4 rfl with hh | hh
          · exact absurd hh (by simp)
          · exact hh
        exact Or.inr (Or.inr ⟨rfl, s1, rfl, by simp [propagarBucle, hp], hfill⟩)
  | succ m ih =>
    intro st h25 hve
    have hcs : ∀ p ∈ celdas st.tamano, p.1 < st.tamano ∧ p.2 < st.tamano :=
      fun p hp => (mem_celdas _ _).mp hp
    cases hp : propagarPasada (celdas st.tamano) st false with
    | fallo s1 =>
      exact ⟨0, st, by omega, rfl, rfl, by omega,
        Or.inl ⟨s1, hp, by simp [propagarBucle, hp]⟩⟩
    | fin s1 c1 =>
      obtain ⟨a1, a2, _, a4, a5⟩ := propagarPasada_fin _ st false s1 c1 h25 hve hcs hp
      cases c1 with
      | false =>
        obtain ⟨_, b2, b3⟩ := a5 rfl
        subst b2
        exact ⟨0, s1, by omega, rfl, rfl, by omega,
          Or.inr (Or.inl ⟨hp, by simp [propagarBucle, hp], b3⟩)⟩
      | true =>
        have hfill : cerosDe (leerCelda s1.sudoku) st.tamano + 1 ≤
            cerosDe (leerCelda st.sudoku) st.tamano := by
          rcases a4 rfl with hh | hh
          · exact absurd hh (by simp)
          · exact hh
        have hb : propagarBucle (m + 1 + 1) st = propagarBucle (m + 1) s1 := by
          conv_lhs => unfold propagarBucle
          simp [hp]
        obtain ⟨k, s, hk, ht, hts, hz, hcase⟩ := ih s1 (a2 ▸ h25) a1
        rw [a2] at hz hcase
        refine ⟨k + 1, s, by omega, ?_, hts.trans a2, by omega, ?_⟩
        · show (match propagarPasada (celdas st.tamano) st false with
            | Pasada.fallo _ => none
            | Pasada.fin st1 cambios => if cambios then trasPasadas k st1 else none) = some s
          rw [hp]
          exact ht
        · rw [hb]
          rcases hcase with ⟨x, h1, h2⟩ | ⟨h1, h2, h3⟩ | ⟨h1, x, h2, h3, h4⟩
          · exact Or.inl ⟨x, h1, h2⟩
          · exact Or.inr (Or.inl ⟨h1, h2, h3⟩)
          · exact Or.inr (Or.inr ⟨by omega, x, h2, h3, by omega⟩)

/-- C19. With `tamano > 9`, in a state of the solver (board within the arrays, vectors in
range), `propagarRestricciones` makes `k + 1 ≤ 10` full scans of the board: `k` scans
that each fill a cell, leading to a state `s`, and one last scan from `s`. Either that
scan hits `return false` and the call returns false; or it changes nothing and the call
returns true at a fixed point, in which every cell still empty has at least two
candidates; or it is the 10th scan, it fills a cell again, and the call returns true at
the cap with at least 10 empty cells fewer than before the call. -/
theorem propagarRestricciones_true (st : Estado) (h9 : 9 < st.tamano)
    (h25 : st.tamano ≤ 25) (hve : VectoresEnRango st) :
    ∃ k s, k + 1 ≤ 10 ∧ trasPasadas k st = some s ∧
      ((∃ st1, propagarPasada (celdas s.tamano) s false = Pasada.fallo st1 ∧
          propagarRestricciones st = (false, st1)) ∨
        (propagarPasada (celdas s.tamano) s false = Pasada.fin s false ∧
          propagarRestricciones st = (true, s) ∧
          ∀ p ∈ celdas s.tamano, EsVacia s p → 2 ≤ cuentaDe s p) ∨
        (k + 1 = 10 ∧ ∃ st1, propagarPasada (celdas s.tamano) s false = Pasada.fin st1 true ∧
          propagarRestricciones st = (true, st1) ∧
          cerosDe (leerCelda st1.sudoku) st.tamano + 10 ≤
            cerosDe (leerCelda st.sudoku) st.tamano)) := by
  have h : ¬ st.tamano ≤ 9 := by omega
  have hpr : propagarRestricciones st = propagarBucle 10 st := by
    unfold propagarRestricciones
    rw [if_neg h]
  obtain ⟨k, s, hk, ht, _, _, hcase⟩ := propagarBucle_pasadas 9 st h25 hve
  rw [← hpr] at hcase
  refine ⟨k, s, by omega, ht, ?_⟩
  rcases hcase with h1 | h1 | ⟨h1, h2⟩
  · exact Or.inl h1
  · exact Or.inr (Or.inl h1)
  · exact Or.inr (Or.inr ⟨by omega, h2⟩)


theorem par_spec (x : Bool × Estado) (b : Bool) (h : x.1 = b) : x = (b, x.2) := by
  obtain ⟨b1, s⟩ := x
  simp only at h
  subst h
  rfl

/-! ## The invariant of the data model -/

/-- A board with entries in `[0, 25]`, once loaded, gives a state of known sizes whose
vectors agree with the grid and whose `celdasVacias` is the number of empty cells. -/
theorem consistente_carga (previo : Estado) (tablero : List (List Int)) (n : Nat)
    (st : Estado) (hn1 : 1 ≤ n) (hn5 : n ≤ 5) (he : EntradasEn tablero (n * n) 25)
    (hcarga : cargarSudoku previo tablero n = some st) :
    Dimensionado st ∧ Consistente st ∧
      st.celdasVacias = (cerosDe (leerCelda st.sudoku) st.tamano : Nat) := by
  obtain ⟨st2, h1, h2, h3, _, h5, h6, h7⟩ := cargarSudoku_spec previo tablero n hn5 he
  rw [hcarga, Option.some.injEq] at h1
  subst h1
  refine ⟨⟨by omega, by omega, by rw [h3, h2]⟩, ?_, ?_⟩
  · intro u hu v _
    rw [h3] at hu
    rw [h3, h2, enFila_congr _ _ _ u v hu h5, enColumna_congr _ _ _ u v hu h5,
      enBloque_congr _ _ n u v h5]
    exact h6 u hu v
  · rw [h7, h3, cerosDe_congr _ _ _ h5]

/-- Vectors that agree with the grid give the invariant of the data model. -/
theorem invarianteSpec_de_consistente (st : Estado) (hd : Dimensionado st)
    (hc : Consistente st) : InvarianteSpec st := by
  obtain ⟨_, _, hN⟩ := hd
  intro r hr c hcol
  have hb : obtenerBloque st r c < st.tamano := by
    rw [hN]; exact obtenerBloque_cota st.n r c (hN ▸ hr) (hN ▸ hcol)
  refine ⟨fun _ v hv hval => ⟨?_, ?_, ?_⟩, fun _ v hv => ?_⟩
  · have h1 := (hc r hr v hv).1
    cases ht : Bitset.test (leer 0 st.filaCandidatos r) v with
    | false => rfl
    | true => exact absurd ⟨c, hcol, hval.symm⟩ (h1.mp ht).2.2
  · have h1 := (hc c hcol v hv).2.1
    cases ht : Bitset.test (leer 0 st.colCandidatos c) v with
    | false => rfl
    | true => exact absurd ⟨r, hr, hval.symm⟩ (h1.mp ht).2.2
  · have h1 := (hc _ hb v hv).2.2
    cases ht : Bitset.test (leer 0 st.bloqueCandidatos (obtenerBloque st r c)) v with
    | false => rfl
    | true =>
      exact absurd ⟨r, hN ▸ hr, c, hN ▸ hcol, rfl, hval.symm⟩ (h1.mp ht).2.2
  · rw [test_obtenerCandidatos, (hc r hr v hv).1, (hc c hcol v hv).2.1]
    have h3 := (hc _ hb v hv).2.2
    unfold obtenerBloque at h3 ⊢
    rw [h3]
    tauto


/-! ## Parsing and writing the text of a board -/

theorem parsearDesde_nil (fuel ancho : Nat) : parsearDesde fuel ancho [] = some [] := by
  cases fuel <;> rfl

theorem parsearDesde_fuel_aux (ancho : Nat) (hw : 1 ≤ ancho) :
    ∀ k (l : List Char), l.length ≤ k → ∀ fuel, l.length ≤ fuel →
      parsearDesde fuel ancho l = parsearDesde l.length ancho l := by
  intro k
  induction k with
  | zero =>
    intro l hl fuel _
    have : l = [] := List.length_eq_zero.mp (by omega)
    subst this
    rw [parsearDesde_nil, parsearDesde_nil]
  | succ k ih =>
    intro l hl fuel hf
    match l, fuel, hl, hf with
    | [], fuel, _, _ => rw [parsearDesde_nil, parsearDesde_nil]
    | c :: t, fuel + 1, hl, hf =>
      have hd : ((c :: t).drop ancho).length ≤ t.length := by
        rw [List.length_drop, List.length_cons]; omega
      rw [List.length_cons] at hl hf
      show (parsearDesde fuel ancho ((c :: t).drop ancho)).map _ =
        (parsearDesde t.length ancho ((c :: t).drop ancho)).map _
      rw [ih _ (by omega) fuel (by omega), ih _ (by omega) t.length hd]

/-- Enough fuel: any fuel of at least the length of the line gives the result of
`parsearLinea`. -/
theorem parsearDesde_fuel (ancho : Nat) (hw : 1 ≤ ancho) (fuel : Nat) (l : List Char)
    (hf : l.length ≤ fuel) : parsearDesde fuel ancho l = parsearLinea l ancho :=
  parsearDesde_fuel_aux ancho hw l.length l (Nat.le_refl _) fuel hf

/-- One iteration of the loop of `parsearLinea`. -/
theorem parsearLinea_paso (ancho : Nat) (hw : 1 ≤ ancho) (l : List Char) (hl : l ≠ []) :
    parsearLinea l ancho =
      (parsearLinea (l.drop ancho) ancho).map
        (fun fila => parsearSimbolo (l.take ancho) :: fila) := by
  match l, hl with
  | c :: t, _ =>
    show (parsearDesde t.length ancho ((c :: t).drop ancho)).map _ = _
    rw [parsearDesde_fuel ancho hw t.length _
      (by rw [List.length_drop, List.length_cons]; omega)]

/-- A line that starts with a whole token. -/
theorem parsearLinea_cons (ancho : Nat) (hw : 1 ≤ ancho) (simbolo resto : List Char)
    (hlen : simbolo.length = ancho) :
    parsearLinea (simbolo ++ resto) ancho =
      (parsearLinea resto ancho).map (fun fila => parsearSimbolo simbolo :: fila) := by
  have hne : simbolo ++ resto ≠ [] := by
    intro h
    have := congrArg List.length h
    rw [List.length_append, List.length_nil] at this
    omega
  rw [parsearLinea_paso ancho hw _ hne, List.drop_left' hlen, List.take_left' hlen]

/-- The loop of `parsearLinea` ends: with a positive width the function returns a row. -/
theorem parsearLinea_some (ancho : Nat) (hw : 1 ≤ ancho) :
    ∀ k (l : List Char), l.length ≤ k → ∃ fila, parsearLinea l ancho = some fila := by
  intro k
  induction k with
  | zero =>
    intro l hl
    have : l = [] := List.length_eq_zero.mp (by omega)
    subst this
    exact ⟨[], rfl⟩
  | succ k ih =>
    intro l hl
    by_cases hne : l = []
    · subst hne; exact ⟨[], rfl⟩
    · have hpos : 0 < l.length := List.length_pos.mpr hne
      obtain ⟨fila, hfila⟩ := ih (l.drop ancho) (by rw [List.length_drop]; omega)
      exact ⟨_, by rw [parsearLinea_paso ancho hw l hne, hfila]; rfl⟩

/-- A line of `k` whole tokens gives `k` integers. -/
theorem parsearLinea_length (ancho : Nat) (hw : 1 ≤ ancho) :
    ∀ k (l : List Char) (fila : List Int), l.length = k * ancho →
      parsearLinea l ancho = some fila → fila.length = k := by
  intro k
  induction k with
  | zero =>
    intro l fila hl h
    have : l = [] := List.length_eq_zero.mp (by omega)
    subst this
    have : fila = [] := by
      have h2 : parsearLinea [] ancho = some [] := rfl
      rw [h2, Option.some.injEq] at h
      exact h.symm
    rw [this]; rfl
  | succ k ih =>
    intro l fila hl h
    have hpos : 0 < l.length := by
      rw [hl]; exact Nat.mul_pos (Nat.succ_pos k) hw
    have hne : l ≠ [] := List.length_pos.mp hpos
    rw [parsearLinea_paso ancho hw l hne] at h
    obtain ⟨resto, hresto⟩ := parsearLinea_some ancho hw _ (l.drop ancho) (Nat.le_refl _)
    rw [hresto] at h
    have h2 : fila = parsearSimbolo (l.take ancho) :: resto := by
      simp only [Option.map_some', Option.some.injEq] at h
      exact h.symm
    have hd : (l.drop ancho).length = k * ancho := by
      rw [List.length_drop, hl, Nat.succ_mul]; omega
    rw [h2, List.length_cons, ih _ resto hd hresto]

/-- A line made of whole tokens followed by more text: the rows are appended. -/
theorem parsearLinea_append (ancho : Nat) (hw : 1 ≤ ancho) (despues : List Char) :
    ∀ k (antes : List Char), antes.length = k * ancho →
      ∃ fa fd, parsearLinea antes ancho = some fa ∧ fa.length = k ∧
        parsearLinea despues ancho = some fd ∧
        parsearLinea (antes ++ despues) ancho = some (fa ++ fd) := by
  intro k
  induction k with
  | zero =>
    intro antes hl
    have : antes = [] := List.length_eq_zero.mp (by omega)
    subst this
    obtain ⟨fd, hfd⟩ := parsearLinea_some ancho hw _ despues (Nat.le_refl _)
    exact ⟨[], fd, rfl, rfl, hfd, by rw [List.nil_append, hfd]; rfl⟩
  | succ k ih =>
    intro antes hl
    have hge : ancho ≤ antes.length := by
      rw [hl, Nat.succ_mul]; omega
    have htl : (antes.take ancho).length = ancho := by
      rw [List.length_take]; omega
    have hd : (antes.drop ancho).length = k * ancho := by
      rw [List.length_drop, hl, Nat.succ_mul]; omega
    obtain ⟨fa, fd, h1, h2, h3, h4⟩ := ih _ hd
    refine ⟨parsearSimbolo (antes.take ancho) :: fa, fd, ?_, ?_, h3, ?_⟩
    · have h5 := parsearLinea_cons ancho hw (antes.take ancho) (antes.drop ancho) htl
      rw [List.take_append_drop] at h5
      rw [h5, h1]; rfl
    · rw [List.length_cons, h2]
    · have h5 := parsearLinea_cons ancho hw (antes.take ancho) (antes.drop ancho ++ despues) htl
      rw [← List.append_assoc, List.take_append_drop] at h5
      rw [h5, h4]; rfl

/-- The digits after `dropWhile`: a token without `'-'` goes through `stoi` with at most
a `'+'` sign, so the value is that of its leading digits. -/
theorem parsearSimbolo_sin_guion (simbolo : List Char) (hsin : '-' ∉ simbolo) :
    parsearSimbolo simbolo =
      if cifrasIniciales simbolo = [] ∨ 2147483647 < valorDigitos (cifrasIniciales simbolo)
      then 0 else (valorDigitos (cifrasIniciales simbolo) : Int) := by
  have hany : simbolo.any (fun c => decide (c = '-')) = false := by
    rw [Bool.eq_false_iff]
    intro h
    rw [List.any_eq_true] at h
    obtain ⟨c, hc, hd⟩ := h
    exact hsin (by rw [← of_decide_eq_true hd]; exact hc)
  have hhead : (simbolo.dropWhile esEspacio).head? ≠ some '-' := by
    intro h
    have hm := List.mem_of_mem_head? (Option.mem_def.mpr h)
    exact hsin ((List.dropWhile_sublist _).subset hm)
  unfold parsearSimbolo
  rw [hany]
  simp only [Bool.false_eq_true, if_false]
  unfold stoi cifrasIniciales
  simp only [hhead, false_or, decide_False, Bool.false_eq_true, if_false]
  generalize ((if (simbolo.dropWhile esEspacio).head? = some '+'
    then (simbolo.dropWhile esEspacio).tail
    else simbolo.dropWhile esEspacio).takeWhile Char.isDigit) = ds
  cases ds with
  | nil => simp
  | cons d t =>
    by_cases hv : valorDigitos (d :: t) ≤ 2147483647
    · have h1 : (-2147483648 : Int) ≤ (valorDigitos (d :: t) : Int) ∧
          (valorDigitos (d :: t) : Int) ≤ 2147483647 := by omega
      have h2 : ¬ (2147483647 < valorDigitos (d :: t)) := by omega
      simp [h1, h2]
    · have h1 : ¬ ((-2147483648 : Int) ≤ (valorDigitos (d :: t) : Int) ∧
          (valorDigitos (d :: t) : Int) ≤ 2147483647) := by omega
      have h2 : 2147483647 < valorDigitos (d :: t) := by omega
      simp [hv, h2]


/-- The token width of the four sizes: 1 for 4 and 9, 2 for 16 and 25. -/
theorem anchoSimbolo_tamanos (n : Nat) (hn2 : 2 ≤ n) (hn5 : n ≤ 5) :
    anchoSimbolo (n * n) = if n ≤ 3 then 1 else 2 := by
  have h : ∀ m, m < 6 → 2 ≤ m → anchoSimbolo (m * m) = if m ≤ 3 then 1 else 2 := by decide
  exact h n (by omega) hn2

/-- The width is the number of decimal digits: `floor(log10(t) + 1)` for `t ≥ 1`. -/
theorem cifras_log : ∀ fuel t, t ≤ fuel → 1 ≤ t → cifras fuel t = Nat.log 10 t + 1 := by
  intro fuel
  induction fuel with
  | zero => intro t h0 h1; omega
  | succ fuel ih =>
    intro t hf h1
    show (if t < 10 then 1 else cifras fuel (t / 10) + 1) = _
    by_cases h10 : t < 10
    · rw [if_pos h10, Nat.log_of_lt h10]
    · rw [if_neg h10, ih (t / 10) (by omega) (by omega),
        @Nat.log_of_one_lt_of_le 10 t (by omega) (by omega)]

/-- The width as the source computes it: `floor(log10(tamano) + 1)`. -/
theorem anchoSimbolo_log (t : Nat) (h1 : 1 ≤ t) : anchoSimbolo t = Nat.log 10 t + 1 :=
  cifras_log t t (Nat.le_refl t) h1

/-- One written cell, for the four sizes: it has the token width and parses back to the
value. -/
theorem escribirValor_ida_vuelta (n : Nat) (hn2 : 2 ≤ n) (hn5 : n ≤ 5) (v : Int)
    (h0 : 0 ≤ v) (hN : v ≤ (n * n : Nat)) :
    (escribirValor (anchoSimbolo (n * n)) v).length = anchoSimbolo (n * n) ∧
      parsearSimbolo (escribirValor (anchoSimbolo (n * n)) v) = v := by
  have h : ∀ m, m < 6 → 2 ≤ m → ∀ u : Nat, u < 26 → u ≤ m * m →
      (escribirValor (anchoSimbolo (m * m)) (u : Int)).length = anchoSimbolo (m * m) ∧
      parsearSimbolo (escribirValor (anchoSimbolo (m * m)) (u : Int)) = (u : Int) := by
    decide
  have h25 := cuadrado_le_25 n hn5
  have hv : v = (v.toNat : Int) := (Int.toNat_of_nonneg h0).symm
  have := h n (by omega) hn2 v.toNat (by omega) (by omega)
  rw [← hv] at this
  exact this

/-- A written row parses back to the row. -/
theorem parsearLinea_escribirFila (n : Nat) (hn2 : 2 ≤ n) (hn5 : n ≤ 5) :
    ∀ fila : List Int, (∀ v ∈ fila, 0 ≤ v ∧ v ≤ (n * n : Nat)) →
      parsearLinea (escribirFila (anchoSimbolo (n * n)) fila) (anchoSimbolo (n * n))
        = some fila := by
  have hw : 1 ≤ anchoSimbolo (n * n) := by
    rw [anchoSimbolo_tamanos n hn2 hn5]; split <;> omega
  intro fila
  induction fila with
  | nil => intro _; rfl
  | cons v resto ih =>
    intro h
    have hv := h v (List.mem_cons_self _ _)
    obtain ⟨h1, h2⟩ := escribirValor_ida_vuelta n hn2 hn5 v hv.1 hv.2
    show parsearLinea (escribirValor _ v ++ escribirFila _ resto) _ = _
    rw [parsearLinea_cons _ hw _ _ h1, ih (fun u hu => h u (List.mem_cons_of_mem _ hu)), h2]
    rfl

/-- A written row has one token per cell. -/
theorem escribirFila_length (n : Nat) (hn2 : 2 ≤ n) (hn5 : n ≤ 5) :
    ∀ fila : List Int, (∀ v ∈ fila, 0 ≤ v ∧ v ≤ (n * n : Nat)) →
      (escribirFila (anchoSimbolo (n * n)) fila).length
        = fila.length * anchoSimbolo (n * n) := by
  intro fila
  induction fila with
  | nil => intro _; simp [escribirFila]
  | cons v resto ih =>
    intro h
    have hv := h v (List.mem_cons_self _ _)
    show (escribirValor _ v ++ escribirFila _ resto).length = _
    rw [List.length_append, (escribirValor_ida_vuelta n hn2 hn5 v hv.1 hv.2).1,
      ih (fun u hu => h u (List.mem_cons_of_mem _ hu)), List.length_cons, Nat.succ_mul]
    omega

/-- Reading all the positions of a list gives the list. -/
theorem range_map_getD {α : Type} (l : List α) (d : α) :
    (List.range l.length).map (fun j => l.getD j d) = l := by
  apply List.ext_getElem
  · simp
  · intro i h1 h2
    simp [List.getD_eq_getElem?_getD, List.getElem?_eq_getElem h2]

/-- The rows that `escribirSudoku` reads from a square board are the rows of the board. -/
theorem filas_de_cuadrado (tablero : List (List Int)) (N : Nat) (hc : EsCuadrado tablero N) :
    (List.range N).map (fun i => (List.range N).map (fun j => entrada tablero i j))
      = tablero := by
  obtain ⟨h1, h2⟩ := hc
  have h3 : (List.range N).map (fun i => (List.range N).map (fun j => entrada tablero i j))
      = (List.range N).map (fun i => tablero.getD i []) := by
    apply List.map_congr_left
    intro i hi
    have hiN : i < tablero.length := by rw [h1]; exact List.mem_range.mp hi
    have hrow : tablero.getD i [] = tablero[i] := by
      simp [List.getD_eq_getElem?_getD, List.getElem?_eq_getElem hiN]
    have hlen : (tablero.getD i []).length = N := by
      rw [hrow]; exact h2 _ (List.getElem_mem _)
    show (List.range N).map (fun j => (tablero.getD i []).getD j 0) = tablero.getD i []
    rw [← hlen]
    exact range_map_getD _ 0
  rw [h3, ← h1]
  exact range_map_getD _ []

/-- The lines written parse back, one by one, to the rows read from the board. -/
theorem parsearLineas_escribir (n : Nat) (hn2 : 2 ≤ n) (hn5 : n ≤ 5) :
    ∀ filas : List (List Int), (∀ fila ∈ filas, ∀ v ∈ fila, 0 ≤ v ∧ v ≤ (n * n : Nat)) →
      parsearLineas (anchoSimbolo (n * n)) (filas.map (escribirFila (anchoSimbolo (n * n))))
        = some filas := by
  intro filas
  induction filas with
  | nil => intro _; rfl
  | cons fila resto ih =>
    intro h
    show (match parsearLinea (escribirFila _ fila) _ with
      | none => none
      | some f => (parsearLineas _ (resto.map _)).map (fun filas => f :: filas)) = _
    rw [parsearLinea_escribirFila n hn2 hn5 fila (h fila (List.mem_cons_self _ _)),
      ih (fun f hf => h f (List.mem_cons_of_mem _ hf))]
    rfl

/-- The lines of `escribirSudoku` on a square board. -/
theorem escribirSudoku_cuadrado (tablero : List (List Int)) (n : Nat)
    (hc : EsCuadrado tablero (n * n)) :
    escribirSudoku tablero n = tablero.map (escribirFila (anchoSimbolo (n * n))) := by
  have h := filas_de_cuadrado tablero (n * n) hc
  unfold escribirSudoku
  conv_rhs => rw [← h]
  rw [List.map_map]
  rfl

/-- The entries of a square board with entries in range, row by row. -/
theorem entradas_por_fila (tablero : List (List Int)) (N : Nat) (cota : Int)
    (hc : EsCuadrado tablero N) (he : EntradasEn tablero N cota) :
    ∀ fila ∈ tablero, ∀ v ∈ fila, 0 ≤ v ∧ v ≤ cota := by
  intro fila hf v hv
  obtain ⟨i, hi, rfl⟩ := List.getElem_of_mem hf
  obtain ⟨j, hj, rfl⟩ := List.getElem_of_mem hv
  have hjN : j < N := by rw [← hc.2 _ hf]; exact hj
  have := he i (hc.1 ▸ hi) j hjN
  have hent : entrada tablero i j = tablero[i][j] := by
    unfold entrada
    simp [List.getD_eq_getElem?_getD, List.getElem?_eq_getElem hi, List.getElem?_eq_getElem hj]
  rw [hent] at this
  exact this

/-- C12. For `n` in `[2, 5]`, with the token width `w` of the size (1 for 4 and 9, 2 for
16 and 25): a row of `n * n` integers in `[0, n * n]`, written as `escribirSudoku` writes
it and parsed by `parsearLinea` with width `w`, gives back the row; and the lines that
`escribirSudoku` writes for an `n * n × n * n` board with entries in `[0, n * n]`, parsed
line by line (also through `procesarSudoku`), give back the board. -/
theorem escribir_parsear (n : Nat) (hn2 : 2 ≤ n) (hn5 : n ≤ 5)
    (fila : List Int) (hlen : fila.length = n * n)
    (hfila : ∀ v ∈ fila, 0 ≤ v ∧ v ≤ (n * n : Nat))
    (tablero : List (List Int)) (hc : EsCuadrado tablero (n * n))
    (he : EntradasEn tablero (n * n) (n * n : Nat))
    (sudokus : List SudokuConEtiqueta) (etiqueta : List Char) :
    anchoSimbolo (n * n) = (if n ≤ 3 then 1 else 2) ∧
    (escribirFila (anchoSimbolo (n * n)) fila).length = n * n * anchoSimbolo (n * n) ∧
    parsearLinea (escribirFila (anchoSimbolo (n * n)) fila) (anchoSimbolo (n * n))
      = some fila ∧
    (escribirSudoku tablero n).map (fun linea => parsearLinea linea (anchoSimbolo (n * n)))
      = tablero.map some ∧
    procesarSudoku sudokus etiqueta (escribirSudoku tablero n)
      = some (sudokus ++ [⟨etiqueta, tablero, n, n * n⟩]) := by
  have hent := entradas_por_fila tablero (n * n) _ hc he
  refine ⟨anchoSimbolo_tamanos n hn2 hn5, ?_, parsearLinea_escribirFila n hn2 hn5 fila hfila,
    ?_, ?_⟩
  · rw [escribirFila_length n hn2 hn5 fila hfila, hlen]
  · rw [escribirSudoku_cuadrado tablero n hc, List.map_map]
    apply List.map_congr_left
    intro f hf
    exact parsearLinea_escribirFila n hn2 hn5 f (hent f hf)
  · have hl : (escribirSudoku tablero n).length = n * n := by
      rw [escribirSudoku_cuadrado tablero n hc, List.length_map, hc.1]
    have h4 : 4 ≤ n * n := Nat.mul_le_mul hn2 hn2
    have h25 := cuadrado_le_25 n hn5
    have hne : (escribirSudoku tablero n).isEmpty = false := by
      cases hx : escribirSudoku tablero n with
      | nil => rw [hx] at hl; simp at hl; omega
      | cons _ _ => rfl
    unfold procesarSudoku
    rw [hne]
    simp only [Bool.false_eq_true, if_false, hl, Nat.sqrt_eq, ne_eq, not_true_eq_false,
      gt_iff_lt]
    rw [if_neg (by omega), escribirSudoku_cuadrado tablero n hc,
      parsearLineas_escribir n hn2 hn5 tablero hent]
    rfl

/-- A row and the board `tablero4`, written and parsed back: an instance of C12. -/
theorem escribir_parsear_witness :
    (2 ≤ 2 ∧ 2 ≤ 5) ∧ [0, 3, 1, 4].length = 2 * 2 ∧
    (∀ v ∈ ([0, 3, 1, 4] : List Int), 0 ≤ v ∧ v ≤ ((2 * 2 : Nat) : Int)) ∧
    EsCuadrado tablero4 (2 * 2) ∧ EntradasEn tablero4 (2 * 2) ((2 * 2 : Nat) : Int) ∧
    (anchoSimbolo (2 * 2) = (if 2 ≤ 3 then 1 else 2) ∧
    (escribirFila (anchoSimbolo (2 * 2)) [0, 3, 1, 4]).length = 2 * 2 * anchoSimbolo (2 * 2) ∧
    parsearLinea (escribirFila (anchoSimbolo (2 * 2)) [0, 3, 1, 4]) (anchoSimbolo (2 * 2))
      = some [0, 3, 1, 4] ∧
    (escribirSudoku tablero4 2).map (fun linea => parsearLinea linea (anchoSimbolo (2 * 2)))
      = tablero4.map some ∧
    procesarSudoku [] ['S'] (escribirSudoku tablero4 2)
      = some ([] ++ [⟨['S'], tablero4, 2, 2 * 2⟩])) :=
  ⟨by decide, by decide, by decide, by decide, by decide,
    escribir_parsear 2 (by decide) (by decide) [0, 3, 1, 4] (by decide) (by decide)
      tablero4 (by decide) (by decide) [] ['S']⟩


/-- The token width is at least 1. -/
theorem anchoSimbolo_pos (t : Nat) : 1 ≤ anchoSimbolo t := by
  unfold anchoSimbolo
  cases t with
  | zero => exact Nat.le_refl 1
  | succ k =>
    show 1 ≤ (if k + 1 < 10 then 1 else cifras k ((k + 1) / 10) + 1)
    split <;> omega

/-- The loop over the lines of `procesarSudoku` ends and parses line `i` into row `i`. -/
theorem parsearLineas_spec (ancho : Nat) (hw : 1 ≤ ancho) :
    ∀ lineas : List (List Char), ∃ filas, parsearLineas ancho lineas = some filas ∧
      filas.length = lineas.length ∧
      ∀ i, i < lineas.length → ∃ fila, filas[i]? = some fila ∧
        parsearLinea (lineas.getD i []) ancho = some fila := by
  intro lineas
  induction lineas with
  | nil => exact ⟨[], rfl, rfl, fun i hi => absurd hi (Nat.not_lt_zero i)⟩
  | cons linea resto ih =>
    obtain ⟨filas, h1, h2, h3⟩ := ih
    obtain ⟨fila, hfila⟩ := parsearLinea_some ancho hw _ linea (Nat.le_refl _)
    refine ⟨fila :: filas, ?_, ?_, ?_⟩
    · show (match parsearLinea linea ancho with
        | none => none
        | some f => (parsearLineas ancho resto).map (fun filas => f :: filas)) = _
      rw [hfila, h1]; rfl
    · rw [List.length_cons, List.length_cons, h2]
    · intro i hi
      cases i with
      | zero => exact ⟨fila, List.getElem?_cons_zero, hfila⟩
      | succ j =>
        rw [List.length_cons] at hi
        obtain ⟨f, hf1, hf2⟩ := h3 j (by omega)
        exact ⟨f, by rw [List.getElem?_cons_succ]; exact hf1, hf2⟩

/-- C13 (counterexample). The token `1a` has the width 2, holds no `'-'` and is not made
of decimal digits only, yet `parsearLinea` yields 1 for it, not 0. -/
theorem parsearLinea_digito_letra :
    ['1', 'a'].length = 2 ∧ '-' ∉ ['1', 'a'] ∧ ¬ (['1', 'a'].all Char.isDigit = true) ∧
      parsearLinea ['1', 'a'] 2 = some [1] := by
  decide

/-- C13 (amended). A token of the symbol width that holds no `'-'`, standing after `k`
whole tokens of a line: `parsearLinea` yields 0 for it when no decimal digit stands where
the number starts (after white space and an optional `'+'`) or when the leading digits
exceed the range of `int`; otherwise it yields the value of the leading digits, whatever
follows them. -/
theorem parsearLinea_simbolo_sin_guion (ancho k : Nat) (hw : 1 ≤ ancho)
    (antes simbolo despues : List Char) (hant : antes.length = k * ancho)
    (hlen : simbolo.length = ancho) (hsin : '-' ∉ simbolo) :
    ∃ fa fd, parsearLinea antes ancho = some fa ∧ fa.length = k ∧
      parsearLinea despues ancho = some fd ∧
      parsearLinea (antes ++ simbolo ++ despues) ancho =
        some (fa ++
          (if cifrasIniciales simbolo = [] ∨
              2147483647 < valorDigitos (cifrasIniciales simbolo)
            then 0 else (valorDigitos (cifrasIniciales simbolo) : Int)) :: fd) := by
  obtain ⟨fa, fr, h1, h2, h3, h4⟩ :=
    parsearLinea_append ancho hw (simbolo ++ despues) k antes hant
  obtain ⟨fd, hfd⟩ := parsearLinea_some ancho hw _ despues (Nat.le_refl _)
  rw [parsearLinea_cons ancho hw simbolo despues hlen, hfd,
    parsearSimbolo_sin_guion simbolo hsin] at h3
  have h5 : fr = (if cifrasIniciales simbolo = [] ∨
      2147483647 < valorDigitos (cifrasIniciales simbolo)
    then 0 else (valorDigitos (cifrasIniciales simbolo) : Int)) :: fd := by
    simp only [Option.map_some', Option.some.injEq] at h3
    exact h3.symm
  refine ⟨fa, fd, h1, h2, hfd, ?_⟩
  rw [List.append_assoc, h4, h5]

/-- The token `1a` between `07` and `--`: an instance of C13 as amended. -/
theorem parsearLinea_simbolo_sin_guion_witness :
    (1 ≤ 2 ∧ ['0', '7'].length = 1 * 2 ∧ ['1', 'a'].length = 2 ∧ '-' ∉ ['1', 'a']) ∧
    ∃ fa fd, parsearLinea ['0', '7'] 2 = some fa ∧ fa.length = 1 ∧
      parsearLinea ['-', '-'] 2 = some fd ∧
      parsearLinea (['0', '7'] ++ ['1', 'a'] ++ ['-', '-']) 2 =
        some (fa ++
          (if cifrasIniciales ['1', 'a'] = [] ∨
              2147483647 < valorDigitos (cifrasIniciales ['1', 'a'])
            then 0 else (valorDigitos (cifrasIniciales ['1', 'a']) : Int)) :: fd) :=
  ⟨by decide,
    parsearLinea_simbolo_sin_guion 2 1 (by decide) ['0', '7'] ['1', 'a'] ['-', '-']
      (by decide) (by decide) (by decide)⟩

/-- C14 (counterexample). A single line is accepted: it is appended as a puzzle with
`n = 1`, below the range `[2, 5]` of the claim. -/
theorem procesarSudoku_acepta_n_uno :
    procesarSudoku [] ['S'] [['5']] = some [⟨['S'], [[5]], 1, 1⟩] := by
  decide

/-- The width of the lines is not checked by `procesarSudoku`: four lines of which the
first holds a single token are appended as a 4 × 4 puzzle whose first row holds one
integer, a row that `cargarSudoku` would then read past its end. -/
theorem procesarSudoku_fila_corta :
    procesarSudoku [] ['S']
        [['1'], ['1', '2', '3', '4'], ['1', '2', '3', '4'], ['1', '2', '3', '4']]
      = some [⟨['S'], [[1], [1, 2, 3, 4], [1, 2, 3, 4], [1, 2, 3, 4]], 2, 4⟩] := by
  decide!

/-- C14 (amended). On a list of lines each of which holds as many tokens of the symbol
width as there are lines, `procesarSudoku` returns. It skips the puzzle when the list is
empty, when the number of lines is not a perfect square and when it exceeds 25.
Otherwise it appends one puzzle, with `n` in `[1, 5]`, `tamano = n * n` equal to the
number of lines, and a `tablero` of exactly `n * n` rows of exactly `n * n` integers,
row `i` being `parsearLinea` of line `i` with the token width of `tamano`. -/
theorem procesarSudoku_aceptado (sudokus : List SudokuConEtiqueta) (etiqueta : List Char)
    (lineas : List (List Char))
    (hancho : ∀ linea ∈ lineas, linea.length = lineas.length * anchoSimbolo lineas.length) :
    ∃ res, procesarSudoku sudokus etiqueta lineas = some res ∧
      ((lineas = [] ∨ (∀ k, k * k ≠ lineas.length) ∨ 25 < lineas.length) → res = sudokus) ∧
      (¬ (lineas = [] ∨ (∀ k, k * k ≠ lineas.length) ∨ 25 < lineas.length) →
        ∃ s, res = sudokus ++ [s] ∧ s.etiqueta = etiqueta ∧ 1 ≤ s.n ∧ s.n ≤ 5 ∧
          s.tamano = s.n * s.n ∧ lineas.length = s.tamano ∧
          EsCuadrado s.tablero (s.n * s.n) ∧
          ∀ i, i < s.tamano → ∃ fila, s.tablero[i]? = some fila ∧
            parsearLinea (lineas.getD i []) (anchoSimbolo s.tamano) = some fila) := by
  obtain ⟨filas, h1, h2, h3⟩ :=
    parsearLineas_spec (anchoSimbolo lineas.length) (anchoSimbolo_pos _) lineas
  by_cases hvac : lineas = []
  · subst hvac
    exact ⟨sudokus, rfl, fun _ => rfl, fun h => absurd (Or.inl rfl) h⟩
  have hne : lineas.isEmpty = false := by
    cases lineas with
    | nil => exact absurd rfl hvac
    | cons _ _ => rfl
  have hpos : 0 < lineas.length := List.length_pos.mpr hvac
  by_cases hsq : Nat.sqrt lineas.length * Nat.sqrt lineas.length = lineas.length
  · by_cases h25 : 25 < lineas.length
    · refine ⟨sudokus, ?_, fun _ => rfl, fun h => absurd (Or.inr (Or.inr h25)) h⟩
      unfold procesarSudoku
      rw [hne]
      simp only [Bool.false_eq_true, if_false, ne_eq, hsq, not_true_eq_false, gt_iff_lt]
      rw [if_pos h25]
    · refine ⟨sudokus ++ [⟨etiqueta, filas, Nat.sqrt lineas.length, lineas.length⟩], ?_,
        fun h => ?_, fun _ => ⟨_, rfl, rfl, ?_, ?_, hsq.symm, rfl, ⟨?_, ?_⟩, ?_⟩⟩
      · unfold procesarSudoku
        rw [hne]
        simp only [Bool.false_eq_true, if_false, ne_eq, hsq, not_true_eq_false, gt_iff_lt]
        rw [if_neg h25, h1]
        rfl
      · rcases h with h | h | h
        · exact absurd h hvac
        · exact absurd hsq (h _)
        · exact absurd h h25
      · show 1 ≤ Nat.sqrt lineas.length
        by_contra hlt
        have h0 : Nat.sqrt lineas.length = 0 := by omega
        rw [h0] at hsq
        omega
      · show Nat.sqrt lineas.length ≤ 5
        by_contra hgt
        have h6 : 6 ≤ Nat.sqrt lineas.length := by omega
        have := Nat.mul_le_mul h6 h6
        omega
      · show filas.length = Nat.sqrt lineas.length * Nat.sqrt lineas.length
        rw [h2, hsq]
      · intro fila hfila
        show fila.length = Nat.sqrt lineas.length * Nat.sqrt lineas.length
        rw [hsq]
        obtain ⟨i, hi, rfl⟩ := List.getElem_of_mem hfila
        have hi2 : i < lineas.length := h2 ▸ hi
        obtain ⟨f, hf1, hf2⟩ := h3 i hi2
        rw [List.getElem?_eq_getElem hi, Option.some.injEq] at hf1
        subst hf1
        have hlin : lineas.getD i [] = lineas[i] := by
          simp [List.getD_eq_getElem?_getD, List.getElem?_eq_getElem hi2]
        have hlen : (lineas.getD i []).length = lineas.length * anchoSimbolo lineas.length := by
          rw [hlin]; exact hancho _ (List.getElem_mem _)
        exact parsearLinea_length _ (anchoSimbolo_pos _) _ _ _ hlen hf2
      · intro i hi
        obtain ⟨fila, hf1, hf2⟩ := h3 i hi
        exact ⟨fila, hf1, hf2⟩
  · refine ⟨sudokus, ?_, fun _ => rfl, fun h => ?_⟩
    · unfold procesarSudoku
      rw [hne]
      simp only [Bool.false_eq_true, if_false, ne_eq, hsq, not_false_eq_true, if_true]
    · exfalso
      apply h
      right; left
      intro k hk
      apply hsq
      rw [← hk, Nat.sqrt_eq]

/-- The four lines written for `tablero4`, accepted as the puzzle `tablero4` with
`n = 2`: an instance of C14 as amended. -/
theorem procesarSudoku_aceptado_witness :
    (∀ linea ∈ escribirSudoku tablero4 2,
      linea.length =
        (escribirSudoku tablero4 2).length * anchoSimbolo (escribirSudoku tablero4 2).length) ∧
    procesarSudoku [] ['S'] (escribirSudoku tablero4 2) = some [⟨['S'], tablero4, 2, 4⟩] ∧
    ∃ res, procesarSudoku [] ['S'] (escribirSudoku tablero4 2) = some res ∧
      ((escribirSudoku tablero4 2 = [] ∨ (∀ k, k * k ≠ (escribirSudoku tablero4 2).length) ∨
          25 < (escribirSudoku tablero4 2).length) → res = []) ∧
      (¬ (escribirSudoku tablero4 2 = [] ∨ (∀ k, k * k ≠ (escribirSudoku tablero4 2).length) ∨
          25 < (escribirSudoku tablero4 2).length) →
        ∃ s, res = [] ++ [s] ∧ s.etiqueta = ['S'] ∧ 1 ≤ s.n ∧ s.n ≤ 5 ∧
          s.tamano = s.n * s.n ∧ (escribirSudoku tablero4 2).length = s.tamano ∧
          EsCuadrado s.tablero (s.n * s.n) ∧
          ∀ i, i < s.tamano → ∃ fila, s.tablero[i]? = some fila ∧
            parsearLinea ((escribirSudoku tablero4 2).getD i []) (anchoSimbolo s.tamano)
              = some fila) :=
  ⟨by decide, by decide!,
    procesarSudoku_aceptado [] ['S'] (escribirSudoku tablero4 2) (by decide)⟩

/-! ## Blocks of the validator and blocks of the candidate vectors -/

/-- An index lies in the `q`-th stretch of length `n` exactly when its quotient by `n`
is `q`. -/
theorem tramo_iff (n q r : Nat) (hn : 1 ≤ n) : (q * n ≤ r ∧ r < q * n + n) ↔ r / n = q := by
  constructor
  · rintro ⟨h1, h2⟩
    apply Nat.div_eq_of_lt_le
    · exact h1
    · rw [Nat.succ_mul]; exact h2
  · intro h
    subst h
    have h1 := Nat.div_mul_le_self r n
    have h2 := @Nat.lt_div_mul_add r n (by omega)
    exact ⟨h1, h2⟩

/-- C24. For `n ≥ 1` and a cell `(r, c)` of the `n² × n²` board: `obtenerBloque(r, c)` is
`(r / n) * n + c / n`, an index of `[0, n²)`, and for every block index `b` of `[0, n²)`
the cell lies in the region that `validarEstadoInicial` scans for block `b` (rows
`(b / n) * n` to `(b / n) * n + n - 1`, columns `(b % n) * n` to `(b % n) * n + n - 1`,
the list `celdasBloque n b` of the model) exactly when `b = obtenerBloque(r, c)`. -/
theorem obtenerBloque_particion (st : Estado) (n : Nat) (hst : st.n = n) (hn : 1 ≤ n)
    (r c : Nat) (hr : r < n * n) (hc : c < n * n) :
    obtenerBloque st r c = (r / n) * n + c / n ∧
    obtenerBloque st r c < n * n ∧
    ∀ b, b < n * n →
      (((b / n) * n ≤ r ∧ r < (b / n) * n + n ∧ (b % n) * n ≤ c ∧ c < (b % n) * n + n) ↔
        b = obtenerBloque st r c) ∧
      ((r, c) ∈ celdasBloque n b ↔ b = obtenerBloque st r c) := by
  subst hst
  refine ⟨rfl, obtenerBloque_cota st.n r c hr hc, fun b hb => ⟨?_, ?_⟩⟩
  · have hcn : c / st.n < st.n := div_lt_de_cuadrado st.n c hc
    have hb2 : b = (b / st.n) * st.n + b % st.n := by
      have := Nat.div_add_mod b st.n
      rw [Nat.mul_comm] at this
      exact this.symm
    have e1 := tramo_iff st.n (b / st.n) r hn
    have e2 := tramo_iff st.n (b % st.n) c hn
    unfold obtenerBloque
    constructor
    · rintro ⟨h1, h2, h3, h4⟩
      rw [e1.mp ⟨h1, h2⟩, e2.mp ⟨h3, h4⟩]
      exact hb2
    · intro h
      have hd : b / st.n = r / st.n := by rw [h]; exact bloque_div st.n _ _ hcn
      have hm : b % st.n = c / st.n := by rw [h]; exact bloque_mod st.n _ _ hcn
      have h12 := e1.mpr hd.symm
      have h34 := e2.mpr hm.symm
      exact ⟨h12.1, h12.2, h34.1, h34.2⟩
  · rw [mem_celdasBloque st.n b hb]
    unfold obtenerBloque
    constructor
    · rintro ⟨_, _, h⟩; exact h.symm
    · intro h; exact ⟨hr, hc, h.symm⟩

/-- The cell (2, 1) of a 4 × 4 board lies in block 2 and in no other: an instance of
C24. -/
theorem obtenerBloque_particion_witness :
    ((estadoDe tablero4 2).n = 2 ∧ 1 ≤ 2 ∧ 2 < 2 * 2 ∧ 1 < 2 * 2) ∧
    (obtenerBloque (estadoDe tablero4 2) 2 1 = (2 / 2) * 2 + 1 / 2 ∧
    obtenerBloque (estadoDe tablero4 2) 2 1 < 2 * 2 ∧
    ∀ b, b < 2 * 2 →
      (((b / 2) * 2 ≤ 2 ∧ 2 < (b / 2) * 2 + 2 ∧ (b % 2) * 2 ≤ 1 ∧ 1 < (b % 2) * 2 + 2) ↔
        b = obtenerBloque (estadoDe tablero4 2) 2 1) ∧
      ((2, 1) ∈ celdasBloque 2 b ↔ b = obtenerBloque (estadoDe tablero4 2) 2 1)) :=
  ⟨by decide,
    obtenerBloque_particion (estadoDe tablero4 2) 2 (by decide) (by decide) 2 1 (by decide)
      (by decide)⟩


/-! ## What the propagation writes -/

/-- Placing a value below 26 in an empty cell of the board keeps the candidate vectors
in agreement with the grid. -/
theorem consistente_colocar (st : Estado) (hd : Dimensionado st) (hcons : Consistente st)
    (r c v : Nat) (x : Int) (hr : r < st.tamano) (hc : c < st.tamano)
    (h0 : leerCelda st.sudoku r c = 0) (hv26 : v < 26) :
    Consistente { colocarValor st r c v with celdasVacias := x } := by
  obtain ⟨hn1, hn5, hN⟩ := hd
  have hN25 : st.tamano ≤ 25 := hN ▸ cuadrado_le_25 st.n hn5
  have hr25 : r < 25 := by omega
  have hc25 : c < 25 := by omega
  have hf := leerCelda_colocarValor st r c v hr25 hc25
  intro u hu w hw
  have hu' : u < st.tamano := hu
  have hu25 : u < 25 := by omega
  obtain ⟨c1, c2, c3⟩ := hcons u hu' w hw
  have hwz : 1 ≤ w → ((w : Nat) : Int) ≠ 0 := by omega
  have hwv : ((w : Nat) : Int) = (v : Int) ↔ v = w := by omega
  refine ⟨?_, ?_, ?_⟩
  · show Bitset.test (leer 0 (colocarValor st r c v).filaCandidatos u) w = true ↔
      (1 ≤ w ∧ w ≤ st.tamano ∧
        ¬ EnFila (leerCelda (colocarValor st r c v).sudoku) st.tamano u w)
    rw [hf]
    simp only [colocarValor, leer_escribir]
    by_cases hur : r = u
    · subst hur
      simp only [hu25, and_self, if_true, Bitset.test_reset _ _ _ hv26, Bool.and_eq_true,
        c1, Bool.not_eq_true', decide_eq_false_iff_not]
      constructor
      · rintro ⟨⟨a1, a2, a3⟩, a4⟩
        refine ⟨a1, a2, ?_⟩
        rw [enFila_conValor _ _ _ _ _ _ _ hc h0 (hwz a1)]
        rintro (hh | ⟨_, hh⟩)
        · exact a3 hh
        · exact a4 (hwv.mp hh)
      · rintro ⟨a1, a2, a3⟩
        rw [enFila_conValor _ _ _ _ _ _ _ hc h0 (hwz a1)] at a3
        exact ⟨⟨a1, a2, fun hh => a3 (Or.inl hh)⟩, fun hh => a3 (Or.inr ⟨rfl, hwv.mpr hh⟩)⟩
    · simp only [hur, false_and, if_false, c1]
      constructor
      · rintro ⟨a1, a2, a3⟩
        refine ⟨a1, a2, ?_⟩
        rw [enFila_conValor _ _ _ _ _ _ _ hc h0 (hwz a1)]
        rintro (hh | ⟨hh, _⟩)
        · exact a3 hh
        · exact hur hh.symm
      · rintro ⟨a1, a2, a3⟩
        rw [enFila_conValor _ _ _ _ _ _ _ hc h0 (hwz a1)] at a3
        exact ⟨a1, a2, fun hh => a3 (Or.inl hh)⟩
  · show Bitset.test (leer 0 (colocarValor st r c v).colCandidatos u) w = true ↔
      (1 ≤ w ∧ w ≤ st.tamano ∧
        ¬ EnColumna (leerCelda (colocarValor st r c v).sudoku) st.tamano u w)
    rw [hf]
    simp only [colocarValor, leer_escribir]
    by_cases huc : c = u
    · subst huc
      simp only [hu25, and_self, if_true, Bitset.test_reset _ _ _ hv26, Bool.and_eq_true,
        c2, Bool.not_eq_true', decide_eq_false_iff_not]
      constructor
      · rintro ⟨⟨a1, a2, a3⟩, a4⟩
        refine ⟨a1, a2, ?_⟩
        rw [enColumna_conValor _ _ _ _ _ _ _ hr h0 (hwz a1)]
        rintro (hh | ⟨_, hh⟩)
        · exact a3 hh
        · exact a4 (hwv.mp hh)
      · rintro ⟨a1, a2, a3⟩
        rw [enColumna_conValor _ _ _ _ _ _ _ hr h0 (hwz a1)] at a3
        exact ⟨⟨a1, a2, fun hh => a3 (Or.inl hh)⟩, fun hh => a3 (Or.inr ⟨rfl, hwv.mpr hh⟩)⟩
    · simp only [huc, false_and, if_false, c2]
      constructor
      · rintro ⟨a1, a2, a3⟩
        refine ⟨a1, a2, ?_⟩
        rw [enColumna_conValor _ _ _ _ _ _ _ hr h0 (hwz a1)]
        rintro (hh | ⟨hh, _⟩)
        · exact a3 hh
        · exact huc hh.symm
      · rintro ⟨a1, a2, a3⟩
        rw [enColumna_conValor _ _ _ _ _ _ _ hr h0 (hwz a1)] at a3
        exact ⟨a1, a2, fun hh => a3 (Or.inl hh)⟩
  · show Bitset.test (leer 0 (colocarValor st r c v).bloqueCandidatos u) w = true ↔
      (1 ≤ w ∧ w ≤ st.tamano ∧
        ¬ EnBloque (leerCelda (colocarValor st r c v).sudoku) st.n u w)
    rw [hf]
    simp only [colocarValor, obtenerBloque, leer_escribir]
    by_cases hub : (r / st.n) * st.n + c / st.n = u
    · subst hub
      simp only [hu25, and_self, if_true, Bitset.test_reset _ _ _ hv26, Bool.and_eq_true,
        c3, Bool.not_eq_true', decide_eq_false_iff_not]
      constructor
      · rintro ⟨⟨a1, a2, a3⟩, a4⟩
        refine ⟨a1, a2, ?_⟩
        rw [enBloque_conValor _ _ _ _ _ _ _ (hN ▸ hr) (hN ▸ hc) h0 (hwz a1)]
        rintro (hh | ⟨_, hh⟩)
        · exact a3 hh
        · exact a4 (hwv.mp hh)
      · rintro ⟨a1, a2, a3⟩
        rw [enBloque_conValor _ _ _ _ _ _ _ (hN ▸ hr) (hN ▸ hc) h0 (hwz a1)] at a3
        exact ⟨⟨a1, a2, fun hh => a3 (Or.inl hh)⟩, fun hh => a3 (Or.inr ⟨rfl, hwv.mpr hh⟩)⟩
    · simp only [hub, false_and, if_false, c3]
      constructor
      · rintro ⟨a1, a2, a3⟩
        refine ⟨a1, a2, ?_⟩
        rw [enBloque_conValor _ _ _ _ _ _ _ (hN ▸ hr) (hN ▸ hc) h0 (hwz a1)]
        rintro (hh | ⟨hh, _⟩)
        · exact a3 hh
        · exact hub hh.symm
      · rintro ⟨a1, a2, a3⟩
        rw [enBloque_conValor _ _ _ _ _ _ _ (hN ▸ hr) (hN ▸ hc) h0 (hwz a1)] at a3
        exact ⟨a1, a2, fun hh => a3 (Or.inl hh)⟩

/-- With vectors that agree with the grid, the value a completed board gives to an empty
cell is one of the candidates of that cell. -/
theorem candidato_de_solucion (st : Estado) (hd : Dimensionado st) (hcons : Consistente st)
    (s : Nat → Nat → Int) (hs : Completa s st.n)
    (hp : Prolonga st.tamano (leerCelda st.sudoku) s) (r c : Nat)
    (hr : r < st.tamano) (hc : c < st.tamano) (h0 : leerCelda st.sudoku r c = 0) :
    1 ≤ (s r c).toNat ∧ (s r c).toNat ≤ st.tamano ∧ (((s r c).toNat : Nat) : Int) = s r c ∧
      Bitset.test (obtenerCandidatos st r c) (s r c).toNat = true := by
  obtain ⟨hn1, hn5, hN⟩ := hd
  obtain ⟨hs1, hs2⟩ := hs
  have hN25 : st.tamano ≤ 25 := hN ▸ cuadrado_le_25 st.n hn5
  have hrc := hs1 r (hN ▸ hr) c (hN ▸ hc)
  rw [← hN] at hrc
  have hcast : (((s r c).toNat : Nat) : Int) = s r c := by omega
  have hv1 : 1 ≤ (s r c).toNat := by omega
  have hvN : (s r c).toNat ≤ st.tamano := by omega
  have hv26 : (s r c).toNat < 26 := by omega
  have hb : (r / st.n) * st.n + c / st.n < st.tamano := by
    rw [hN]; exact obtenerBloque_cota st.n r c (hN ▸ hr) (hN ▸ hc)
  have hne : s r c ≠ 0 := by omega
  -- a cell of the grid holding the value of `s` at `(r, c)` is `(r, c)` itself or is
  -- compatible with it
  have hcomp : ∀ i j, i < st.tamano → j < st.tamano → leerCelda st.sudoku i j = s r c →
      Compatibles st.n r c i j := by
    intro i j hi hj hij
    have hz : leerCelda st.sudoku i j ≠ 0 := by rw [hij]; exact hne
    have e := hp i hi j hj hz
    exact hs2 r (hN ▸ hr) c (hN ▸ hc) i (hN ▸ hi) j (hN ▸ hj) hne (by rw [e, hij])
  refine ⟨hv1, hvN, hcast, ?_⟩
  rw [test_obtenerCandidatos]
  refine ⟨((hcons r hr _ hv26).1).mpr ⟨hv1, hvN, ?_⟩,
    ((hcons c hc _ hv26).2.1).mpr ⟨hv1, hvN, ?_⟩,
    ((hcons _ hb _ hv26).2.2).mpr ⟨hv1, hvN, ?_⟩⟩
  · rintro ⟨j, hj, hv⟩
    rw [hcast] at hv
    rcases hcomp r j hr hj hv with hh | hh
    · rw [← hh.2, h0] at hv; exact hne hv.symm
    · exact hh.1 rfl
  · rintro ⟨i, hi, hv⟩
    rw [hcast] at hv
    rcases hcomp i c hi hc hv with hh | hh
    · rw [← hh.1, h0] at hv; exact hne hv.symm
    · exact hh.2.1 rfl
  · rintro ⟨i, hi, j, hj, hblk, hv⟩
    rw [hcast] at hv
    rcases hcomp i j (hN ▸ hi) (hN ▸ hj) hv with hh | hh
    · rw [← hh.1, ← hh.2, h0] at hv; exact hne hv.symm
    · exact hh.2.2 ((bloque_eq_iff st.n r c i j (hN ▸ hc) hj).mp hblk.symm)


/-- A vector with exactly one bit set: that bit is the only one. -/
theorem unico_de_cuenta (b : Bitset) (v : Nat) (hc : Bitset.count b = 1) (hv : v < 26)
    (ht : Bitset.test b v = true) :
    ∀ u, u < 26 → (Bitset.test b u = true ↔ u = v) := by
  unfold Bitset.count at hc
  rw [List.countP_eq_length_filter] at hc
  obtain ⟨a, ha⟩ := List.length_eq_one.mp hc
  have hmem : ∀ k, k < 26 → Bitset.test b k = true → k = a := by
    intro k hk hkt
    have : k ∈ (List.range 26).filter (fun k => Bitset.test b k) := by
      rw [List.mem_filter, List.mem_range]; exact ⟨hk, hkt⟩
    rw [ha] at this
    exact List.mem_singleton.mp this
  intro u hu
  constructor
  · intro h; rw [hmem u hu h, hmem v hv ht]
  · intro h; rw [h]; exact ht

/-- The value found by the inner loop of the propagation is a set bit of `1..tamano`. -/
theorem primerCandidato_spec (b : Bitset) (N v : Nat) (h : primerCandidato b N = some v) :
    1 ≤ v ∧ v ≤ N ∧ Bitset.test b v = true := by
  unfold primerCandidato at h
  have h1 := List.mem_of_find?_eq_some h
  have h2 := List.find?_some h
  rw [List.mem_range'_1] at h1
  exact ⟨h1.1, by omega, h2⟩

/-- A grid that keeps the filled cells of another has no more empty cells, and the cells
filled in between make the difference. -/
theorem celdasLlenadas_add (f g : Nat → Nat → Int) (N : Nat) (hp : Prolonga N f g) :
    celdasLlenadas f g N + cerosDe g N = cerosDe f N := by
  unfold celdasLlenadas cerosDe
  have hgen : ∀ l : List (Nat × Nat), (∀ p ∈ l, p.1 < N ∧ p.2 < N) →
      l.countP (fun p => decide (f p.1 p.2 = 0 ∧ g p.1 p.2 ≠ 0)) +
        l.countP (fun p => decide (g p.1 p.2 = 0)) =
      l.countP (fun p => decide (f p.1 p.2 = 0)) := by
    intro l
    induction l with
    | nil => intro _; rfl
    | cons p resto ih =>
      intro h
      have hp1 := h p (List.mem_cons_self _ _)
      have ih2 := ih (fun q hq => h q (List.mem_cons_of_mem _ hq))
      have hpq := hp p.1 hp1.1 p.2 hp1.2
      simp only [List.countP_cons, ne_eq] at ih2 ⊢
      by_cases hf : f p.1 p.2 = 0
      · by_cases hg : g p.1 p.2 = 0
        · simp only [hf, hg, ne_eq, not_true_eq_false, and_false, decide_False,
            Bool.false_eq_true, if_false, decide_True, if_true]
          omega
        · simp only [hf, hg, ne_eq, not_false_eq_true, and_self, decide_True, if_true,
            decide_False, Bool.false_eq_true, if_false]
          omega
      · have hg : g p.1 p.2 ≠ 0 := by rw [hpq hf]; exact hf
        simp only [hf, hg, false_and, decide_False, Bool.false_eq_true, if_false]
        omega
  exact hgen (celdas N) (fun p hp => (mem_celdas N p).mp hp)

/-- What one write of the propagation does to the state. -/
theorem colocaUnico_marco (st st2 : Estado) (h25 : st.tamano ≤ 25) (h : ColocaUnico st st2) :
    Sucede st st2 ∧ st2.nodosExplorados = st.nodosExplorados ∧
      st2.celdasVacias = st.celdasVacias - 1 ∧
      cerosDe (leerCelda st2.sudoku) st.tamano + 1 = cerosDe (leerCelda st.sudoku) st.tamano ∧
      (VectoresEnRango st → VectoresEnRango st2) := by
  obtain ⟨i, j, v, hi, hj, h0, hv1, _, _, rfl⟩ := h
  refine ⟨sucede_colocar st i j v _ (by omega) (by omega) h0, rfl, rfl, ?_,
    fun hve => vectoresEnRango_colocar st hve i j v _⟩
  show cerosDe (leerCelda (colocarValor st i j v).sudoku) st.tamano + 1 = _
  rw [leerCelda_colocarValor st i j v (by omega) (by omega)]
  exact cerosDe_conValor _ _ _ _ _ hi hj h0 (by omega)

/-- What a sequence of writes of the propagation does to the state: sizes and node
counter are kept, filled cells keep their value, `celdasVacias` and the number of empty
cells decrease by the same amount, and vectors in range stay in range. -/
theorem cadena_marco (st st2 : Estado) (h25 : st.tamano ≤ 25)
    (h : Relation.ReflTransGen ColocaUnico st st2) :
    Sucede st st2 ∧ st2.nodosExplorados = st.nodosExplorados ∧
      st2.celdasVacias + (cerosDe (leerCelda st.sudoku) st.tamano : Nat) =
        st.celdasVacias + (cerosDe (leerCelda st2.sudoku) st.tamano : Nat) ∧
      cerosDe (leerCelda st2.sudoku) st.tamano ≤ cerosDe (leerCelda st.sudoku) st.tamano ∧
      (VectoresEnRango st → VectoresEnRango st2) := by
  induction h with
  | refl => exact ⟨⟨rfl, rfl, fun _ _ _ _ _ => rfl⟩, rfl, rfl, Nat.le_refl _, fun h => h⟩
  | @tail b c _ hstep ih =>
    obtain ⟨hs, hn, hcv, hle, hve⟩ := ih
    have hb25 : b.tamano ≤ 25 := by rw [hs.2.1]; exact h25
    obtain ⟨hs2, hn2, hcv2, hc2, hve2⟩ := colocaUnico_marco b c hb25 hstep
    rw [hs.2.1] at hc2
    refine ⟨sucede_trans st b c hs hs2, by rw [hn2, hn], ?_, by omega, fun h => hve2 (hve h)⟩
    rw [hcv2]
    omega

/-- Along the writes of the propagation, from a state of known sizes whose vectors agree
with the grid: the vectors keep agreeing with the grid, and every completed board that
prolongs the grid at the start prolongs the grid at the end. -/
theorem cadena_consistente (st st2 : Estado) (hd : Dimensionado st) (hc : Consistente st)
    (h : Relation.ReflTransGen ColocaUnico st st2) :
    Dimensionado st2 ∧ Consistente st2 ∧
      ∀ s, Completa s st.n → Prolonga st.tamano (leerCelda st.sudoku) s →
        Prolonga st.tamano (leerCelda st2.sudoku) s := by
  induction h with
  | refl => exact ⟨hd, hc, fun _ _ hp => hp⟩
  | @tail b c hprev hstep ih =>
    obtain ⟨hdb, hcb, hsol⟩ := ih
    obtain ⟨i, j, v, hi, hj, h0, hv1, hvN, huni, rfl⟩ := hstep
    have hb25 : b.tamano ≤ 25 := hdb.2.2 ▸ cuadrado_le_25 b.n hdb.2.1
    have hm := (cadena_marco st b (hd.2.2 ▸ cuadrado_le_25 st.n hd.2.1) hprev).1
    refine ⟨hdb, consistente_colocar b hdb hcb i j v _ hi hj h0 (by omega), ?_⟩
    intro s hs hp
    have hpb := hsol s hs hp
    rw [← hm.2.1] at hpb ⊢
    rw [← hm.1] at hs
    obtain ⟨_, _, hcast, hcand⟩ := candidato_de_solucion b hdb hcb s hs hpb i j hi hj h0
    have hsv : (s i j).toNat = v := (huni _ (by omega) ).mp hcand
    show Prolonga b.tamano (leerCelda (colocarValor b i j v).sudoku) s
    rw [leerCelda_colocarValor b i j v (by omega) (by omega)]
    exact prolonga_conValor _ _ _ _ _ _ hpb (by rw [← hcast, hsv])

/-- A scan of the propagation over cells of the board is a sequence of writes, each of
the only candidate of an empty cell. -/
theorem propagarPasada_cadena (cs : List (Nat × Nat)) :
    ∀ (st : Estado) (c0 : Bool), st.tamano ≤ 25 →
      (∀ p ∈ cs, p.1 < st.tamano ∧ p.2 < st.tamano) →
      Relation.ReflTransGen ColocaUnico st (propagarPasada cs st c0).estado := by
  induction cs with
  | nil => intro st c0 _ _; exact Relation.ReflTransGen.refl
  | cons p resto ih =>
    intro st c0 h25 hcs
    have hp := hcs p (List.mem_cons_self _ _)
    have hr := fun q hq => hcs q (List.mem_cons_of_mem _ hq)
    rw [propagarPasada_cons]
    by_cases hv : EsVacia st p
    · rw [if_pos hv]
      by_cases h0 : cuentaDe st p = 0
      · rw [if_pos h0]; exact Relation.ReflTransGen.refl
      · rw [if_neg h0]
        by_cases h1 : cuentaDe st p = 1
        · rw [if_pos h1]
          cases hpc : primerCandidato (obtenerCandidatos st p.1 p.2) st.tamano with
          | none => exact ih st c0 h25 hr
          | some v =>
            obtain ⟨hv1, hvN, hvt⟩ := primerCandidato_spec _ _ _ hpc
            have hstep : ColocaUnico st
                { colocarValor st p.1 p.2 v with celdasVacias := st.celdasVacias - 1 } :=
              ⟨p.1, p.2, v, hp.1, hp.2, hv, hv1, hvN,
                unico_de_cuenta _ v h1 (by omega) hvt, rfl⟩
            exact Relation.ReflTransGen.head hstep (ih _ true h25 hr)
        · rw [if_neg h1]; exact ih st c0 h25 hr
    · rw [if_neg hv]; exact ih st c0 h25 hr

/-- The loop of the propagation is a sequence of such writes. -/
theorem propagarBucle_cadena (k : Nat) :
    ∀ (st : Estado), st.tamano ≤ 25 →
      Relation.ReflTransGen ColocaUnico st (propagarBucle k st).2 := by
  induction k with
  | zero => intro st _; exact Relation.ReflTransGen.refl
  | succ k ih =>
    intro st h25
    have h1 := propagarPasada_cadena (celdas st.tamano) st false h25
      (fun p hp => (mem_celdas _ p).mp hp)
    show Relation.ReflTransGen ColocaUnico st
      (match propagarPasada (celdas st.tamano) st false with
        | Pasada.fallo st1 => (false, st1)
        | Pasada.fin st1 cambios => if cambios then propagarBucle k st1 else (true, st1)).2
    cases hpas : propagarPasada (celdas st.tamano) st false with
    | fallo st1 => rw [hpas] at h1; exact h1
    | fin st1 cambios =>
      rw [hpas] at h1
      have h1' : Relation.ReflTransGen ColocaUnico st st1 := h1
      cases cambios with
      | false => exact h1'
      | true =>
        have ht := (cadena_marco st st1 h25 h1').1.2.1
        exact h1'.trans (ih st1 (by rw [ht]; exact h25))

/-- The propagation is a sequence of writes, each of the only candidate of an empty cell
of the board. -/
theorem propagarRestricciones_cadena (st : Estado) (h25 : st.tamano ≤ 25) :
    Relation.ReflTransGen ColocaUnico st (propagarRestricciones st).2 := by
  unfold propagarRestricciones
  split
  · exact Relation.ReflTransGen.refl
  · exact propagarBucle_cadena 10 st h25


/-- C26. For a solver state of known sizes with `tamano > 9` whose candidate vectors
agree with the grid, `propagarRestricciones` (whatever it returns) is a sequence of
writes, each of which puts in an empty cell of the board the symbol that is the only
candidate of that cell in the state of that moment and decrements `celdasVacias`. Hence
every cell that was filled keeps its value, `celdasVacias` decreases by exactly the
number of cells filled by the call, the vectors still agree with the grid, and every
completed board that prolongs the grid before the call prolongs the grid after it. -/
theorem propagarRestricciones_unicos (st : Estado) (_h9 : 9 < st.tamano)
    (hd : Dimensionado st) (hc : Consistente st) :
    Relation.ReflTransGen ColocaUnico st (propagarRestricciones st).2 ∧
    (∀ i, i < st.tamano → ∀ j, j < st.tamano → leerCelda st.sudoku i j ≠ 0 →
      leerCelda (propagarRestricciones st).2.sudoku i j = leerCelda st.sudoku i j) ∧
    (propagarRestricciones st).2.celdasVacias =
      st.celdasVacias -
        (celdasLlenadas (leerCelda st.sudoku)
          (leerCelda (propagarRestricciones st).2.sudoku) st.tamano : Nat) ∧
    Consistente (propagarRestricciones st).2 ∧
    ∀ s, Completa s st.n → Prolonga st.tamano (leerCelda st.sudoku) s →
      Prolonga st.tamano (leerCelda (propagarRestricciones st).2.sudoku) s := by
  have h25 : st.tamano ≤ 25 := hd.2.2 ▸ cuadrado_le_25 st.n hd.2.1
  have hcad := propagarRestricciones_cadena st h25
  obtain ⟨hs, _, hcv, _, _⟩ := cadena_marco st _ h25 hcad
  obtain ⟨_, hcons, hsol⟩ := cadena_consistente st _ hd hc hcad
  have hll := celdasLlenadas_add _ _ st.tamano hs.2.2
  refine ⟨hcad, hs.2.2, ?_, hcons, hsol⟩
  omega

/-! ## The search returns, for every size: termination and frame -/

/-- A grid that keeps the filled cells of another has no more empty cells. -/
theorem cerosDe_prolonga (f g : Nat → Nat → Int) (N : Nat) (hp : Prolonga N f g) :
    cerosDe g N ≤ cerosDe f N := by
  have := celdasLlenadas_add f g N hp
  omega

/-- Emptying a filled cell of the board raises the number of empty cells by one. -/
theorem cerosDe_vaciar (f : Nat → Nat → Int) (N r c : Nat) (hr : r < N) (hc : c < N)
    (hv : f r c ≠ 0) : cerosDe (conValor f r c 0) N = cerosDe f N + 1 := by
  have h0 : conValor f r c 0 r c = 0 := by simp [conValor]
  have h := cerosDe_conValor (conValor f r c 0) N r c (f r c) hr hc h0 hv
  have he : conValor (conValor f r c 0) r c (f r c) = f := by
    funext i j
    unfold conValor
    by_cases hij : i = r ∧ j = c
    · obtain ⟨rfl, rfl⟩ := hij; simp
    · simp [hij]
  rw [he] at h
  exact h.symm

/-- The writes of the propagation keep the counter invariant. -/
theorem contado_cadena (st st2 : Estado) (hc : Contado st)
    (h : Relation.ReflTransGen ColocaUnico st st2) :
    Sucede st st2 ∧ Contado st2 ∧ (VectoresEnRango st → VectoresEnRango st2) := by
  obtain ⟨hs, _, hcv, _, hve⟩ := cadena_marco st st2 hc.1 h
  refine ⟨hs, ⟨by rw [hs.2.1]; exact hc.1, ?_⟩, hve⟩
  rw [hs.2.1]
  have := hc.2
  omega

/-- The periodic propagation keeps the counter invariant and the filled cells. -/
theorem propagacionPeriodica_marco (st : Estado) (hc : Contado st) :
    Sucede st (propagacionPeriodica st).2 ∧ Contado (propagacionPeriodica st).2 ∧
      (VectoresEnRango st → VectoresEnRango (propagacionPeriodica st).2) := by
  unfold propagacionPeriodica
  split
  · exact contado_cadena st _ hc (propagarRestricciones_cadena st hc.1)
  · exact contado_cadena st _ hc Relation.ReflTransGen.refl

/-- Reading a vector of a state with vectors in range, at any index. -/
theorem vectoresEnRango_leer (st : Estado) (hve : VectoresEnRango st) (u k : Nat)
    (hk : k < 26) :
    (Bitset.test (leer 0 st.filaCandidatos u) k = true → 1 ≤ k ∧ k ≤ st.tamano) ∧
    (Bitset.test (leer 0 st.colCandidatos u) k = true → 1 ≤ k ∧ k ≤ st.tamano) ∧
    (Bitset.test (leer 0 st.bloqueCandidatos u) k = true → 1 ≤ k ∧ k ≤ st.tamano) := by
  by_cases hu : u < 25
  · exact ⟨fun h => hve u hu k hk (Or.inl h), fun h => hve u hu k hk (Or.inr (Or.inl h)),
      fun h => hve u hu k hk (Or.inr (Or.inr h))⟩
  · refine ⟨fun h => ?_, fun h => ?_, fun h => ?_⟩ <;>
      simp [leer, hu, Bitset.test] at h

/-- Undoing a trial, with a symbol of `1..tamano` and backups taken from a state with
vectors in range, leaves vectors in range. -/
theorem vectoresEnRango_restaurar (st st1 : Estado) (r c v : Nat)
    (hve : VectoresEnRango st) (hve1 : VectoresEnRango st1) (ht : st1.tamano = st.tamano)
    (hv1 : 1 ≤ v) (hvN : v ≤ st.tamano) (hv26 : v < 26) :
    VectoresEnRango
      (restaurar st1 r c v (obtenerBloque st r c) (leer 0 st.filaCandidatos r)
        (leer 0 st.colCandidatos c) (leer 0 st.bloqueCandidatos (obtenerBloque st r c))) := by
  intro u hu k hk h
  show 1 ≤ k ∧ k ≤ st1.tamano
  rw [ht]
  have hb := vectoresEnRango_leer st hve
  have h1 := vectoresEnRango_leer st1 hve1 u k hk
  rw [ht] at h1
  have hset : ∀ b : Bitset, (Bitset.test b k = true → 1 ≤ k ∧ k ≤ st.tamano) →
      Bitset.test (Bitset.set b v) k = true → 1 ≤ k ∧ k ≤ st.tamano := by
    intro b hb2 hs
    rw [Bitset.test_set _ _ _ hv26] at hs
    simp only [Bool.or_eq_true, decide_eq_true_eq] at hs
    rcases hs with hs | hs
    · exact hb2 hs
    · omega
  simp only [restaurar, quitarValor, leer_escribir] at h
  rcases h with h | h | h
  · split at h
    · exact (hb r k hk).1 h
    · exact h1.1 h
  · split at h
    · exact (hb c k hk).2.1 h
    · exact h1.2.1 h
  · split at h
    · exact (hb _ k hk).2.2 h
    · split at h
      · have h2 := (vectoresEnRango_leer st1 hve1 (obtenerBloque st1 r c) k hk).2.2
        rw [ht] at h2
        exact hset _ h2 h
      · exact h1.2.2 h

/-- Undoing a trial on a filled cell of the board: the cell is emptied, nothing else of
the grid changes, and the counter invariant is kept. -/
theorem restaurar_marco (st1 : Estado) (r c v bloque : Nat) (fb cb bb : Bitset)
    (hc1 : Contado st1) (hr : r < st1.tamano) (hc : c < st1.tamano)
    (hv : leerCelda st1.sudoku r c ≠ 0) :
    (restaurar st1 r c v bloque fb cb bb).n = st1.n ∧
    (restaurar st1 r c v bloque fb cb bb).tamano = st1.tamano ∧
    leerCelda (restaurar st1 r c v bloque fb cb bb).sudoku =
      conValor (leerCelda st1.sudoku) r c 0 ∧
    Contado (restaurar st1 r c v bloque fb cb bb) := by
  have h25 := hc1.1
  have hl : leerCelda (restaurar st1 r c v bloque fb cb bb).sudoku =
      conValor (leerCelda st1.sudoku) r c 0 :=
    leerCelda_colocarValor st1 r c 0 (by omega) (by omega)
  refine ⟨rfl, rfl, hl, h25, ?_⟩
  show st1.celdasVacias + 1 =
    (cerosDe (leerCelda (restaurar st1 r c v bloque fb cb bb).sudoku) st1.tamano : Nat)
  rw [hl, cerosDe_vaciar _ _ _ _ hr hc hv, hc1.2]
  push_cast
  rfl


/-- The trial loop returns when the recursive call returns on every state with at most
`k` empty cells; filled cells keep their value, and the counter invariant and the range
of the vectors are kept. -/
theorem probar_termina (recursion : Estado → Option (Bool × Estado)) (k r c : Nat)
    (cand : Bitset)
    (hrec : ∀ s, Contado s → cerosDe (leerCelda s.sudoku) s.tamano ≤ k →
      ∃ b s2, recursion s = some (b, s2) ∧ Sucede s s2 ∧ Contado s2 ∧
        (VectoresEnRango s → VectoresEnRango s2))
    (vs : List Nat) :
    ∀ (st : Estado), Contado st → cerosDe (leerCelda st.sudoku) st.tamano ≤ k + 1 →
      r < st.tamano → c < st.tamano → leerCelda st.sudoku r c = 0 →
      (∀ v ∈ vs, 1 ≤ v ∧ v ≤ st.tamano) →
      ∃ b st2, probar recursion r c cand vs st = some (b, st2) ∧ Sucede st st2 ∧
        Contado st2 ∧ (VectoresEnRango st → VectoresEnRango st2) := by
  induction vs with
  | nil =>
    intro st hcont _ _ _ _ _
    exact ⟨false, st, rfl, ⟨rfl, rfl, fun _ _ _ _ _ => rfl⟩, hcont, fun h => h⟩
  | cons v vs ih =>
    intro st hcont hk hr hc h0 hvs
    have hv := hvs v (List.mem_cons_self _ _)
    have hvs2 : ∀ w ∈ vs, 1 ≤ w ∧ w ≤ st.tamano :=
      fun w hw => hvs w (List.mem_cons_of_mem _ hw)
    have h25 := hcont.1
    simp only [probar]
    by_cases ht : Bitset.test cand v = true
    · rw [if_pos ht]
      -- the state handed to the recursive call has one empty cell less
      have hl := leerCelda_colocarValor st r c v (by omega) (by omega)
      have hz := cerosDe_conValor (leerCelda st.sudoku) st.tamano r c (v : Int) hr hc h0
        (by omega)
      have hcont1 : Contado { colocarValor st r c v with celdasVacias := st.celdasVacias - 1 } := by
        refine ⟨h25, ?_⟩
        show st.celdasVacias - 1 =
          (cerosDe (leerCelda (colocarValor st r c v).sudoku) st.tamano : Nat)
        rw [hl, hcont.2]
        omega
      have hk1 : cerosDe
          (leerCelda { colocarValor st r c v with celdasVacias := st.celdasVacias - 1 }.sudoku)
          { colocarValor st r c v with celdasVacias := st.celdasVacias - 1 }.tamano ≤ k := by
        show cerosDe (leerCelda (colocarValor st r c v).sudoku) st.tamano ≤ k
        rw [hl]; omega
      have hs1 := sucede_colocar st r c v (st.celdasVacias - 1) (by omega) (by omega) h0
      obtain ⟨b1, s2, hrc, hs2, hcont2, hve2⟩ := hrec _ hcont1 hk1
      rw [hrc]
      cases b1 with
      | true =>
        exact ⟨true, s2, rfl, sucede_trans _ _ _ hs1 hs2, hcont2,
          fun h => hve2 (vectoresEnRango_colocar st h r c v _)⟩
      | false =>
        simp only
        -- the cell still holds the trial value when the call comes back
        have ht2 : s2.tamano = st.tamano := hs2.2.1
        have hcel : leerCelda s2.sudoku r c = (v : Int) := by
          have := hs2.2.2 r hr c hc (by
            show leerCelda (colocarValor st r c v).sudoku r c ≠ 0
            rw [hl]; simp [conValor]; omega)
          rw [this]
          show leerCelda (colocarValor st r c v).sudoku r c = (v : Int)
          rw [hl]; simp [conValor]
        obtain ⟨hrn, hrt, hrl, hrcont⟩ := restaurar_marco s2 r c v (obtenerBloque st r c)
          (leer 0 st.filaCandidatos r) (leer 0 st.colCandidatos c)
          (leer 0 st.bloqueCandidatos (obtenerBloque st r c)) hcont2 (ht2 ▸ hr) (ht2 ▸ hc)
          (by rw [hcel]; omega)
        generalize hres : restaurar s2 r c v (obtenerBloque st r c)
          (leer 0 st.filaCandidatos r) (leer 0 st.colCandidatos c)
          (leer 0 st.bloqueCandidatos (obtenerBloque st r c)) = sr at hrn hrt hrl hrcont
        have hsr : Sucede st sr := by
          refine ⟨by rw [hrn]; exact hs2.1, by rw [hrt]; exact ht2, ?_⟩
          intro i hi j hj hne
          have hij : ¬ (i = r ∧ j = c) := by
            rintro ⟨rfl, rfl⟩; exact hne h0
          rw [hrl]
          have e1 : leerCelda s2.sudoku i j = leerCelda st.sudoku i j := by
            have e2 : leerCelda (colocarValor st r c v).sudoku i j = leerCelda st.sudoku i j := by
              rw [hl]; simp [conValor, hij]
            rw [← e2]
            exact hs2.2.2 i hi j hj (by rw [e2]; exact hne)
          simp [conValor, hij, e1]
        have hkr : cerosDe (leerCelda sr.sudoku) sr.tamano ≤ k + 1 := by
          rw [hrt, ht2]
          exact Nat.le_trans (cerosDe_prolonga _ _ _ hsr.2.2) hk
        have h0r : leerCelda sr.sudoku r c = 0 := by rw [hrl]; simp [conValor]
        obtain ⟨b, st2, hp, hs3, hcont3, hve3⟩ := ih sr hrcont hkr
          (by rw [hrt, ht2]; exact hr) (by rw [hrt, ht2]; exact hc) h0r
          (by rw [hrt, ht2]; exact hvs2)
        refine ⟨b, st2, hp, sucede_trans _ _ _ hsr hs3, hcont3, fun h => hve3 ?_⟩
        rw [← hres]
        exact vectoresEnRango_restaurar st s2 r c v h
          (hve2 (vectoresEnRango_colocar st h r c v _)) ht2 hv.1 hv.2 (by omega)
    · rw [if_neg ht]
      exact ih st hcont hk hr hc h0 hvs2

/-- The search returns with a fuel above the number of empty cells, for every size of
board; filled cells keep their value, and the counter invariant and the range of the
vectors are kept. -/
theorem resolverBacktracking_termina_aux (k : Nat) :
    ∀ (st : Estado), Contado st → cerosDe (leerCelda st.sudoku) st.tamano ≤ k →
      ∃ b st2, resolverBacktracking (k + 1) st = some (b, st2) ∧ Sucede st st2 ∧
        Contado st2 ∧ (VectoresEnRango st → VectoresEnRango st2) := by
  induction k with
  | zero =>
    intro st hcont hk
    have hcont1 : Contado { st with nodosExplorados := st.nodosExplorados + 1 } := hcont
    obtain ⟨hs, hc2, hve⟩ := propagacionPeriodica_marco _ hcont1
    simp only [resolverBacktracking]
    generalize propagacionPeriodica { st with nodosExplorados := st.nodosExplorados + 1 } = pp
      at hs hc2 hve
    match pp with
    | (false, s1) => exact ⟨false, s1, rfl, hs, hc2, hve⟩
    | (true, s1) =>
      simp only at hs hc2 hve ⊢
      have hle := cerosDe_prolonga _ _ _ hs.2.2
      have hcv : s1.celdasVacias = 0 := by
        have h1 := hc2.2
        have h2 : s1.tamano = st.tamano := hs.2.1
        rw [h2] at h1
        have h3 : cerosDe (leerCelda st.sudoku) st.tamano ≤ 0 := hk
        have h4 : cerosDe (leerCelda s1.sudoku) st.tamano ≤
            cerosDe (leerCelda st.sudoku) st.tamano := hle
        omega
      rw [if_pos hcv]
      exact ⟨true, s1, rfl, hs, hc2, hve⟩
  | succ k ih =>
    intro st hcont hk
    have hcont1 : Contado { st with nodosExplorados := st.nodosExplorados + 1 } := hcont
    obtain ⟨hs, hc2, hve⟩ := propagacionPeriodica_marco _ hcont1
    simp only [resolverBacktracking]
    generalize propagacionPeriodica { st with nodosExplorados := st.nodosExplorados + 1 } = pp
      at hs hc2 hve
    match pp with
    | (false, s1) => exact ⟨false, s1, rfl, hs, hc2, hve⟩
    | (true, s1) =>
      simp only at hs hc2 hve ⊢
      have hle : cerosDe (leerCelda s1.sudoku) st.tamano ≤
          cerosDe (leerCelda st.sudoku) st.tamano := cerosDe_prolonga _ _ _ hs.2.2
      have ht1 : s1.tamano = st.tamano := hs.2.1
      by_cases hcv : s1.celdasVacias = 0
      · rw [if_pos hcv]
        exact ⟨true, s1, rfl, hs, hc2, hve⟩
      · rw [if_neg hcv]
        have hspec := buscarMRV_spec s1 (celdas s1.tamano) none (s1.tamano + 1)
        cases hsel : buscarMRV s1 (celdas s1.tamano) none (s1.tamano + 1) with
        | muerto => exact ⟨false, s1, rfl, hs, hc2, hve⟩
        | elegida mejor =>
          cases mejor with
          | none => exact ⟨_, s1, rfl, hs, hc2, hve⟩
          | some q =>
            obtain ⟨r, c⟩ := q
            simp only
            rcases hspec.2.1 (r, c) hsel with hq | ⟨hq, hq0⟩
            · exact absurd hq (by simp)
            · rw [mem_celdas] at hq
              obtain ⟨b, st2, hp, hs3, hc3, hve3⟩ :=
                probar_termina (resolverBacktracking (k + 1)) k r c
                  (obtenerCandidatos s1 r c) ih (List.range' 1 s1.tamano) s1 hc2
                  (by rw [ht1]; omega) hq.1 hq.2 hq0
                  (fun v hv => by rw [List.mem_range'_1] at hv; omega)
              exact ⟨b, st2, hp, sucede_trans _ _ _ hs hs3, hc3, fun h => hve3 (hve h)⟩

/-- The search returns for every fuel above the number of empty cells, always with the
same result. -/
theorem resolverBacktracking_termina (st : Estado) (hc : Contado st) :
    ∃ b st2, (∀ fuel, cerosDe (leerCelda st.sudoku) st.tamano < fuel →
        resolverBacktracking fuel st = some (b, st2)) ∧
      Sucede st st2 ∧ Contado st2 ∧ (VectoresEnRango st → VectoresEnRango st2) := by
  obtain ⟨b, st2, h1, h2, h3, h4⟩ :=
    resolverBacktracking_termina_aux (cerosDe (leerCelda st.sudoku) st.tamano) st hc
      (Nat.le_refl _)
  exact ⟨b, st2, fun fuel hf => resolverBacktracking_mono _ fuel st (b, st2) hf h1, h2, h3, h4⟩


/-! ## The cell-selection scan: dead branches and the fallback -/

/-- The dead-branch condition on a list of cells, by its first cell. -/
theorem muertaEn_cons (st : Estado) (p : Nat × Nat) (resto : List (Nat × Nat)) :
    MuertaEn st (p :: resto) ↔
      ((EsVacia st p ∧ cuentaDe st p = 0) ∨
        ((EsVacia st p → cuentaDe st p ≠ 1) ∧ MuertaEn st resto)) := by
  constructor
  · rintro ⟨antes, x, despues, hcs, hx, hx0, hant⟩
    cases antes with
    | nil =>
      simp only [List.nil_append, List.cons.injEq] at hcs
      obtain ⟨rfl, _⟩ := hcs
      exact Or.inl ⟨hx, hx0⟩
    | cons q antes2 =>
      simp only [List.cons_append, List.cons.injEq] at hcs
      obtain ⟨rfl, hr⟩ := hcs
      exact Or.inr ⟨hant p (List.mem_cons_self _ _),
        antes2, x, despues, hr, hx, hx0, fun y hy => hant y (List.mem_cons_of_mem _ hy)⟩
  · rintro (⟨h1, h2⟩ | ⟨h1, antes, x, despues, hcs, hx, hx0, hant⟩)
    · exact ⟨[], p, resto, rfl, h1, h2, fun _ hq => absurd hq (List.not_mem_nil _)⟩
    · refine ⟨p :: antes, x, despues, by rw [hcs]; rfl, hx, hx0, ?_⟩
      intro y hy
      rcases List.mem_cons.mp hy with rfl | hy
      · exact h1
      · exact hant y hy

/-- The scan returns false at once exactly on the dead-branch condition. -/
theorem buscarMRV_muerto_iff (st : Estado) (cs : List (Nat × Nat)) :
    ∀ (mejor : Option (Nat × Nat)) (minC : Nat), 2 ≤ minC →
      (buscarMRV st cs mejor minC = Seleccion.muerto ↔ MuertaEn st cs) := by
  induction cs with
  | nil =>
    intro mejor minC _
    constructor
    · intro h; simp [buscarMRV] at h
    · rintro ⟨antes, x, despues, hcs, _⟩
      exact absurd hcs (by simp)
  | cons p resto ih =>
    intro mejor minC hmin
    rw [buscarMRV_cons, muertaEn_cons]
    by_cases hv : EsVacia st p
    · rw [if_pos hv]
      by_cases h0 : cuentaDe st p = 0
      · rw [if_pos h0]; simp [hv, h0]
      · rw [if_neg h0]
        by_cases hlt : cuentaDe st p < minC
        · rw [if_pos hlt]
          by_cases h1 : cuentaDe st p = 1
          · rw [if_pos h1]; simp [hv, h0, h1]
          · rw [if_neg h1, ih _ _ (by omega)]; simp [hv, h0, h1]
        · rw [if_neg hlt, ih _ _ hmin]
          have h1 : cuentaDe st p ≠ 1 := by omega
          simp [hv, h0, h1]
    · rw [if_neg hv, ih _ _ hmin]; simp [hv]

/-- The scan stops at the first empty cell with exactly one candidate when no empty cell
before it has none or one, whatever comes after it. -/
theorem buscarMRV_hasta_unica (st : Estado) (x : Nat × Nat) (despues : List (Nat × Nat))
    (hx : EsVacia st x) (hx1 : cuentaDe st x = 1) (antes : List (Nat × Nat)) :
    ∀ (mejor : Option (Nat × Nat)) (minC : Nat), 2 ≤ minC →
      (∀ p ∈ antes, EsVacia st p → 2 ≤ cuentaDe st p) →
      buscarMRV st (antes ++ x :: despues) mejor minC = Seleccion.elegida (some x) := by
  induction antes with
  | nil =>
    intro mejor minC hmin _
    rw [List.nil_append, buscarMRV_cons, if_pos hx, if_neg (by omega), if_pos (by omega),
      if_pos hx1]
  | cons p resto ih =>
    intro mejor minC hmin hant
    have hp := hant p (List.mem_cons_self _ _)
    have hr := fun q hq => hant q (List.mem_cons_of_mem _ hq)
    rw [List.cons_append, buscarMRV_cons]
    by_cases hv : EsVacia st p
    · have h2 := hp hv
      rw [if_pos hv, if_neg (by omega)]
      by_cases hlt : cuentaDe st p < minC
      · rw [if_pos hlt, if_neg (by omega)]; exact ih _ _ h2 hr
      · rw [if_neg hlt]; exact ih _ _ hmin hr
    · rw [if_neg hv]; exact ih _ _ hmin hr

/-- A cell selected by the scan is the cell the scan came with, or an empty scanned cell
that has a candidate. -/
theorem buscarMRV_elegida (st : Estado) (cs : List (Nat × Nat)) :
    ∀ (mejor : Option (Nat × Nat)) (minC : Nat) (q : Nat × Nat),
      buscarMRV st cs mejor minC = Seleccion.elegida (some q) →
      mejor = some q ∨ (q ∈ cs ∧ EsVacia st q ∧ cuentaDe st q ≠ 0) := by
  induction cs with
  | nil =>
    intro mejor minC q h
    simp only [buscarMRV, Seleccion.elegida.injEq] at h
    exact Or.inl h
  | cons p resto ih =>
    intro mejor minC q h
    rw [buscarMRV_cons] at h
    have hmem : ∀ m c, buscarMRV st resto m c = Seleccion.elegida (some q) →
        m = some q ∨ (q ∈ p :: resto ∧ EsVacia st q ∧ cuentaDe st q ≠ 0) := by
      intro m c hm
      rcases ih m c q hm with h1 | ⟨h1, h2, h3⟩
      · exact Or.inl h1
      · exact Or.inr ⟨List.mem_cons_of_mem _ h1, h2, h3⟩
    by_cases hv : EsVacia st p
    · rw [if_pos hv] at h
      by_cases h0 : cuentaDe st p = 0
      · rw [if_pos h0] at h; exact absurd h (by simp)
      · rw [if_neg h0] at h
        by_cases hlt : cuentaDe st p < minC
        · rw [if_pos hlt] at h
          by_cases h1 : cuentaDe st p = 1
          · rw [if_pos h1] at h
            simp only [Seleccion.elegida.injEq, Option.some.injEq] at h
            subst h
            exact Or.inr ⟨List.mem_cons_self _ _, hv, h0⟩
          · rw [if_neg h1] at h
            rcases hmem _ _ h with h2 | h2
            · simp only [Option.some.injEq] at h2
              subst h2
              exact Or.inr ⟨List.mem_cons_self _ _, hv, h0⟩
            · exact Or.inr h2
        · rw [if_neg hlt] at h; exact hmem _ _ h
    · rw [if_neg hv] at h; exact hmem _ _ h

/-- With the counter invariant and vectors in range, the scan of a state with
`celdasVacias ≠ 0` returns false on a cell without candidates or selects an empty cell
that has a candidate: it never ends without a cell. -/
theorem buscarMRV_no_vacio (st : Estado)
    (hcv : st.celdasVacias = (cerosDe (leerCelda st.sudoku) st.tamano : Nat))
    (hve : VectoresEnRango st) (hne : st.celdasVacias ≠ 0) :
    buscarMRV st (celdas st.tamano) none (st.tamano + 1) = Seleccion.muerto ∨
      ∃ x ∈ celdas st.tamano,
        buscarMRV st (celdas st.tamano) none (st.tamano + 1) = Seleccion.elegida (some x) ∧
        EsVacia st x ∧ cuentaDe st x ≠ 0 := by
  have hz : cerosDe (leerCelda st.sudoku) st.tamano ≠ 0 := by
    intro h; rw [h] at hcv; exact hne hcv
  obtain ⟨p, hp, hp0⟩ := cerosDe_pos _ _ hz
  cases hsel : buscarMRV st (celdas st.tamano) none (st.tamano + 1) with
  | muerto => exact Or.inl rfl
  | elegida mejor =>
    right
    cases mejor with
    | none =>
      have h3 := (buscarMRV_spec st (celdas st.tamano) none (st.tamano + 1)).2.2 hsel
      have h4 := h3.2 p hp hp0
      have h5 := cuentaDe_le st hve p
      unfold cuentaDe at h5
      omega
    | some x =>
      rcases buscarMRV_elegida st _ _ _ x hsel with h | ⟨h1, h2, h3⟩
      · exact absurd h (by simp)
      · exact ⟨x, h1, rfl, h2, h3⟩

/-- The trial loop without fuel for the recursive call: it comes back only if it tries
no value. -/
theorem probar_sin_fuel (recursion : Estado → Option (Bool × Estado))
    (hrec : ∀ s, recursion s = none) (r c : Nat) (cand : Bitset) (vs : List Nat)
    (st : Estado) :
    probar recursion r c cand vs st =
      if ∃ v ∈ vs, Bitset.test cand v = true then none else some (false, st) := by
  induction vs with
  | nil => simp [probar]
  | cons v vs ih =>
    simp only [probar]
    by_cases ht : Bitset.test cand v = true
    · rw [if_pos ht, hrec]
      simp [ht]
    · rw [if_neg ht, ih]
      simp [ht]


/-- After `cargarSudoku` every candidate vector only holds bits of `1..tamano`. -/
theorem vectoresEnRango_carga (previo : Estado) (tablero : List (List Int)) (n : Nat)
    (st : Estado) (hn5 : n ≤ 5) (he : EntradasEn tablero (n * n) 25)
    (hcarga : cargarSudoku previo tablero n = some st) : VectoresEnRango st := by
  have hN : n * n ≤ 25 := cuadrado_le_25 n hn5
  obtain ⟨a1, ha1, ha2⟩ := llenarCandidatos_spec (n * n) hN (List.range (n * n))
    (fun _ => Bitset.vacio)
  have hent : ∀ p ∈ celdas (n * n),
      0 ≤ entrada tablero p.1 p.2 ∧ entrada tablero p.1 p.2 < 26 := by
    intro p hp
    rw [mem_celdas] at hp
    have := he p.1 hp.1 p.2 hp.2
    omega
  have hbits : ∀ u k, Bitset.test (leer 0 a1 u) k = true → 1 ≤ k ∧ k ≤ n * n := by
    intro u k h
    rw [ha2] at h
    by_cases hu : u < 25
    · simp [leer, hu, Bitset.test_vacio] at h
      exact h.2
    · simp [leer, hu, Bitset.test] at h
  have hcarga2 : cargarSudoku previo tablero n =
      cargarCeldas tablero (celdas (n * n))
        { sudoku := fun _ _ => 0, filaCandidatos := a1, colCandidatos := a1,
          bloqueCandidatos := a1, n := n, tamano := n * n, nodosExplorados := 0,
          celdasVacias := 0 } := by
    simp only [cargarSudoku, limpiarCandidatos_todos, ha1]
  rw [hcarga2, cargarCeldas_eq tablero (celdas (n * n)) _ hent, Option.some.injEq] at hcarga
  subst hcarga
  intro u hu k _ h
  show 1 ≤ k ∧ k ≤ n * n
  simp only at h
  rcases h with h | h | h
  · rw [test_borrarUsados _ _ _ _ (fun p hp => by
      have h1 := hent p hp
      rw [mem_celdas] at hp
      exact ⟨by omega, h1⟩)] at h
    exact hbits u k h.1
  · rw [test_borrarUsados _ _ _ _ (fun p hp => by
      have h1 := hent p hp
      rw [mem_celdas] at hp
      exact ⟨by omega, h1⟩)] at h
    exact hbits u k h.1
  · rw [test_borrarUsados _ _ _ _ (fun p hp => by
      have h1 := hent p hp
      rw [mem_celdas] at hp
      have := obtenerBloque_cota n p.1 p.2 hp.1 hp.2
      exact ⟨by omega, h1⟩)] at h
    exact hbits u k h.1

/-- C21. In a state with `celdasVacias > 0` at a node where the periodic propagation
does not run (`celdasVacias` being the number of empty cells and the vectors holding
bits of `1..tamano` only): the scan of `resolverBacktracking` hits `return false`
exactly when an empty cell without candidates comes, in row-major order, with no empty
cell of exactly one candidate before it (`RamaMuerta`). In that case the call returns
false with the state unchanged but for the node counter, whatever the fuel; otherwise
the call does not return without a recursive call, that is without placing a trial value
(with fuel 1, which allows no recursive call, the result is `none`). In particular the
scan selects the first empty cell with one candidate even if a cell without candidates
comes after it. -/
theorem resolverBacktracking_rama_muerta (st : Estado) (hpos : 0 < st.celdasVacias)
    (hcv : st.celdasVacias = (cerosDe (leerCelda st.sudoku) st.tamano : Nat))
    (hve : VectoresEnRango st)
    (hper : ¬ (st.tamano > 16 ∧ (st.nodosExplorados + 1) % 100 = 0)) :
    (buscarMRV st (celdas st.tamano) none (st.tamano + 1) = Seleccion.muerto ↔
      RamaMuerta st) ∧
    (resolverBacktracking 1 st
        = some (false, { st with nodosExplorados := st.nodosExplorados + 1 }) ↔
      RamaMuerta st) ∧
    (RamaMuerta st → ∀ fuel, resolverBacktracking (fuel + 1) st
        = some (false, { st with nodosExplorados := st.nodosExplorados + 1 })) ∧
    (¬ RamaMuerta st → resolverBacktracking 1 st = none) ∧
    (∀ antes x despues, celdas st.tamano = antes ++ x :: despues → EsVacia st x →
      cuentaDe st x = 1 → (∀ p ∈ antes, EsVacia st p → 2 ≤ cuentaDe st p) →
      buscarMRV st (celdas st.tamano) none (st.tamano + 1) = Seleccion.elegida (some x) ∧
        ¬ RamaMuerta st) := by
  have hne : st.celdasVacias ≠ 0 := by omega
  have hz : cerosDe (leerCelda st.sudoku) st.tamano ≠ 0 := by
    intro h; rw [h] at hcv; exact hne hcv
  obtain ⟨p0, hp0, _⟩ := cerosDe_pos _ _ hz
  have ht1 : 1 ≤ st.tamano := by
    rw [mem_celdas] at hp0; omega
  have hiff := buscarMRV_muerto_iff st (celdas st.tamano) none (st.tamano + 1) (by omega)
  -- the call, unfolded: no propagation, `celdasVacias ≠ 0`, then the scan
  have hpp : propagacionPeriodica { st with nodosExplorados := st.nodosExplorados + 1 } =
      (true, { st with nodosExplorados := st.nodosExplorados + 1 }) := by
    unfold propagacionPeriodica
    rw [if_neg hper]
  have hscan : buscarMRV { st with nodosExplorados := st.nodosExplorados + 1 }
      (celdas st.tamano) none (st.tamano + 1) =
      buscarMRV st (celdas st.tamano) none (st.tamano + 1) := by
    generalize celdas st.tamano = cs
    generalize (none : Option (Nat × Nat)) = mejor
    generalize st.tamano + 1 = minC
    induction cs generalizing mejor minC with
    | nil => rfl
    | cons p resto ih =>
      rw [buscarMRV_cons, buscarMRV_cons]
      simp only [ih]
      rfl
  have hrb : ∀ fuel, resolverBacktracking (fuel + 1) st =
      match buscarMRV st (celdas st.tamano) none (st.tamano + 1) with
      | Seleccion.muerto => some (false, { st with nodosExplorados := st.nodosExplorados + 1 })
      | Seleccion.elegida none =>
        some (false, { st with nodosExplorados := st.nodosExplorados + 1 })
      | Seleccion.elegida (some (r, c)) =>
        probar (resolverBacktracking fuel) r c (obtenerCandidatos st r c)
          (List.range' 1 st.tamano) { st with nodosExplorados := st.nodosExplorados + 1 } := by
    intro fuel
    simp only [resolverBacktracking, hpp, hne, if_false, hscan, decide_False]
    rfl
  have hmuerta : RamaMuerta st → ∀ fuel, resolverBacktracking (fuel + 1) st
      = some (false, { st with nodosExplorados := st.nodosExplorados + 1 }) := by
    intro hm fuel
    rw [hrb, hiff.mpr hm]
  have hviva : ¬ RamaMuerta st → resolverBacktracking 1 st = none := by
    intro hm
    rcases buscarMRV_no_vacio st hcv hve hne with h | ⟨x, _, hsel, _, hx0⟩
    · exact absurd (hiff.mp h) hm
    · obtain ⟨v, hv, hv1, hvN, hvt⟩ := primerCandidato_some st hve x hx0
      rw [hrb, hsel]
      obtain ⟨r, c⟩ := x
      simp only
      rw [probar_sin_fuel (resolverBacktracking 0) (fun s => rfl), if_pos ⟨v, by rw [List.mem_range'_1]; omega, hvt⟩]
  refine ⟨hiff, ⟨fun h => ?_, fun h => hmuerta h 0⟩, hmuerta, hviva, ?_⟩
  · by_contra hm
    rw [hviva hm] at h
    exact absurd h (by simp)
  · intro antes x despues hcs hx hx1 hant
    have hsel : buscarMRV st (celdas st.tamano) none (st.tamano + 1)
        = Seleccion.elegida (some x) := by
      rw [hcs]
      exact buscarMRV_hasta_unica st x despues hx hx1 antes none (st.tamano + 1) (by omega) hant
    refine ⟨hsel, fun hm => ?_⟩
    rw [hiff.mpr hm] at hsel
    exact absurd hsel (by simp)

/-- The state loaded from `tablero4SinSalida`, whose first cell is empty without
candidates: an instance of C21. -/
theorem resolverBacktracking_rama_muerta_witness :
    (0 < (estadoDe tablero4SinSalida 2).celdasVacias ∧
      (estadoDe tablero4SinSalida 2).celdasVacias =
        (cerosDe (leerCelda (estadoDe tablero4SinSalida 2).sudoku)
          (estadoDe tablero4SinSalida 2).tamano : Nat) ∧
      VectoresEnRango (estadoDe tablero4SinSalida 2) ∧
      ¬ ((estadoDe tablero4SinSalida 2).tamano > 16 ∧
        ((estadoDe tablero4SinSalida 2).nodosExplorados + 1) % 100 = 0)) ∧
    RamaMuerta (estadoDe tablero4SinSalida 2) ∧
    (resolverBacktracking 1 (estadoDe tablero4SinSalida 2)
        = some (false, { estadoDe tablero4SinSalida 2 with
            nodosExplorados := (estadoDe tablero4SinSalida 2).nodosExplorados + 1 }) ↔
      RamaMuerta (estadoDe tablero4SinSalida 2)) :=
  ⟨⟨by decide, by decide, by decide, by decide⟩,
    ⟨[], (0, 0), (celdas 4).tail, by decide, by decide, by decide,
      fun _ h => absurd h (List.not_mem_nil _)⟩,
    (resolverBacktracking_rama_muerta (estadoDe tablero4SinSalida 2) (by decide) (by decide)
      (by decide) (by decide)).2.1⟩

/-- C22. For a solver state with `n` in `[2, 5]`, `tamano = n * n` and `celdasVacias`
equal to the number of empty cells, `resolverBacktracking` returns: the number of empty
cells is at most `tamano² ≤ 625`, and with any fuel above it (the fuel bounds the depth
of the nested calls) the call gives one and the same result. The state handed to a
recursive call, after a trial value is placed in an empty cell, has exactly one empty
cell less, and `celdasVacias` counts them again. -/
theorem resolverBacktracking_termina_siempre (st : Estado) (hn2 : 2 ≤ st.n)
    (hn5 : st.n ≤ 5) (ht : st.tamano = st.n * st.n)
    (hcv : st.celdasVacias = (cerosDe (leerCelda st.sudoku) st.tamano : Nat)) :
    cerosDe (leerCelda st.sudoku) st.tamano ≤ st.tamano * st.tamano ∧
    st.tamano * st.tamano ≤ 625 ∧
    (∃ res, ∀ fuel, cerosDe (leerCelda st.sudoku) st.tamano < fuel →
      resolverBacktracking fuel st = some res) ∧
    (∀ r c v, r < st.tamano → c < st.tamano → leerCelda st.sudoku r c = 0 → 1 ≤ v →
      cerosDe (leerCelda (colocarValor st r c v).sudoku) st.tamano + 1 =
        cerosDe (leerCelda st.sudoku) st.tamano ∧
      st.celdasVacias - 1 =
        (cerosDe (leerCelda (colocarValor st r c v).sudoku) st.tamano : Nat)) := by
  have _h1 : 1 ≤ st.n := by omega
  have h25 : st.tamano ≤ 25 := ht ▸ cuadrado_le_25 st.n hn5
  obtain ⟨b, st2, hres, _, _, _⟩ := resolverBacktracking_termina st ⟨h25, hcv⟩
  refine ⟨cerosDe_le _ _, Nat.mul_le_mul h25 h25, ⟨(b, st2), hres⟩, ?_⟩
  intro r c v hr hc h0 hv
  have hl := leerCelda_colocarValor st r c v (by omega) (by omega)
  have hz := cerosDe_conValor (leerCelda st.sudoku) st.tamano r c (v : Int) hr hc h0 (by omega)
  rw [hl]
  exact ⟨hz, by omega⟩

/-- The 4 × 4 puzzle `tablero4` loaded with `n = 2`: an instance of C22. -/
theorem resolverBacktracking_termina_siempre_witness :
    (2 ≤ (estadoDe tablero4 2).n ∧ (estadoDe tablero4 2).n ≤ 5 ∧
      (estadoDe tablero4 2).tamano = (estadoDe tablero4 2).n * (estadoDe tablero4 2).n ∧
      (estadoDe tablero4 2).celdasVacias =
        (cerosDe (leerCelda (estadoDe tablero4 2).sudoku) (estadoDe tablero4 2).tamano : Nat)) ∧
    ∃ res, ∀ fuel,
      cerosDe (leerCelda (estadoDe tablero4 2).sudoku) (estadoDe tablero4 2).tamano < fuel →
      resolverBacktracking fuel (estadoDe tablero4 2) = some res :=
  ⟨by decide,
    (resolverBacktracking_termina_siempre (estadoDe tablero4 2) (by decide) (by decide)
      (by decide) (by decide)).2.2.1⟩

/-- C23. In a solver state in which `celdasVacias` is the number of empty cells (and the
vectors hold bits of `1..tamano` only), the fallback branch of `resolverBacktracking`
(`mejorFila == -1` after the test `celdasVacias == 0` did not return) is never reached:
when `celdasVacias ≠ 0` the scan returns false on an empty cell without candidates or
selects an empty cell. This holds for the state itself and for the state in which the
scan runs, after the node counter is incremented and the periodic propagation, if any,
has returned true. -/
theorem resolverBacktracking_sin_respaldo (st : Estado) (h25 : st.tamano ≤ 25)
    (hcv : st.celdasVacias = (cerosDe (leerCelda st.sudoku) st.tamano : Nat))
    (hve : VectoresEnRango st) :
    (st.celdasVacias ≠ 0 →
      buscarMRV st (celdas st.tamano) none (st.tamano + 1) ≠ Seleccion.elegida none ∧
      (buscarMRV st (celdas st.tamano) none (st.tamano + 1) = Seleccion.muerto ∨
        ∃ x ∈ celdas st.tamano,
          buscarMRV st (celdas st.tamano) none (st.tamano + 1) = Seleccion.elegida (some x) ∧
          EsVacia st x)) ∧
    (∀ s1, propagacionPeriodica { st with nodosExplorados := st.nodosExplorados + 1 }
        = (true, s1) → s1.celdasVacias ≠ 0 →
      buscarMRV s1 (celdas s1.tamano) none (s1.tamano + 1) ≠ Seleccion.elegida none ∧
      (buscarMRV s1 (celdas s1.tamano) none (s1.tamano + 1) = Seleccion.muerto ∨
        ∃ x ∈ celdas s1.tamano,
          buscarMRV s1 (celdas s1.tamano) none (s1.tamano + 1) = Seleccion.elegida (some x) ∧
          EsVacia s1 x)) := by
  have hgen : ∀ s : Estado,
      s.celdasVacias = (cerosDe (leerCelda s.sudoku) s.tamano : Nat) → VectoresEnRango s →
      s.celdasVacias ≠ 0 →
      buscarMRV s (celdas s.tamano) none (s.tamano + 1) ≠ Seleccion.elegida none ∧
      (buscarMRV s (celdas s.tamano) none (s.tamano + 1) = Seleccion.muerto ∨
        ∃ x ∈ celdas s.tamano,
          buscarMRV s (celdas s.tamano) none (s.tamano + 1) = Seleccion.elegida (some x) ∧
          EsVacia s x) := by
    intro s hs1 hs2 hs3
    rcases buscarMRV_no_vacio s hs1 hs2 hs3 with h | ⟨x, hx, hsel, hx0, _⟩
    · exact ⟨by rw [h]; simp, Or.inl h⟩
    · exact ⟨by rw [hsel]; simp, Or.inr ⟨x, hx, hsel, hx0⟩⟩
  refine ⟨hgen st hcv hve, fun s1 hpp hne => ?_⟩
  have hcont1 : Contado { st with nodosExplorados := st.nodosExplorados + 1 } := ⟨h25, hcv⟩
  obtain ⟨_, hc2, hve2⟩ := propagacionPeriodica_marco _ hcont1
  rw [hpp] at hc2 hve2
  exact hgen s1 hc2.2 (hve2 hve) hne

/-- The 4 × 4 puzzle `tablero4` loaded with `n = 2`: an instance of C23. -/
theorem resolverBacktracking_sin_respaldo_witness :
    ((estadoDe tablero4 2).tamano ≤ 25 ∧
      (estadoDe tablero4 2).celdasVacias =
        (cerosDe (leerCelda (estadoDe tablero4 2).sudoku) (estadoDe tablero4 2).tamano : Nat) ∧
      VectoresEnRango (estadoDe tablero4 2) ∧ (estadoDe tablero4 2).celdasVacias ≠ 0) ∧
    buscarMRV (estadoDe tablero4 2) (celdas (estadoDe tablero4 2).tamano) none
        ((estadoDe tablero4 2).tamano + 1) ≠ Seleccion.elegida none :=
  ⟨by decide,
    ((resolverBacktracking_sin_respaldo (estadoDe tablero4 2) (by decide) (by decide)
      (by decide)).1 (by decide)).1⟩


/-! ## The solver keeps the given cells -/

/-- From a state with the counter invariant, `resolverSudoku` returns for every fuel
above the number of cells, always with the same result, and every filled cell keeps its
value. -/
theorem resolverSudoku_marco (st : Estado) (hc : Contado st) :
    ∃ b st2, (∀ fuel, st.tamano * st.tamano < fuel → resolverSudoku fuel st = some (b, st2)) ∧
      Sucede st st2 := by
  unfold resolverSudoku
  cases hval : validarEstadoInicial st with
  | false =>
    exact ⟨false, st, fun _ _ => rfl, rfl, rfl, fun _ _ _ _ _ => rfl⟩
  | true =>
    simp only [Bool.not_true, Bool.false_eq_true, if_false]
    have hpp : Sucede st (if st.tamano > 16 then propagarRestricciones st else (true, st)).2 ∧
        Contado (if st.tamano > 16 then propagarRestricciones st else (true, st)).2 := by
      split
      · have := contado_cadena st _ hc (propagarRestricciones_cadena st hc.1)
        exact ⟨this.1, this.2.1⟩
      · exact ⟨⟨rfl, rfl, fun _ _ _ _ _ => rfl⟩, hc⟩
    generalize (if st.tamano > 16 then propagarRestricciones st else (true, st)) = pp at hpp
    match pp with
    | (false, s1) => exact ⟨false, s1, fun _ _ => rfl, hpp.1⟩
    | (true, s1) =>
      obtain ⟨hs, hc1⟩ := hpp
      simp only at hs hc1 ⊢
      obtain ⟨b, st2, hres, hs2, _, _⟩ := resolverBacktracking_termina s1 hc1
      refine ⟨b, st2, fun fuel hf => hres fuel ?_, sucede_trans _ _ _ hs hs2⟩
      have h1 := cerosDe_le (leerCelda s1.sudoku) s1.tamano
      have h2 : s1.tamano = st.tamano := hs.2.1
      rw [h2] at h1 ⊢
      omega

/-- C25. For `n` in `[2, 5]` and an `n² × n²` board with entries in `[0, n²]`: after
`cargarSudoku` the call of `resolverSudoku` returns (for every fuel above the number of
cells, with one and the same result, true or false), and in the board given by
`obtenerSolucion` every cell that was non-zero in the input still holds its input
value. -/
theorem resolverSudoku_conserva_pistas (previo : Estado) (tablero : List (List Int))
    (n : Nat) (hn2 : 2 ≤ n) (hn5 : n ≤ 5) (_hc : EsCuadrado tablero (n * n))
    (he : EntradasEn tablero (n * n) ((n * n : Nat) : Int)) :
    ∃ st b st2, cargarSudoku previo tablero n = some st ∧
      (∀ fuel, (n * n) * (n * n) < fuel → resolverSudoku fuel st = some (b, st2)) ∧
      ∀ i, i < n * n → ∀ j, j < n * n → entrada tablero i j ≠ 0 →
        entrada (obtenerSolucion st2) i j = entrada tablero i j := by
  have _h1 : 1 ≤ n := by omega
  have hN : n * n ≤ 25 := cuadrado_le_25 n hn5
  have he25 : EntradasEn tablero (n * n) 25 := by
    intro i hi j hj
    have := he i hi j hj
    omega
  obtain ⟨st, hcarga, _, ht, _, hcel, _, hcv⟩ := cargarSudoku_spec previo tablero n hn5 he25
  have hcont : Contado st := by
    refine ⟨by rw [ht]; exact hN, ?_⟩
    rw [hcv, ht, cerosDe_congr _ _ _ hcel]
  obtain ⟨b, st2, hres, hs⟩ := resolverSudoku_marco st hcont
  rw [ht] at hres
  refine ⟨st, b, st2, hcarga, hres, ?_⟩
  intro i hi j hj hne
  have ht2 : st2.tamano = n * n := by rw [hs.2.1, ht]
  rw [entrada_obtenerSolucion st2 i j (by rw [ht2]; exact hi) (by rw [ht2]; exact hj)]
  have := hs.2.2 i (by rw [ht]; exact hi) j (by rw [ht]; exact hj)
    (by rw [hcel i j hi hj]; exact hne)
  rw [this, hcel i j hi hj]

/-- The 4 × 4 puzzle `tablero4` with `n = 2`: an instance of C25. -/
theorem resolverSudoku_conserva_pistas_witness :
    (2 ≤ 2 ∧ 2 ≤ 5 ∧ EsCuadrado tablero4 (2 * 2) ∧
      EntradasEn tablero4 (2 * 2) ((2 * 2 : Nat) : Int)) ∧
    ∃ st b st2, cargarSudoku Estado.inicial tablero4 2 = some st ∧
      (∀ fuel, (2 * 2) * (2 * 2) < fuel → resolverSudoku fuel st = some (b, st2)) ∧
      ∀ i, i < 2 * 2 → ∀ j, j < 2 * 2 → entrada tablero4 i j ≠ 0 →
        entrada (obtenerSolucion st2) i j = entrada tablero4 i j :=
  ⟨by decide,
    resolverSudoku_conserva_pistas Estado.inicial tablero4 2 (by decide) (by decide)
      (by decide) (by decide)⟩


/-! ## The standalone validator against the validator of the solver -/

/-- What one pass of the standalone validator decides on the cells of one unit. -/
theorem revisarCeldas_iff (val : ValidadorSudoku) (cs : List (Nat × Nat)) :
    ∀ (simbolos : List Int),
      (ValidadorSudoku.revisarCeldas val cs simbolos = true ↔
        ((∀ p ∈ cs, entrada val.sudoku p.1 p.2 ≠ 0 →
            1 ≤ entrada val.sudoku p.1 p.2 ∧ entrada val.sudoku p.1 p.2 ≤ (val.tamano : Int)) ∧
          (∀ p ∈ cs, entrada val.sudoku p.1 p.2 ≠ 0 → entrada val.sudoku p.1 p.2 ∉ simbolos) ∧
          cs.Pairwise (fun p q => entrada val.sudoku p.1 p.2 ≠ 0 →
            entrada val.sudoku p.1 p.2 ≠ entrada val.sudoku q.1 q.2))) := by
  induction cs with
  | nil => intro simbolos; simp [ValidadorSudoku.revisarCeldas]
  | cons p resto ih =>
    intro simbolos
    obtain ⟨i, j⟩ := p
    simp only [ValidadorSudoku.revisarCeldas, List.mem_cons, forall_eq_or_imp,
      List.pairwise_cons]
    by_cases h0 : entrada val.sudoku i j = 0
    · simp only [h0, if_true, ne_eq, not_true_eq_false, false_implies, true_and, implies_true]
      rw [ih simbolos]
    · rw [if_neg h0]
      by_cases hran : entrada val.sudoku i j < 1 ∨ entrada val.sudoku i j > (val.tamano : Int)
      · rw [if_pos hran]
        simp only [Bool.false_eq_true, false_iff, not_and]
        intro h
        have := h.1 h0
        omega
      · rw [if_neg hran]
        by_cases hmem : entrada val.sudoku i j ∈ simbolos
        · rw [if_pos hmem]
          simp only [Bool.false_eq_true, false_iff, not_and]
          intro _ h
          exact absurd hmem (h.1 h0)
        · rw [if_neg hmem, ih]
          simp only [List.mem_cons, not_or]
          constructor
          · rintro ⟨h1, h2, h3⟩
            refine ⟨⟨fun _ => by omega, h1⟩, ⟨fun _ => hmem, fun q hq hq0 => (h2 q hq hq0).2⟩,
              fun q hq _ => ?_, h3⟩
            by_cases hq0 : entrada val.sudoku q.1 q.2 = 0
            · rw [hq0]; exact h0
            · exact fun h => (h2 q hq hq0).1 h.symm
          · rintro ⟨⟨_, h1⟩, ⟨_, h2⟩, h3, h4⟩
            exact ⟨h1, fun q hq hq0 => ⟨fun h => h3 q hq h0 h.symm, h2 q hq hq0⟩, h4⟩

/-- Rows, columns and blocks without a value out of range or repeated: the grid has its
non-zero values in range and none repeated in a row, a column or a block. -/
theorem unidades_iff (f : Nat → Nat → Int) (n N : Nat) (hN : N = n * n) :
    ((∀ i, i < N →
        (∀ p ∈ celdasFila N i, f p.1 p.2 ≠ 0 → 1 ≤ f p.1 p.2 ∧ f p.1 p.2 ≤ (N : Int)) ∧
        ∀ p ∈ celdasFila N i, ∀ q ∈ celdasFila N i, p ≠ q → f p.1 p.2 ≠ 0 →
          f p.1 p.2 ≠ f q.1 q.2) ∧
      (∀ j, j < N →
        (∀ p ∈ celdasColumna N j, f p.1 p.2 ≠ 0 → 1 ≤ f p.1 p.2 ∧ f p.1 p.2 ≤ (N : Int)) ∧
        ∀ p ∈ celdasColumna N j, ∀ q ∈ celdasColumna N j, p ≠ q → f p.1 p.2 ≠ 0 →
          f p.1 p.2 ≠ f q.1 q.2) ∧
      (∀ b, b < N →
        (∀ p ∈ celdasBloque n b, f p.1 p.2 ≠ 0 → 1 ≤ f p.1 p.2 ∧ f p.1 p.2 ≤ (N : Int)) ∧
        ∀ p ∈ celdasBloque n b, ∀ q ∈ celdasBloque n b, p ≠ q → f p.1 p.2 ≠ 0 →
          f p.1 p.2 ≠ f q.1 q.2)) ↔
    (EnRango f N ∧ SinRepetidos f n) := by
  subst hN
  constructor
  · rintro ⟨hA, hB, hC⟩
    refine ⟨fun i hi j hj h0 => (hA i hi).1 (i, j) ((mem_celdasFila _ _ _).mpr ⟨rfl, hj⟩) h0, ?_⟩
    intro i hi j hj i2 hi2 j2 hj2 h0 heq
    by_cases hsame : i = i2 ∧ j = j2
    · exact Or.inl hsame
    · right
      have hne : (i, j) ≠ (i2, j2) := fun h => hsame ⟨congrArg Prod.fst h, congrArg Prod.snd h⟩
      refine ⟨?_, ?_, ?_⟩
      · intro hii
        subst hii
        exact (hA i hi).2 (i, j) ((mem_celdasFila _ _ _).mpr ⟨rfl, hj⟩) (i, j2)
          ((mem_celdasFila _ _ _).mpr ⟨rfl, hj2⟩) hne h0 heq
      · intro hjj
        subst hjj
        exact (hB j hj).2 (i, j) ((mem_celdasColumna _ _ _).mpr ⟨hi, rfl⟩) (i2, j)
          ((mem_celdasColumna _ _ _).mpr ⟨hi2, rfl⟩) hne h0 heq
      · intro hblk
        have hb1 := obtenerBloque_cota n i j hi hj
        have hbb := (bloque_eq_iff n i j i2 j2 hj hj2).mpr hblk
        exact (hC _ hb1).2 (i, j)
          ((mem_celdasBloque _ _ hb1 _).mpr ⟨hi, hj, rfl⟩) (i2, j2)
          ((mem_celdasBloque _ _ hb1 _).mpr ⟨hi2, hj2, hbb.symm⟩) hne h0 heq
  · rintro ⟨hR, hS⟩
    refine ⟨fun i hi => ⟨?_, ?_⟩, fun j hj => ⟨?_, ?_⟩, fun b hb => ⟨?_, ?_⟩⟩
    · intro p hp h0
      rw [mem_celdasFila] at hp
      exact hR p.1 (hp.1 ▸ hi) p.2 hp.2 h0
    · intro p hp q hq hpq h0 heq
      rw [mem_celdasFila] at hp hq
      rcases hS p.1 (hp.1 ▸ hi) p.2 hp.2 q.1 (hq.1 ▸ hi) q.2 hq.2 h0 heq with h | h
      · exact hpq (Prod.ext h.1 h.2)
      · exact h.1 (hp.1.trans hq.1.symm)
    · intro p hp h0
      rw [mem_celdasColumna] at hp
      exact hR p.1 hp.1 p.2 (hp.2 ▸ hj) h0
    · intro p hp q hq hpq h0 heq
      rw [mem_celdasColumna] at hp hq
      rcases hS p.1 hp.1 p.2 (hp.2 ▸ hj) q.1 hq.1 q.2 (hq.2 ▸ hj) h0 heq with h | h
      · exact hpq (Prod.ext h.1 h.2)
      · exact h.2.1 (hp.2.trans hq.2.symm)
    · intro p hp h0
      rw [mem_celdasBloque _ _ hb] at hp
      exact hR p.1 hp.1 p.2 hp.2.1 h0
    · intro p hp q hq hpq h0 heq
      rw [mem_celdasBloque _ _ hb] at hp hq
      rcases hS p.1 hp.1 p.2 hp.2.1 q.1 hq.1 q.2 hq.2.1 h0 heq with h | h
      · exact hpq (Prod.ext h.1 h.2)
      · exact h.2.2 ((bloque_eq_iff n _ _ _ _ hp.2.1 hq.2.1).mp (hp.2.2.trans hq.2.2.symm))

/-- The cells of the sub-square `(filaBloque, colBloque)` of the standalone validator
are the cells that the solver scans for block `filaBloque * n + colBloque`. -/
theorem celdas_subcuadrado (n fb cb : Nat) (hcb : cb < n) :
    ((List.range n).flatMap (fun i => (List.range n).map (fun j => (fb * n + i, cb * n + j))))
      = celdasBloque n (fb * n + cb) := by
  unfold celdasBloque
  rw [bloque_div n fb cb hcb, bloque_mod n fb cb hcb]

/-- One pass of the standalone validator over a duplicate-free unit. -/
theorem revisarCeldas_unidad (val : ValidadorSudoku) (cs : List (Nat × Nat))
    (hnd : cs.Nodup) :
    ValidadorSudoku.revisarCeldas val cs [] = true ↔
      ((∀ p ∈ cs, entrada val.sudoku p.1 p.2 ≠ 0 →
          1 ≤ entrada val.sudoku p.1 p.2 ∧ entrada val.sudoku p.1 p.2 ≤ (val.tamano : Int)) ∧
        ∀ p ∈ cs, ∀ q ∈ cs, p ≠ q → entrada val.sudoku p.1 p.2 ≠ 0 →
          entrada val.sudoku p.1 p.2 ≠ entrada val.sudoku q.1 q.2) := by
  rw [revisarCeldas_iff, pairwise_celdas_iff (entrada val.sudoku) cs hnd]
  simp

/-- The three passes of the standalone validator on a validator of sizes `n` and
`n * n`: they all pass exactly when the non-zero entries lie in `1..n²` and none is
repeated in a row, a column or a block. -/
theorem pasadas_iff (val : ValidadorSudoku) (hn : 1 ≤ val.n) (hN : val.tamano = val.n * val.n) :
    (ValidadorSudoku.validarFilas val = true ∧ ValidadorSudoku.validarColumnas val = true ∧
      ValidadorSudoku.validarSubcuadrados val = true) ↔
    (EnRango (entrada val.sudoku) val.tamano ∧ SinRepetidos (entrada val.sudoku) val.n) := by
  rw [← unidades_iff (entrada val.sudoku) val.n val.tamano hN]
  have e1 : ValidadorSudoku.validarFilas val = true ↔
      ∀ i, i < val.tamano → ValidadorSudoku.revisarCeldas val (celdasFila val.tamano i) [] = true := by
    simp [ValidadorSudoku.validarFilas, celdasFila, List.all_eq_true]
  have e2 : ValidadorSudoku.validarColumnas val = true ↔
      ∀ j, j < val.tamano →
        ValidadorSudoku.revisarCeldas val (celdasColumna val.tamano j) [] = true := by
    simp [ValidadorSudoku.validarColumnas, celdasColumna, List.all_eq_true]
  have e3 : ValidadorSudoku.validarSubcuadrados val = true ↔
      ∀ b, b < val.tamano → ValidadorSudoku.revisarCeldas val (celdasBloque val.n b) [] = true := by
    simp only [ValidadorSudoku.validarSubcuadrados, List.all_eq_true, List.mem_range]
    constructor
    · intro h b hb
      rw [hN] at hb
      have hq : b / val.n < val.n := div_lt_de_cuadrado val.n b hb
      have hr : b % val.n < val.n := Nat.mod_lt _ (by omega)
      have := h (b / val.n) hq (b % val.n) hr
      rw [celdas_subcuadrado val.n _ _ hr] at this
      have hb2 : b / val.n * val.n + b % val.n = b := by
        have := Nat.div_add_mod b val.n
        rw [Nat.mul_comm] at this
        exact this
      rw [hb2] at this
      exact this
    · intro h fb hfb cb hcb
      rw [celdas_subcuadrado val.n fb cb hcb]
      exact h _ (by rw [hN]; exact bloque_cota val.n fb cb hfb hcb)
  rw [e1, e2, e3]
  refine and_congr (forall_congr' (fun i => imp_congr_right (fun _ => ?_)))
    (and_congr (forall_congr' (fun j => imp_congr_right (fun _ => ?_)))
      (forall_congr' (fun b => imp_congr_right (fun _ => ?_))))
  · exact revisarCeldas_unidad val _ (nodup_celdasFila _ _)
  · exact revisarCeldas_unidad val _ (nodup_celdasColumna _ _)
  · exact revisarCeldas_unidad val _ (nodup_celdasBloque _ _)

/-- The dimension check of the standalone validator. -/
theorem validarDimensiones_iff (val : ValidadorSudoku) :
    ValidadorSudoku.validarDimensiones val = true ↔ EsCuadrado val.sudoku val.tamano := by
  unfold ValidadorSudoku.validarDimensiones EsCuadrado
  by_cases h : val.sudoku.length = val.tamano
  · simp [h, List.all_eq_true]
  · simp [h]

/-- The result of `validar` is valid exactly when the four checks pass. -/
theorem validar_esValido (val : ValidadorSudoku) :
    (ValidadorSudoku.validar val).esValido = true ↔
      (ValidadorSudoku.validarDimensiones val = true ∧ ValidadorSudoku.validarFilas val = true ∧
        ValidadorSudoku.validarColumnas val = true ∧
        ValidadorSudoku.validarSubcuadrados val = true) := by
  unfold ValidadorSudoku.validar
  cases ValidadorSudoku.validarDimensiones val <;> cases ValidadorSudoku.validarFilas val <;>
    cases ValidadorSudoku.validarColumnas val <;>
    cases ValidadorSudoku.validarSubcuadrados val <;> simp

/-- C27. For `n` in `[2, 5]` and an `n² × n²` grid with entries in `[0, 25]`: the
standalone validator on that grid (with its `n` and `tamano = n²`) reports
`esValido = true`, that is `validarDimensiones`, `validarFilas`, `validarColumnas` and
`validarSubcuadrados` all pass, exactly when `validarEstadoInicial` returns true on the
grid loaded with `cargarSudoku(grid, n)`. -/
theorem validar_coincide (previo : Estado) (tablero : List (List Int)) (n : Nat)
    (hn2 : 2 ≤ n) (hn5 : n ≤ 5) (hc : EsCuadrado tablero (n * n))
    (he : EntradasEn tablero (n * n) 25) :
    ∃ st, cargarSudoku previo tablero n = some st ∧
      ((ValidadorSudoku.validar ⟨tablero, n, n * n⟩).esValido = true ↔
        (ValidadorSudoku.validarDimensiones ⟨tablero, n, n * n⟩ = true ∧
          ValidadorSudoku.validarFilas ⟨tablero, n, n * n⟩ = true ∧
          ValidadorSudoku.validarColumnas ⟨tablero, n, n * n⟩ = true ∧
          ValidadorSudoku.validarSubcuadrados ⟨tablero, n, n * n⟩ = true)) ∧
      ((ValidadorSudoku.validar ⟨tablero, n, n * n⟩).esValido = true ↔
        validarEstadoInicial st = true) := by
  obtain ⟨st, hcarga, h2, h3, _, h5, _, _⟩ := cargarSudoku_spec previo tablero n hn5 he
  refine ⟨st, hcarga, validar_esValido _, ?_⟩
  have hd : Dimensionado st := ⟨by omega, by omega, by rw [h3, h2]⟩
  rw [validarEstadoInicial_iff_estado st hd (fun i hi j hj => by
    rw [h3] at hi hj
    rw [h5 i j hi hj]; exact (he i hi j hj).1)]
  rw [h3, h2, enRango_congr _ _ _ h5, sinRepetidos_congr _ _ _ h5, validar_esValido]
  have hp := pasadas_iff ⟨tablero, n, n * n⟩ (by show 1 ≤ n; omega) rfl
  have hdim := (validarDimensiones_iff ⟨tablero, n, n * n⟩).mpr hc
  constructor
  · rintro ⟨_, h⟩; exact hp.mp h
  · intro h; exact ⟨hdim, hp.mpr h⟩

/-- The 4 × 4 puzzle `tablero4`, accepted by both validators, and the board
`tablero4Repetido`, rejected by both: instances of C27. -/
theorem validar_coincide_witness :
    (2 ≤ 2 ∧ 2 ≤ 5 ∧ EsCuadrado tablero4 (2 * 2) ∧ EntradasEn tablero4 (2 * 2) 25 ∧
      EsCuadrado tablero4Repetido (2 * 2) ∧ EntradasEn tablero4Repetido (2 * 2) 25) ∧
    (ValidadorSudoku.validar ⟨tablero4, 2, 2 * 2⟩).esValido = true ∧
    (ValidadorSudoku.validar ⟨tablero4Repetido, 2, 2 * 2⟩).esValido = false ∧
    (∃ st, cargarSudoku Estado.inicial tablero4 2 = some st ∧
      ((ValidadorSudoku.validar ⟨tablero4, 2, 2 * 2⟩).esValido = true ↔
        (ValidadorSudoku.validarDimensiones ⟨tablero4, 2, 2 * 2⟩ = true ∧
          ValidadorSudoku.validarFilas ⟨tablero4, 2, 2 * 2⟩ = true ∧
          ValidadorSudoku.validarColumnas ⟨tablero4, 2, 2 * 2⟩ = true ∧
          ValidadorSudoku.validarSubcuadrados ⟨tablero4, 2, 2 * 2⟩ = true)) ∧
      ((ValidadorSudoku.validar ⟨tablero4, 2, 2 * 2⟩).esValido = true ↔
        validarEstadoInicial st = true)) ∧
    (∃ st, cargarSudoku Estado.inicial tablero4Repetido 2 = some st ∧
      ((ValidadorSudoku.validar ⟨tablero4Repetido, 2, 2 * 2⟩).esValido = true ↔
        validarEstadoInicial st = true)) :=
  ⟨by decide, by decide, by decide,
    validar_coincide Estado.inicial tablero4 2 (by decide) (by decide) (by decide) (by decide),
    (validar_coincide Estado.inicial tablero4Repetido 2 (by decide) (by decide) (by decide)
      (by decide)).imp (fun _ h => ⟨h.1, h.2.2⟩)⟩


/-! ## Evaluations on large boards -/

/-- C10 (counterexample). On the validated 16 × 16 board `tablero16` the propagation
pass fails, yet `resolverSudoku` does not run it: it enters the search, which counts one
node, whereas 'validate; propagate; …' stops with the node count still 0. -/
theorem resolverSudoku_16_sin_propagacion :
    (estadoDe tablero16 4).tamano = 16 ∧
    validarEstadoInicial (estadoDe tablero16 4) = true ∧
    (propagarRestricciones (estadoDe tablero16 4)).1 = false ∧
    (resolverSudoku 257 (estadoDe tablero16 4)).map (fun r => (r.1, r.2.nodosExplorados))
      = some (false, 1) ∧
    resolverSudoku 257 (estadoDe tablero16 4) ≠
      resolverSudokuSegunSpec 257 (estadoDe tablero16 4) := by
  have h : (estadoDe tablero16 4).tamano = 16 ∧
      validarEstadoInicial (estadoDe tablero16 4) = true ∧
      (propagarRestricciones (estadoDe tablero16 4)).1 = false ∧
      (resolverSudoku 257 (estadoDe tablero16 4)).map (fun r => (r.1, r.2.nodosExplorados))
        = some (false, 1) ∧
      (resolverSudokuSegunSpec 257 (estadoDe tablero16 4)).map
        (fun r => (r.1, r.2.nodosExplorados)) = some (false, 0) := by
    decide!
  refine ⟨h.1, h.2.1, h.2.2.1, h.2.2.2.1, fun heq => ?_⟩
  have h5 := h.2.2.2.2
  rw [← heq, h.2.2.2.1] at h5
  exact absurd h5 (by decide)

/-- A validated state of size 25 on which the up-front propagation fails: an instance
of the amended C10. -/
theorem resolverSudoku_propagacion_inicial_witness :
    validarEstadoInicial estado25SinCandidatos = true ∧
    16 < estado25SinCandidatos.tamano ∧
    (propagarRestricciones estado25SinCandidatos).1 = false ∧
    resolverSudoku 626 estado25SinCandidatos
      = some (false, (propagarRestricciones estado25SinCandidatos).2) ∧
    (propagarRestricciones estado25SinCandidatos).2.nodosExplorados = 0 := by
  have hval : validarEstadoInicial estado25SinCandidatos = true := by decide!
  have ht : 16 < estado25SinCandidatos.tamano := by decide
  have hf : (propagarRestricciones estado25SinCandidatos).1 = false := by decide!
  have h := ((resolverSudoku_propagacion_inicial estado25SinCandidatos 626 hval).1 ht).2 hf
  exact ⟨hval, ht, hf, h.1, h.2⟩

/-- The 16 × 16 board `tablero16`, whose cell (0, 0) has no candidate: an instance of
C18. -/
theorem propagarRestricciones_celda_sin_candidatos_witness :
    9 < (estadoDe tablero16 4).tamano ∧
    leerCelda (estadoDe tablero16 4).sudoku 0 0 = 0 ∧
    Bitset.count (obtenerCandidatos (estadoDe tablero16 4) 0 0) = 0 ∧
    (propagarRestricciones (estadoDe tablero16 4)).1 = false := by
  have h9 : 9 < (estadoDe tablero16 4).tamano := by decide!
  have h0 : leerCelda (estadoDe tablero16 4).sudoku 0 0 = 0 := by decide!
  have hc : Bitset.count (obtenerCandidatos (estadoDe tablero16 4) 0 0) = 0 := by decide!
  exact ⟨h9, h0, hc,
    propagarRestricciones_celda_sin_candidatos (estadoDe tablero16 4) h9 0 0 (by omega)
      (by omega) h0 hc⟩

set_option maxRecDepth 1000000 in
/-- The board `tablero16Cadena` loaded, on which the propagation fills one cell of row 0
in each of its 10 scans and returns true at the cap, cell (0, 1) being left empty with a
single candidate: an instance of C19. -/
theorem propagarRestricciones_true_witness :
    (9 < (estadoDe tablero16Cadena 4).tamano ∧ (estadoDe tablero16Cadena 4).tamano ≤ 25 ∧
      VectoresEnRango (estadoDe tablero16Cadena 4)) ∧
    ((propagarRestricciones (estadoDe tablero16Cadena 4)).1 = true ∧
      EsVacia (propagarRestricciones (estadoDe tablero16Cadena 4)).2 (0, 1) ∧
      cuentaDe (propagarRestricciones (estadoDe tablero16Cadena 4)).2 (0, 1) = 1) ∧
    ∃ s st1, trasPasadas 9 (estadoDe tablero16Cadena 4) = some s ∧
      propagarPasada (celdas s.tamano) s false = Pasada.fin st1 true ∧
      propagarRestricciones (estadoDe tablero16Cadena 4) = (true, st1) ∧
      cerosDe (leerCelda st1.sudoku) (estadoDe tablero16Cadena 4).tamano + 10 ≤
        cerosDe (leerCelda (estadoDe tablero16Cadena 4).sudoku)
          (estadoDe tablero16Cadena 4).tamano := by
  have h9 : 9 < (estadoDe tablero16Cadena 4).tamano := by decide!
  have h25 : (estadoDe tablero16Cadena 4).tamano ≤ 25 := by decide!
  have hsome : (cargarSudoku Estado.inicial tablero16Cadena 4).isSome = true := by decide!
  have he : EntradasEn tablero16Cadena (4 * 4) 25 := by decide!
  have hve : VectoresEnRango (estadoDe tablero16Cadena 4) :=
    vectoresEnRango_carga Estado.inicial tablero16Cadena 4 _ (by omega) he
      (estadoDe_spec tablero16Cadena 4 hsome)
  have hev : (propagarRestricciones (estadoDe tablero16Cadena 4)).1 = true ∧
      EsVacia (propagarRestricciones (estadoDe tablero16Cadena 4)).2 (0, 1) ∧
      cuentaDe (propagarRestricciones (estadoDe tablero16Cadena 4)).2 (0, 1) = 1 := by
    decide!
  have hmem : (0, 1) ∈ celdas (propagarRestricciones (estadoDe tablero16Cadena 4)).2.tamano := by
    rw [(propagarRestricciones_marco _).2.1, mem_celdas]
    constructor <;> omega
  refine ⟨⟨h9, h25, hve⟩, hev, ?_⟩
  obtain ⟨k, s, _, ht, hcase⟩ :=
    propagarRestricciones_true (estadoDe tablero16Cadena 4) h9 h25 hve
  rcases hcase with ⟨st1, _, h2⟩ | ⟨_, h2, h3⟩ | ⟨hk, st1, h2, h3, h4⟩
  · rw [h2] at hev
    exact absurd hev.1 (by simp)
  · rw [h2] at hev hmem
    have h5 := h3 (0, 1) hmem hev.2.1
    have h6 : cuentaDe s (0, 1) = 1 := hev.2.2
    omega
  · have hk9 : k = 9 := by omega
    subst hk9
    exact ⟨s, st1, ht, h2, h3, h4⟩

set_option maxRecDepth 1000000 in
theorem estadoTrampa_consistente :
    Dimensionado estadoTrampa ∧ Consistente estadoTrampa ∧
      estadoTrampa.celdasVacias =
        (cerosDe (leerCelda estadoTrampa.sudoku) estadoTrampa.tamano : Nat) := by
  have hsome : (cargarSudoku Estado.inicial tablero25Trampa 5).isSome = true := by decide!
  have he : EntradasEn tablero25Trampa (5 * 5) 25 := by decide!
  exact consistente_carga Estado.inicial tablero25Trampa 5 (estadoDe tablero25Trampa 5)
    (by omega) (by omega) he (estadoDe_spec tablero25Trampa 5 hsome)

set_option maxRecDepth 1000000 in
/-- C16 (evaluation at the failing input). In `estadoTrampa` (25 × 25, vectors consistent
with the grid, `celdasVacias` equal to the number of empty cells) the call of
`resolverBacktracking` returns false, yet cell (0, 1), empty when the call was entered,
holds 2 when it returns, and `celdasVacias` is one less: the cell was filled by the
propagation of the nested call and was never cleared. -/
theorem resolverBacktracking_no_restaura :
    Consistente estadoTrampa ∧
    estadoTrampa.celdasVacias =
      (cerosDe (leerCelda estadoTrampa.sudoku) estadoTrampa.tamano : Nat) ∧
    leerCelda estadoTrampa.sudoku 0 1 = 0 ∧
    (resolverBacktracking 626 estadoTrampa).map
      (fun r => (r.1, leerCelda r.2.sudoku 0 1, r.2.celdasVacias - estadoTrampa.celdasVacias))
      = some (false, 2, -1) := by
  have h0 : leerCelda estadoTrampa.sudoku 0 1 = 0 := by decide!
  have hr : (resolverBacktracking 626 estadoTrampa).map
      (fun r => (r.1, leerCelda r.2.sudoku 0 1, r.2.celdasVacias - estadoTrampa.celdasVacias))
      = some (false, 2, -1) := by decide!
  exact ⟨estadoTrampa_consistente.2.1, estadoTrampa_consistente.2.2, h0, hr⟩

set_option maxRecDepth 1000000 in
/-- C17 (evaluation at the failing input). The state `estadoTrampa` (25 × 25) satisfies
the invariant of the data model; the call of `resolverBacktracking` on it returns false
in a state that does not: cell (0, 1) holds 2, placed by the propagation of the nested
call, while the vector of row 0, restored from the backup of the trial, has bit 2 set. -/
theorem resolverBacktracking_rompe_invariante :
    InvarianteSpec estadoTrampa ∧
    ∃ st2, resolverBacktracking 626 estadoTrampa = some (false, st2) ∧
      leerCelda st2.sudoku 0 1 = 2 ∧
      Bitset.test (leer 0 st2.filaCandidatos 0) 2 = true ∧
      ¬ InvarianteSpec st2 := by
  have hb : (resolverBacktracking 626 estadoTrampa).map Prod.fst = some false := by decide!
  have hres := resultado_spec _ false hb
  have hcel : leerCelda (estadoFinal (resolverBacktracking 626 estadoTrampa)).sudoku 0 1 = 2 := by
    decide!
  have hbit : Bitset.test
      (leer 0 (estadoFinal (resolverBacktracking 626 estadoTrampa)).filaCandidatos 0) 2 = true := by
    decide!
  have htam : estadoTrampa.tamano = 25 := by decide!
  have hm := (resolverBacktracking_marco 626 estadoTrampa false _ hres).2
  refine ⟨invarianteSpec_de_consistente estadoTrampa estadoTrampa_consistente.1
    estadoTrampa_consistente.2.1, _, hres, hcel, hbit, fun hinv => ?_⟩
  have h1 := (hinv 0 (by rw [hm, htam]; omega) 1 (by rw [hm, htam]; omega)).1
    (by rw [hcel]; decide) 2 (by omega) (by rw [hcel]; rfl)
  rw [hbit] at h1
  exact absurd h1.1 (by simp)


set_option maxRecDepth 1000000 in
/-- The 16 × 16 board `tablero16Unico` loaded: an instance of C26, in which the
propagation writes 1, the only candidate, in cell (0, 0). -/
theorem propagarRestricciones_unicos_witness :
    (9 < (estadoDe tablero16Unico 4).tamano ∧ Dimensionado (estadoDe tablero16Unico 4) ∧
      Consistente (estadoDe tablero16Unico 4)) ∧
    leerCelda (propagarRestricciones (estadoDe tablero16Unico 4)).2.sudoku 0 0 = 1 ∧
    (Relation.ReflTransGen ColocaUnico (estadoDe tablero16Unico 4)
        (propagarRestricciones (estadoDe tablero16Unico 4)).2 ∧
    (∀ i, i < (estadoDe tablero16Unico 4).tamano → ∀ j, j < (estadoDe tablero16Unico 4).tamano →
      leerCelda (estadoDe tablero16Unico 4).sudoku i j ≠ 0 →
      leerCelda (propagarRestricciones (estadoDe tablero16Unico 4)).2.sudoku i j =
        leerCelda (estadoDe tablero16Unico 4).sudoku i j) ∧
    (propagarRestricciones (estadoDe tablero16Unico 4)).2.celdasVacias =
      (estadoDe tablero16Unico 4).celdasVacias -
        (celdasLlenadas (leerCelda (estadoDe tablero16Unico 4).sudoku)
          (leerCelda (propagarRestricciones (estadoDe tablero16Unico 4)).2.sudoku)
          (estadoDe tablero16Unico 4).tamano : Nat) ∧
    Consistente (propagarRestricciones (estadoDe tablero16Unico 4)).2 ∧
    ∀ s, Completa s (estadoDe tablero16Unico 4).n →
      Prolonga (estadoDe tablero16Unico 4).tamano
        (leerCelda (estadoDe tablero16Unico 4).sudoku) s →
      Prolonga (estadoDe tablero16Unico 4).tamano
        (leerCelda (propagarRestricciones (estadoDe tablero16Unico 4)).2.sudoku) s) := by
  have h9 : 9 < (estadoDe tablero16Unico 4).tamano := by decide!
  have hsome : (cargarSudoku Estado.inicial tablero16Unico 4).isSome = true := by decide!
  have he : EntradasEn tablero16Unico (4 * 4) 25 := by decide!
  have hcar := consistente_carga Estado.inicial tablero16Unico 4 (estadoDe tablero16Unico 4)
    (by omega) (by omega) he (estadoDe_spec tablero16Unico 4 hsome)
  have h1 : leerCelda (propagarRestricciones (estadoDe tablero16Unico 4)).2.sudoku 0 0 = 1 := by
    decide!
  exact ⟨⟨h9, hcar.1, hcar.2.1⟩, h1,
    propagarRestricciones_unicos (estadoDe tablero16Unico 4) h9 hcar.1 hcar.2.1⟩

end Sudoku
